import Mathlib

/-!
Shallow embedding of the `akualab/graph` Go package (graph.go, a-star.go,
viterbi.go) and verification of the specification claims.

Modelling conventions:
* Go `*Node` pointers become natural-number identifiers (`NodeId`) into an
  explicit node store (`St`), so aliasing of node objects through several
  graphs and successor maps is represented faithfully.
* Go `map` values become association lists; Go map iteration order is
  non-deterministic, so the lists fix one order.  Every claim proved below is
  insensitive to that order (lookups, per-key folds, maxima).
* Go `float64` edge weights and scores become `ℚ` and, where `math.Inf(-1)`
  occurs in the source, the extended type `W` with a bottom element `ninf`.
* Fallible operations return `Option`/`Bool`/error sums exactly as the source
  returns `nil`/`bool`/`error`.
-/

namespace AkGraph

/-- Extended weight domain: a rational or `-Inf` (`math.Inf(-1)` in the Go
source).  `+Inf` and `NaN` never occur in the modelled code paths. -/
inductive W where
  | ninf : W
  | fin : ℚ → W
deriving DecidableEq, Repr

/-- Addition of a finite rational to an extended weight (`-Inf + q = -Inf`,
matching IEEE float behaviour used by the source). -/
def W.addQ : W → ℚ → W
  | W.ninf, _ => W.ninf
  | W.fin a, q => W.fin (a + q)

/-- Strict comparison on `W`, matching Go `>` on float64 with `-Inf`:
`-Inf > -Inf` is false, any finite value is greater than `-Inf`. -/
def W.ltb : W → W → Bool
  | _, W.ninf => false
  | W.ninf, W.fin _ => true
  | W.fin a, W.fin b => decide (a < b)

/-- Association-list lookup: the model of Go map indexing. -/
def lookupA {α β : Type} [DecidableEq α] : List (α × β) → α → Option β
  | [], _ => none
  | (k, v) :: rest, a => if k = a then some v else lookupA rest a

/-- Association-list insert/overwrite: the model of Go `m[k] = v`. -/
def insertA {α β : Type} [DecidableEq α] : List (α × β) → α → β → List (α × β)
  | [], a, b => [(a, b)]
  | (k, v) :: rest, a, b =>
    if k = a then (k, b) :: rest else (k, v) :: insertA rest a b

/-- Association-list removal of the first binding: the model of Go
`delete(m, k)` (under key-nodup there is at most one binding). -/
def eraseA {α β : Type} [DecidableEq α] : List (α × β) → α → List (α × β)
  | [], _ => []
  | (k, v) :: rest, a => if k = a then rest else (k, v) :: eraseA rest a

/-- In-place modification of an existing binding (no-op when absent). -/
def updateA {α β : Type} [DecidableEq α] (l : List (α × β)) (a : α) (f : β → β) :
    List (α × β) :=
  match l with
  | [] => []
  | (k, v) :: rest =>
    if k = a then (k, f v) :: rest else (k, v) :: updateA rest a f

/-- Node identity: the model of a Go `*Node` pointer. -/
abbrev NodeId := Nat

/-- The `Node` object of graph.go minus its identity: key, opaque value, and
the successor map `map[*Node]float64` as an id-keyed association list. -/
structure NodeData (V : Type) where
  key : String
  value : V
  succs : List (NodeId × ℚ)
deriving Repr

/-- The store of all allocated node objects; `next` is the next fresh id. -/
structure St (V : Type) where
  heap : List (NodeId × NodeData V)
  next : Nat
deriving Repr

/-- The `Graph` object of graph.go: its `nodes map[string]*Node` field. -/
abbrev GraphM := List (String × NodeId)

/-- Read a node object from the store (a Go pointer dereference; the default
is never reached for ids produced by the API, see `Wf`). -/
def getNode {V : Type} (st : St V) (i : NodeId) : Option (NodeData V) :=
  lookupA st.heap i

/-- Successor list of a node id (empty for an unallocated id). -/
def succsOf {V : Type} (st : St V) (i : NodeId) : List (NodeId × ℚ) :=
  (getNode st i).elim [] (fun nd => nd.succs)

/-- Key of a node id (`""` for an unallocated id, as `Node.Key` on nil). -/
def keyOf {V : Type} (st : St V) (i : NodeId) : String :=
  (getNode st i).elim "" (fun nd => nd.key)

/-- Well-formedness of a store/graph pair: what the graph.go API maintains.
Keys and ids registered in a graph are unique, registered ids are allocated,
allocated ids are below `next`, and each successor map has unique keys
(a Go map cannot hold a key twice). -/
def Wf {V : Type} (st : St V) (g : GraphM) : Prop :=
  (g.map Prod.fst).Nodup ∧
  (g.map Prod.snd).Nodup ∧
  (∀ p ∈ g, p.2 ∈ st.heap.map Prod.fst) ∧
  (st.heap.map Prod.fst).Nodup ∧
  (∀ p ∈ st.heap, p.1 < st.next) ∧
  (∀ p ∈ st.heap, ((p.2 : NodeData V).succs.map Prod.fst).Nodup) ∧
  (∀ p ∈ g, keyOf st p.2 = p.1)

/-- The data-model invariant of the spec: every edge endpoint referenced by a
registered node's successor map is itself registered in the graph. -/
def Closed {V : Type} (st : St V) (g : GraphM) : Prop :=
  ∀ p ∈ g, ∀ q ∈ succsOf st (p.2 : NodeId), (q.1 : NodeId) ∈ g.map Prod.snd

/-- Heap closure: successor ids of allocated nodes are themselves allocated
(true of every state the API can build, since Go pointers stay valid). -/
def HClosed {V : Type} (st : St V) : Prop :=
  ∀ p ∈ st.heap, ∀ q ∈ (p.2 : NodeData V).succs,
    (q.1 : NodeId) ∈ st.heap.map Prod.fst

/-- `New` of graph.go. -/
def New : GraphM := []

/-- `Graph.Set` of graph.go: create a node with a fresh identity if the key is
absent, otherwise update only the value.  Returns the node's id as the source
returns the node. -/
def Set {V : Type} (st : St V) (g : GraphM) (key : String) (value : V) :
    St V × GraphM × NodeId :=
  match lookupA g key with
  | some i => (⟨updateA st.heap i (fun nd => { nd with value := value }), st.next⟩, g, i)
  | none =>
    let i := st.next
    (⟨st.heap ++ [(i, ⟨key, value, []⟩)], st.next + 1⟩, g ++ [(key, i)], i)

/-- `Graph.Connect` of graph.go: fails when either key is unknown, otherwise
creates or overwrites the arc. -/
def Connect {V : Type} (st : St V) (g : GraphM) (from_ to_ : String) (weight : ℚ) :
    St V × Bool :=
  match lookupA g from_, lookupA g to_ with
  | some v, some otherV =>
    (⟨updateA st.heap v (fun nd => { nd with succs := insertA nd.succs otherV weight }),
      st.next⟩, true)
  | _, _ => (st, false)

/-- `Node.Connect` of graph.go: node-level connect; only a nil target is
rejected; the target need not be registered in any graph. -/
def NodeConnect {V : Type} (st : St V) (node : NodeId) (toNode : Option NodeId)
    (weight : ℚ) : St V × Bool :=
  match toNode with
  | none => (st, false)
  | some t =>
    (⟨updateA st.heap node (fun nd => { nd with succs := insertA nd.succs t weight }),
      st.next⟩, true)

/-- `Graph.IsConnected` of graph.go: reports existence and weight of a direct
arc; any missing endpoint or missing arc is `(false, 0)`. -/
def IsConnected {V : Type} (st : St V) (g : GraphM) (from_ to_ : String) :
    Bool × ℚ :=
  match lookupA g from_ with
  | none => (false, 0)
  | some fromV =>
    match lookupA g to_ with
    | none => (false, 0)
    | some toV =>
      match lookupA (succsOf st fromV) toV with
      | some w => (true, w)
      | none => (false, 0)

/-- `Node.IsConnected` of graph.go. -/
def NodeIsConnected {V : Type} (st : St V) (node toNode : NodeId) : Bool × ℚ :=
  match lookupA (succsOf st node) toNode with
  | some w => (true, w)
  | none => (false, 0)

/-- `Graph.Delete` of graph.go, verbatim: after removing the key it iterates
over every remaining node `otherNode` and, for every successor of
`otherNode`, deletes the arc from that successor to the removed node
(`delete(successor.successors, v)` in the source). -/
def Delete {V : Type} (st : St V) (g : GraphM) (key : String) :
    St V × GraphM × Bool :=
  match lookupA g key with
  | none => (st, g, false)
  | some v =>
    let g' := eraseA g key
    let st' := g'.foldl (fun acc p =>
      (succsOf acc p.2).foldl (fun acc2 q =>
        ⟨updateA acc2.heap q.1 (fun nd => { nd with succs := eraseA nd.succs v }),
         acc2.next⟩) acc) st
    (st', g', true)

/-- `Graph.GetAll` of graph.go: all registered nodes (map-value iteration,
determinized to registration order). -/
def GetAll (g : GraphM) : List NodeId :=
  g.map Prod.snd

/-- `Graph.Predecessors` of graph.go: the registered nodes `n` with
`n.IsConnected(node)`; the source collects them in a set, modelled by
`dedup`. -/
def Predecessors {V : Type} (st : St V) (g : GraphM) (node : NodeId) :
    List NodeId :=
  ((GetAll g).filter (fun n => (NodeIsConnected st n node).1)).dedup

/-- `Graph.StartNodes` of graph.go: registered nodes with no predecessors. -/
def StartNodes {V : Type} (st : St V) (g : GraphM) : List NodeId :=
  (GetAll g).filter (fun n => (Predecessors st g n).length = 0)

/-- `Graph.EndNodes` of graph.go: registered nodes with no successors. -/
def EndNodes {V : Type} (st : St V) (g : GraphM) : List NodeId :=
  (GetAll g).filter (fun n => (succsOf st n).length = 0)

/-- First index of an element in a list, `none` when absent. -/
def memIdx {α : Type} [DecidableEq α] : List α → α → Option Nat
  | [], _ => none
  | x :: rest, a => if x = a then some 0 else (memIdx rest a).map (· + 1)

/-- The model of reading Go's `index` map (`map[*Node]int`): the element's
index, or `0` — the zero value of `int` — when the element is absent. -/
def idxOrZero {α : Type} [DecidableEq α] (l : List α) (a : α) : Nat :=
  (memIdx l a).getD 0

/-- The node slice of `TransitionMatrix`, sorted by key
(`sort.Sort(ByName{nodes})`; keys are unique so the order is canonical). -/
def sortedNodes {V : Type} (st : St V) (g : GraphM) : List NodeId :=
  (GetAll g).mergeSort (fun a b => decide (keyOf st a ≤ keyOf st b))

/-- The default entry written when a matrix row is allocated: `-Inf` in log
mode, `0` otherwise. -/
def tmDefault (isLog : Bool) : W :=
  if isLog then W.ninf else W.fin 0

/-- One successor step of the `TransitionMatrix` fill loop, acting on the
current row of the source node: allocate the row at its first use
(`len(weights[i]) == 0`), then write the arc weight into the successor's
column `index[toNode]` (`0` for a node missing from the index map, the Go
zero value of `int`). -/
def tmRowStep (n : Nat) (isLog : Bool) (nodes : List NodeId)
    (row : List W) (q : NodeId × ℚ) : List W :=
  (if row.length = 0 then List.replicate n (tmDefault isLog) else row).set
    (idxOrZero nodes q.1) (W.fin q.2)

/-- The same step acting on the whole matrix, reading and writing row `i`
(`weights[i][j] = w` in the source). -/
def tmInner (n : Nat) (isLog : Bool) (nodes : List NodeId) (i : Nat)
    (ws2 : List (List W)) (q : NodeId × ℚ) : List (List W) :=
  ws2.set i (tmRowStep n isLog nodes (ws2.getD i []) q)

/-- The per-source-node step of the `TransitionMatrix` fill loop. -/
def tmOuter {V : Type} (st : St V) (n : Nat) (isLog : Bool)
    (nodes : List NodeId) (ws : List (List W)) (fromNode : NodeId) :
    List (List W) :=
  (succsOf st fromNode).foldl (tmInner n isLog nodes (idxOrZero nodes fromNode)) ws

/-- `Graph.TransitionMatrix` of graph.go: nodes are sorted by key, `keys`
collects the sorted keys (`keys[index[fromNode]] = fromNode.key`), and the
fill loop runs `tmOuter` over every node starting from `n` nil rows.  A node
with no successors keeps its nil row. -/
def TransitionMatrix {V : Type} (st : St V) (g : GraphM) (isLog : Bool) :
    List String × List (List W) :=
  let n := g.length
  let nodes := sortedNodes st g
  let keys := nodes.map (keyOf st)
  let weights := nodes.foldl (tmOuter st n isLog nodes)
    (List.replicate n ([] : List W))
  (keys, weights)

/-- The node-value half of `GraphIO` built by `exportGraph`/`GobEncode`:
`Nodes[v.key] = v.value` for every registered node. -/
def exportNodes {V : Type} (st : St V) (g : GraphM) : List (String × V) :=
  g.foldl (fun m p =>
    match getNode st p.2 with
    | some nd => insertA m p.1 nd.value
    | none => m) []

/-- The arc half of `GraphIO`: `Arcs[v.key][successor.key] = weight`. -/
def exportArcs {V : Type} (st : St V) (g : GraphM) :
    List (String × List (String × ℚ)) :=
  g.foldl (fun m p =>
    match getNode st p.2 with
    | some nd =>
      insertA m p.1 (nd.succs.foldl (fun m2 q => insertA m2 (keyOf st q.1) q.2) [])
    | none => m) []

/-- One arc-connect step of `GobDecode`: `g.Connect(key, otherKey, weight)`,
turning a failed connect into the "invalid arc endpoints" error. -/
def cStep {V : Type} (k : String) (acc2 : Except String (St V × GraphM))
    (q : String × ℚ) : Except String (St V × GraphM) :=
  match acc2 with
  | .error e => .error e
  | .ok sg2 =>
    let r := Connect sg2.1 sg2.2 k q.1 q.2
    if r.2 then .ok (r.1, sg2.2) else .error "invalid arc endpoints"

/-- The per-source-key step of the `GobDecode` arc loop. -/
def oStep {V : Type} (acc : Except String (St V × GraphM))
    (p : String × List (String × ℚ)) : Except String (St V × GraphM) :=
  match acc with
  | .error e => .error e
  | .ok sg => p.2.foldl (cStep p.1) (.ok sg)

/-- `Graph.Clone` of graph.go: gob round trip through `GraphIO`
(`GobEncode` then `GobDecode` into a `New` graph): `Set` every exported
key/value, then `Connect` every exported arc by key; a `Connect` that fails
yields the "invalid arc endpoints" error.  Fresh node objects are allocated
in the shared store. -/
def CloneG {V : Type} (st : St V) (g : GraphM) :
    Except String (St V × GraphM) :=
  let nodesIO := exportNodes st g
  let arcsIO := exportArcs st g
  let setsDone := nodesIO.foldl (fun acc p =>
    ((Set acc.1 acc.2 p.1 p.2).1, ((Set acc.1 acc.2 p.1 p.2).2.1 : GraphM)))
    (st, New)
  arcsIO.foldl oStep (.ok setsDone)

/-- `ErrDuplicateKey` of graph.go. -/
def ErrDuplicateKey : String := "cannot merge node because key already exists"

/-- The duplicate scan of `Merge`: walk the input graphs' keys against the
accumulating `tmpMap`, bailing out at the first key already present. -/
def dupFound : List String → List (String × Bool) → Bool
  | [], _ => false
  | k :: rest, tmp =>
    if (lookupA tmp k).isSome then true else dupFound rest (insertA tmp k true)

/-- One input-graph step of `Merge`: skip after an earlier error, otherwise
clone the input and copy the cloned nodes into the receiver by key
(`g.nodes[key] = node`). -/
def mStep {V : Type} (acc : St V × GraphM × Option String) (gg : GraphM) :
    St V × GraphM × Option String :=
  match acc.2.2 with
  | some _ => acc
  | none =>
    match CloneG acc.1 gg with
    | .error e => (acc.1, acc.2.1, some e)
    | .ok sg =>
      (sg.1, sg.2.foldl (fun c p => insertA c p.1 p.2) acc.2.1, none)

/-- `Graph.Merge` of graph.go: pre-validate that no key of any input graph
collides with the receiver or another input; on a collision return
`ErrDuplicateKey` with the receiver untouched.  Otherwise clone each input
and copy the cloned nodes into the receiver by key.  The third component is
the returned error (`none` on success). -/
def Merge {V : Type} (st : St V) (g : GraphM) (graphs : List GraphM) :
    St V × GraphM × Option String :=
  let tmp := g.foldl (fun m p => insertA m p.1 true) []
  if dupFound (graphs.foldr (fun gg acc => gg.map Prod.fst ++ acc) []) tmp then
    (st, g, some ErrDuplicateKey)
  else
    graphs.foldl mStep (st, g, none)

/-! ### Viterbi decoder (viterbi.go, current version: `NewDecoder(g)` with
start/end detection, recursive `pass`, per-node pruning in `propagate`).

Node values implement the `Viterbier` interface: a scoring function over
observations and an `IsNull` flag.  In this typed model the values of a
decodable graph are `Vit O`, so `checkViterbier` (a runtime type check in Go)
always succeeds and is not modelled separately. -/

/-- The `Viterbier` capability of a node value. -/
structure Vit (O : Type) where
  score : O → ℚ
  isNull : Bool

/-- `Token` of viterbi.go: accumulated score, anchor node, backtrace pointer,
sequence index (`-1` for the initial hypothesis).  The Go field `BT *Token`
is a possibly-nil pointer, modelled by the two constructors: `first` has a
nil backtrace, `step` carries the previous token. -/
inductive Token where
  | first : W → NodeId → Int → Token
  | step : W → NodeId → Token → Int → Token
deriving DecidableEq, Repr

/-- Accumulated score of a token. -/
def Token.score : Token → W
  | .first s _ _ => s
  | .step s _ _ _ => s

/-- Anchor node of a token. -/
def Token.node : Token → NodeId
  | .first _ n _ => n
  | .step _ n _ _ => n

/-- Backtrace pointer of a token. -/
def Token.bt : Token → Option Token
  | .first _ _ _ => none
  | .step _ _ b _ => some b

/-- Sequence index of a token. -/
def Token.index : Token → Int
  | .first _ _ i => i
  | .step _ _ _ i => i

/-- Construction errors of `NewDecoder`, with the actual count found, as the
source formats it into the error string. -/
inductive DecErr where
  | badStart (count : Nat)
  | badEnd (count : Nat)
deriving DecidableEq, Repr

/-- The `Decoder` of viterbi.go (its mutable `active`/`hyps` fields are
threaded explicitly through `propagate`). -/
structure Decoder where
  graph : GraphM
  start : NodeId
  endN : NodeId
deriving DecidableEq, Repr

/-- `NewDecoder` of viterbi.go: requires exactly one start node and exactly
one end node, reporting the actual count otherwise; the checks run at
construction, before any decoding. -/
def NewDecoder {O : Type} (st : St (Vit O)) (g : GraphM) :
    Except DecErr Decoder :=
  let starts := StartNodes st g
  if starts.length ≠ 1 then .error (.badStart starts.length)
  else
    let ends := EndNodes st g
    if ends.length ≠ 1 then .error (.badEnd ends.length)
    else .ok ⟨g, starts.headI, ends.headI⟩

/-- The `Viterbier` value of a node (a Go interface dereference; the default
is never reached for allocated ids). -/
def vitOf {O : Type} (st : St (Vit O)) (i : NodeId) : Vit O :=
  (getNode st i).elim ⟨fun _ => 0, false⟩ (fun nd => nd.value)

/-- The candidate-hypothesis map `d.hyps : map[*Node][]*Token`. -/
abbrev Hyps := List (NodeId × List Token)

/-- The recording half of `createToken` in viterbi.go: the fresh token is
appended to `d.hyps[node]` unless the node is null. -/
def record {O : Type} (st : St (Vit O)) (hyps : Hyps) (node : NodeId)
    (nt : Token) : Hyps :=
  if (vitOf st node).isNull then hyps
  else insertA hyps node (((lookupA hyps node).getD []) ++ [nt])

/-- One successor step of `pass` in viterbi.go, parametrized by the
continuation `k` (the recursive call at the next fuel level): an edge to the
end node yields a `-Inf` token and recurses; an edge to a null node yields a
token scored `t.Score + w` and recurses (same observation); an edge to an
emitting node yields a token scored `t.Score + w + Score(o)` and stops. -/
def passStep {O : Type} (st : St (Vit O)) (dend : NodeId) (o : O) (idx : Int)
    (k : Hyps → Token → Hyps) (t : Token) (hy : Hyps) (q : NodeId × ℚ) : Hyps :=
  if q.1 = dend then
    let nt := Token.step W.ninf q.1 t idx
    k (record st hy q.1 nt) nt
  else if (vitOf st q.1).isNull then
    let nt := Token.step (t.score.addQ q.2) q.1 t idx
    k (record st hy q.1 nt) nt
  else
    let nt := Token.step ((t.score.addQ q.2).addQ ((vitOf st q.1).score o))
      q.1 t idx
    record st hy q.1 nt

/-- `pass` of viterbi.go: walk the successors of the token's node, taking a
`passStep` for each edge.  The Go recursion is unbounded on null cycles (a
documented precondition violation); the model consumes `fuel` per recursion
level and returns the hypotheses unchanged at zero. -/
def pass {O : Type} (st : St (Vit O)) (dend : NodeId) (o : O) (idx : Int) :
    Nat → Hyps → Token → Hyps
  | 0, hyps, _ => hyps
  | fuel + 1, hyps, t =>
    (succsOf st t.node).foldl
      (passStep st dend o idx (fun hy2 t2 => pass st dend o idx fuel hy2 t2) t)
      hyps

/-- `maxScore` of viterbi.go: running maximum starting at `-Inf` with strict
improvement, so the first of equal maxima wins and an all-`-Inf` candidate
list yields no token. -/
def maxScore (tokens : List Token) : Option Token :=
  (tokens.foldl (fun acc t =>
    if acc.2.ltb t.score then (some t, t.score) else acc)
    ((none : Option Token), W.ninf)).1

/-- The retention step of `propagate`: append the best-scoring candidate of
a node, if `maxScore` found one. -/
def selStep (hyps : Hyps) (acc : List Token) (p : String × NodeId) :
    List Token :=
  match maxScore ((lookupA hyps p.2).getD []) with
  | some best => acc ++ [best]
  | none => acc

/-- `propagate` of viterbi.go: initialize an empty candidate list per
registered node, run `pass` from every active token, then retain per node
the best-scoring candidate as the next active set.  Returns the candidate
map together with the new active list. -/
def propagate {O : Type} (st : St (Vit O)) (d : Decoder) (fuel : Nat)
    (active : List Token) (idx : Int) (o : O) : Hyps × List Token :=
  let hyps0 : Hyps := (GetAll d.graph).foldl (fun h node => insertA h node []) []
  let hyps := active.foldl (fun h t => pass st d.endN o idx fuel h t) hyps0
  (hyps, d.graph.foldl (selStep hyps) [])

/-- `Decode` of viterbi.go: start from the zero-score token at the start node
with index `-1`, propagate once per observation, and return the best token of
the final active set. -/
def Decode {O : Type} (st : St (Vit O)) (d : Decoder) (fuel : Nat)
    (obs : List O) : Option Token :=
  let t0 := Token.first (W.fin 0) d.start (-1)
  let final := obs.enum.foldl
    (fun act ko => (propagate st d fuel act (ko.1 : Int) ko.2).2) [t0]
  maxScore final

/-! ### A* search (a-star.go).

The `Item` struct and the `priorityQueue` it lives in are declared outside
the files under `src/` (a-star.go only uses them through `container/heap`).
Modelled from the spec: an `Item` carries a node reference, a predecessor
reference, the `distanceFromStart` (g-score) and the estimated total
(`g + heuristic`), which is the priority; the queue pops a minimum-priority
item (`container/heap` semantics; ties are determinized to the first
minimum).  The `index` field is `container/heap` bookkeeping and has no
observable effect, so it is omitted. -/

/-- An open/closed-list entry of the A* search.  `v` and `prev` are possibly
nil node pointers. -/
structure Item where
  v : Option NodeId
  prev : Option NodeId
  distanceFromStart : ℚ
  estimate : ℚ
deriving DecidableEq, Repr

/-- Pop a minimum-estimate item (the first one among equal estimates),
returning it and the remaining queue. -/
def popMin : List Item → Option (Item × List Item)
  | [] => none
  | it :: rest =>
    match popMin rest with
    | none => some (it, [])
    | some (m, rest') =>
      if it.estimate ≤ m.estimate then some (it, rest) else some (m, it :: rest')

/-- `heap.Remove(openQueue, md.index)`: remove the (unique, under the loop
invariant) queued item for the given node. -/
def removeItem (q : List Item) (key : Option NodeId) : List Item :=
  q.eraseP (fun it => decide (it.v = key))

/-- The path-building loop of `ShortestPathWithHeuristic`: walk predecessor
links through the closed list, appending each node's key; there is no
reversal in the source, so the end node's key comes first.  Fuel bounds the
walk (the Go loop would cycle forever on a cyclic `prev` chain, which the
algorithm never builds). -/
def buildPath {V : Type} (st : St V) (closedL : List (Option NodeId × Item)) :
    Nat → Option NodeId → List String → List String
  | 0, _, path => path
  | _ + 1, none, path => path
  | fuel + 1, some i, path =>
    let nxt := (lookupA closedL (some i)).elim none (fun it => it.prev)
    buildPath st closedL fuel nxt (path ++ [keyOf st i])

/-- One A* state: the priority queue, the open list and the closed list. -/
structure AState where
  queue : List Item
  openL : List (Option NodeId × Item)
  closedL : List (Option NodeId × Item)
deriving DecidableEq, Repr

/-- One successor relaxation of `ShortestPathWithHeuristic`: skip a closed
successor, skip an open successor with a better known distance, otherwise
remove any stale queued item and push the fresh one. -/
def relaxStep {V : Type} (st : St V) (endKey : String)
    (heuristic : String → String → ℚ) (current : Option NodeId) (dist : ℚ)
    (closedL : List (Option NodeId × Item))
    (acc : List Item × List (Option NodeId × Item)) (q : NodeId × ℚ) :
    List Item × List (Option NodeId × Item) :=
  let successor := q.1
  if (lookupA closedL (some successor)).isSome then acc
  else
    let distanceToSuccessor := dist + q.2
    let item : Item := ⟨some successor, current, distanceToSuccessor,
      distanceToSuccessor + heuristic (keyOf st successor) endKey⟩
    match lookupA acc.2 (some successor) with
    | some md =>
      if md.distanceFromStart < distanceToSuccessor then acc
      else (removeItem acc.1 (some successor) ++ [item],
        insertA acc.2 (some successor) item)
    | none => (acc.1 ++ [item], insertA acc.2 (some successor) item)

/-- The successor-relaxation loop of `ShortestPathWithHeuristic`. -/
def relaxSuccs {V : Type} (st : St V) (endKey : String)
    (heuristic : String → String → ℚ) (current : Option NodeId) (dist : ℚ)
    (succs : List (NodeId × ℚ)) (queue : List Item)
    (openL closedL : List (Option NodeId × Item)) :
    List Item × List (Option NodeId × Item) :=
  succs.foldl (relaxStep st endKey heuristic current dist closedL)
    (queue, openL)

/-- The main loop of `ShortestPathWithHeuristic`, one iteration per popped
item.  The fuel given by the wrapper exceeds the number of possible
iterations (each iteration closes a node never closed before), so the `fuel
= 0` branch is unreachable from the wrapper. -/
def astarLoop {V : Type} (st : St V) (endKey : String)
    (heuristic : String → String → ℚ) (endN : Option NodeId) :
    Nat → AState → List String × Bool
  | 0, _ => ([], false)
  | fuel + 1, s =>
    match popMin s.queue with
    | none => ([], false)
    | some (popped, queue') =>
      let current := popped.v
      let closedL' := insertA s.closedL current ((lookupA s.openL current).getD popped)
      let openL' := eraseA s.openL current
      if current = endN then
        (buildPath st closedL' (closedL'.length + 1) current [], true)
      else
        let dist := ((lookupA closedL' current).getD popped).distanceFromStart
        let succs := match current with
          | none => []
          | some i => succsOf st i
        let qo := relaxSuccs st endKey heuristic current dist succs queue' openL' closedL'
        astarLoop st endKey heuristic endN fuel ⟨qo.1, qo.2, closedL'⟩

/-- `ShortestPathWithHeuristic` of a-star.go: resolve both keys (a missing
key yields a nil pointer), seed the open structures with the zero-distance
start item, and run the loop. -/
def ShortestPathWithHeuristic {V : Type} (st : St V) (g : GraphM)
    (startKey endKey : String) (heuristic : String → String → ℚ) :
    List String × Bool :=
  let start := lookupA g startKey
  let endN := lookupA g endKey
  let item : Item := ⟨start, none, 0, 0⟩
  astarLoop st endKey heuristic endN (st.heap.length + 2)
    ⟨[item], [(start, item)], []⟩

/-! ### Association-list lemmas -/

theorem lookupA_eq_some_of_mem {α β : Type} [DecidableEq α]
    {l : List (α × β)} {a : α} {b : β}
    (hnd : (l.map Prod.fst).Nodup) (hmem : (a, b) ∈ l) :
    lookupA l a = some b := by
  induction l with
  | nil => cases hmem
  | cons hd tl ih =>
    obtain ⟨k, v⟩ := hd
    simp only [List.map_cons, List.nodup_cons] at hnd
    rcases List.mem_cons.mp hmem with h | h
    · cases h
      simp [lookupA]
    · have hka : k ≠ a := by
        intro hk
        exact hnd.1 (hk ▸ (List.mem_map.mpr ⟨(a, b), h, rfl⟩))
      simp [lookupA, hka, ih hnd.2 h]

theorem mem_of_lookupA_eq_some {α β : Type} [DecidableEq α]
    {l : List (α × β)} {a : α} {b : β} (h : lookupA l a = some b) :
    (a, b) ∈ l := by
  induction l with
  | nil => simp [lookupA] at h
  | cons hd tl ih =>
    obtain ⟨k, v⟩ := hd
    by_cases hk : k = a
    · subst hk
      simp [lookupA] at h
      simp [h]
    · simp [lookupA, hk] at h
      exact List.mem_cons_of_mem _ (ih h)

theorem lookupA_isSome_iff {α β : Type} [DecidableEq α]
    {l : List (α × β)} {a : α} :
    (lookupA l a).isSome ↔ a ∈ l.map Prod.fst := by
  induction l with
  | nil => simp [lookupA]
  | cons hd tl ih =>
    obtain ⟨k, v⟩ := hd
    by_cases hk : k = a
    · subst hk
      simp [lookupA]
    · simp [lookupA, hk, ih, Ne.symm hk]

theorem lookupA_eq_none_iff {α β : Type} [DecidableEq α]
    {l : List (α × β)} {a : α} :
    lookupA l a = none ↔ a ∉ l.map Prod.fst := by
  rw [← lookupA_isSome_iff, Option.isSome_iff_exists]
  cases lookupA l a <;> simp

theorem lookupA_insertA_self {α β : Type} [DecidableEq α]
    (l : List (α × β)) (a : α) (b : β) :
    lookupA (insertA l a b) a = some b := by
  induction l with
  | nil => simp [insertA, lookupA]
  | cons hd tl ih =>
    obtain ⟨k, v⟩ := hd
    by_cases hk : k = a
    · simp [insertA, hk, lookupA]
    · simp [insertA, hk, lookupA, ih]

theorem lookupA_insertA_ne {α β : Type} [DecidableEq α]
    (l : List (α × β)) {a a' : α} (b : β) (h : a ≠ a') :
    lookupA (insertA l a b) a' = lookupA l a' := by
  induction l with
  | nil => simp [insertA, lookupA, h]
  | cons hd tl ih =>
    obtain ⟨k, v⟩ := hd
    by_cases hk : k = a
    · subst hk
      simp [insertA, lookupA, h]
    · simp [insertA, hk, lookupA, ih]

theorem keys_insertA {α β : Type} [DecidableEq α]
    (l : List (α × β)) (a : α) (b : β) :
    (insertA l a b).map Prod.fst =
      if a ∈ l.map Prod.fst then l.map Prod.fst else l.map Prod.fst ++ [a] := by
  induction l with
  | nil => simp [insertA]
  | cons hd tl ih =>
    obtain ⟨k, v⟩ := hd
    by_cases hk : k = a
    · subst hk
      simp [insertA]
    · simp only [insertA, if_neg hk, List.map_cons, ih]
      by_cases hmem : a ∈ tl.map Prod.fst
      · simp [hmem, Ne.symm hk]
      · simp [hmem, Ne.symm hk]

theorem keys_updateA {α β : Type} [DecidableEq α]
    (l : List (α × β)) (a : α) (f : β → β) :
    (updateA l a f).map Prod.fst = l.map Prod.fst := by
  induction l with
  | nil => simp [updateA]
  | cons hd tl ih =>
    obtain ⟨k, v⟩ := hd
    by_cases hk : k = a <;> simp [updateA, hk, ih]

theorem lookupA_updateA_self {α β : Type} [DecidableEq α]
    (l : List (α × β)) (a : α) (f : β → β) :
    lookupA (updateA l a f) a = (lookupA l a).map f := by
  induction l with
  | nil => simp [updateA, lookupA]
  | cons hd tl ih =>
    obtain ⟨k, v⟩ := hd
    by_cases hk : k = a
    · simp [updateA, hk, lookupA]
    · simp [updateA, hk, lookupA, ih]

theorem lookupA_updateA_ne {α β : Type} [DecidableEq α]
    (l : List (α × β)) {a a' : α} (f : β → β) (h : a ≠ a') :
    lookupA (updateA l a f) a' = lookupA l a' := by
  induction l with
  | nil => simp [updateA]
  | cons hd tl ih =>
    obtain ⟨k, v⟩ := hd
    by_cases hk : k = a
    · subst hk
      simp [updateA, lookupA, h]
    · simp [updateA, hk, lookupA, ih]

theorem keys_eraseA_subset {α β : Type} [DecidableEq α]
    (l : List (α × β)) (a : α) :
    ∀ x ∈ (eraseA l a).map Prod.fst, x ∈ l.map Prod.fst := by
  induction l with
  | nil => simp [eraseA]
  | cons hd tl ih =>
    obtain ⟨k, v⟩ := hd
    by_cases hk : k = a
    · subst hk
      intro x hx
      simp [eraseA] at hx
      simp [hx]
    · intro x hx
      simp [eraseA, hk] at hx
      rcases hx with h | h
      · simp [h]
      · exact List.mem_cons_of_mem _ (ih x (by simpa using h))

theorem lookupA_eraseA_ne {α β : Type} [DecidableEq α]
    (l : List (α × β)) {a a' : α} (h : a ≠ a')
    (hnd : (l.map Prod.fst).Nodup) :
    lookupA (eraseA l a) a' = lookupA l a' := by
  induction l with
  | nil => simp [eraseA]
  | cons hd tl ih =>
    obtain ⟨k, v⟩ := hd
    simp only [List.map_cons, List.nodup_cons] at hnd
    by_cases hk : k = a
    · subst hk
      simp [eraseA, lookupA, h]
    · simp [eraseA, hk, lookupA, ih hnd.2]

theorem lookupA_eraseA_self {α β : Type} [DecidableEq α]
    (l : List (α × β)) (a : α) (hnd : (l.map Prod.fst).Nodup) :
    lookupA (eraseA l a) a = none := by
  induction l with
  | nil => simp [eraseA, lookupA]
  | cons hd tl ih =>
    obtain ⟨k, v⟩ := hd
    simp only [List.map_cons, List.nodup_cons] at hnd
    by_cases hk : k = a
    · subst hk
      simp only [eraseA, if_pos rfl]
      exact lookupA_eq_none_iff.mpr hnd.1
    · simp [eraseA, hk, lookupA, ih hnd.2]

theorem lookupA_append {α β : Type} [DecidableEq α]
    (l1 l2 : List (α × β)) (a : α) :
    lookupA (l1 ++ l2) a =
      match lookupA l1 a with
      | some b => some b
      | none => lookupA l2 a := by
  induction l1 with
  | nil => simp [lookupA]
  | cons hd tl ih =>
    obtain ⟨k, v⟩ := hd
    by_cases hk : k = a <;> simp [lookupA, hk, ih]

/-! ### Derived facts about the store -/

instance {V : Type} (st : St V) (g : GraphM) : Decidable (Wf st g) := by
  unfold Wf
  infer_instance

instance {V : Type} (st : St V) (g : GraphM) : Decidable (Closed st g) := by
  unfold Closed
  infer_instance

instance {V : Type} (st : St V) : Decidable (HClosed st) := by
  unfold HClosed
  infer_instance

theorem getNode_of_mem_graph {V : Type} {st : St V} {g : GraphM}
    (hwf : Wf st g) {k : String} {n : NodeId} (h : (k, n) ∈ g) :
    ∃ nd, getNode st n = some nd := by
  have hmem : n ∈ st.heap.map Prod.fst := hwf.2.2.1 (k, n) h
  exact Option.isSome_iff_exists.mp
    ((@lookupA_isSome_iff _ _ _ st.heap n).mpr hmem)

/-! ### Concrete graphs used by witnesses and counterexamples -/

/-- The two-node graph `1 -(7)-> 2` (the literal store the API builds from
`Set "1"; Set "2"; Connect "1" "2" 7`). -/
def dgSt : St Int := ⟨[(0, ⟨"1", 1, [(1, 7)]⟩), (1, ⟨"2", 2, []⟩)], 2⟩

/-- Key map of the two-node graph. -/
def dgG : GraphM := [("1", 0), ("2", 1)]

/-! ### Claims C7 and C10 -/

/-- C7: for every graph and keys `a`, `b` both present, `Connect(a,b,w)`
returns true and `IsConnected(a,b)` then returns `(true, w)`; overwriting
with `Connect(a,b,w2)` makes `IsConnected(a,b)` return `(true, w2)`. -/
theorem C7_connect_isConnected {V : Type} (st : St V) (g : GraphM)
    (a b : String) (w w2 : ℚ) (hwf : Wf st g)
    (ha : (lookupA g a).isSome) (hb : (lookupA g b).isSome) :
    (Connect st g a b w).2 = true ∧
    IsConnected (Connect st g a b w).1 g a b = (true, w) ∧
    IsConnected (Connect (Connect st g a b w).1 g a b w2).1 g a b = (true, w2) := by
  obtain ⟨ia, hia⟩ := Option.isSome_iff_exists.mp ha
  obtain ⟨ib, hib⟩ := Option.isSome_iff_exists.mp hb
  obtain ⟨nd, hnd⟩ := getNode_of_mem_graph hwf (mem_of_lookupA_eq_some hia)
  have hnd' : lookupA st.heap ia = some nd := hnd
  have hstep : ∀ (s : St V) (nd0 : NodeData V) (w0 : ℚ),
      lookupA s.heap ia = some nd0 →
      (Connect s g a b w0).2 = true ∧
      getNode (Connect s g a b w0).1 ia =
        some { nd0 with succs := insertA nd0.succs ib w0 } := by
    intro s nd0 w0 hs
    constructor
    · simp [Connect, hia, hib]
    · simp only [Connect, hia, hib, getNode]
      rw [lookupA_updateA_self, hs]
      rfl
  obtain ⟨hret1, hget1⟩ := hstep st nd w hnd'
  refine ⟨hret1, ?_, ?_⟩
  · simp only [IsConnected, hia, hib, succsOf, hget1, Option.elim]
    rw [lookupA_insertA_self]
  · obtain ⟨_, hget2⟩ := hstep (Connect st g a b w).1 _ w2 hget1
    simp only [IsConnected, hia, hib, succsOf, hget2, Option.elim]
    rw [lookupA_insertA_self]

/-- Witness for C7 on the concrete two-node graph with `w = 4`, `w2 = 9`. -/
theorem C7_connect_isConnected_witness :
    (Wf dgSt dgG ∧ (lookupA dgG "1").isSome ∧ (lookupA dgG "2").isSome) ∧
    ((Connect dgSt dgG "1" "2" 4).2 = true ∧
     IsConnected (Connect dgSt dgG "1" "2" 4).1 dgG "1" "2" = (true, 4) ∧
     IsConnected (Connect (Connect dgSt dgG "1" "2" 4).1 dgG "1" "2" 9).1
       dgG "1" "2" = (true, 9)) :=
  ⟨⟨by decide, by decide, by decide⟩,
   C7_connect_isConnected dgSt dgG "1" "2" 4 9 (by decide) (by decide) (by decide)⟩

/-- C10: for every node `n` registered in a graph, any non-nil target node
`m` and weight `w`, the node-level `Connect` returns true and records the
arc `n → m` with weight `w`, with no requirement that `m` be registered in
the graph (or allocated at all); only a nil target is rejected with false. -/
theorem C10_node_connect {V : Type} (st : St V) (g : GraphM) (n m : NodeId)
    (w : ℚ) (hwf : Wf st g) (hn : ∃ k, (k, n) ∈ g) :
    (NodeConnect st n (some m) w).2 = true ∧
    lookupA (succsOf (NodeConnect st n (some m) w).1 n) m = some w ∧
    NodeConnect st n none w = (st, false) := by
  obtain ⟨k, hk⟩ := hn
  obtain ⟨nd, hnd⟩ := getNode_of_mem_graph hwf hk
  have hnd' : lookupA st.heap n = some nd := hnd
  refine ⟨rfl, ?_, rfl⟩
  have hget : getNode (NodeConnect st n (some m) w).1 n =
      some { nd with succs := insertA nd.succs m w } := by
    simp only [NodeConnect, getNode]
    rw [lookupA_updateA_self, hnd']
    rfl
  simp only [succsOf, hget, Option.elim]
  rw [lookupA_insertA_self]

/-- Witness for C10: node `"1"` (id 0) of the two-node graph connected to the
id `5`, which is registered in no graph and not even allocated. -/
theorem C10_node_connect_witness :
    (Wf dgSt dgG ∧ (∃ k, (k, (0 : NodeId)) ∈ dgG) ∧
      (5 : NodeId) ∉ dgG.map Prod.snd ∧ (5 : NodeId) ∉ dgSt.heap.map Prod.fst) ∧
    ((NodeConnect dgSt 0 (some 5) 3).2 = true ∧
     lookupA (succsOf (NodeConnect dgSt 0 (some 5) 3).1 0) 5 = some 3 ∧
     NodeConnect dgSt 0 none 3 = (dgSt, false)) :=
  ⟨⟨by decide, ⟨"1", by decide⟩, by decide, by decide⟩,
   C10_node_connect dgSt dgG 0 5 3 (by decide) ⟨"1", by decide⟩⟩

/-! ### Claim C3 (code bug in `Delete`) -/

/-- C3: the code contradicts the claim (and its own inline comment "remove
arcs from other nodes to the node we are removing"): deleting node `"2"`
from the graph `1 -(7)-> 2` returns true and unregisters the key, but node
`"1"`'s successor map still holds the arc to the deleted node, because the
loop deletes the arc from each remaining node's *successors*
(`delete(successor.successors, v)`) instead of from the remaining node
itself. -/
theorem C3_delete_leaves_dangling_arc :
    (Delete dgSt dgG "2").2.2 = true ∧
    lookupA (Delete dgSt dgG "2").2.1 "2" = none ∧
    lookupA (succsOf (Delete dgSt dgG "2").1 0) 1 = some 7 := by
  decide

/-! ### Claim C5 (decoder topology check) -/

/-- C5: whenever the graph does not have exactly one start node and exactly
one end node, `NewDecoder` fails at construction with the error identifying
the actual count found (the start-node check runs first). -/
theorem C5_decoder_topology {O : Type} (st : St (Vit O)) (g : GraphM)
    (h : ¬((StartNodes st g).length = 1 ∧ (EndNodes st g).length = 1)) :
    ((StartNodes st g).length ≠ 1 ∧
      NewDecoder st g = .error (.badStart (StartNodes st g).length)) ∨
    ((StartNodes st g).length = 1 ∧ (EndNodes st g).length ≠ 1 ∧
      NewDecoder st g = .error (.badEnd (EndNodes st g).length)) := by
  by_cases hs : (StartNodes st g).length = 1
  · right
    have he : (EndNodes st g).length ≠ 1 := fun he => h ⟨hs, he⟩
    refine ⟨hs, he, ?_⟩
    simp [NewDecoder, hs, he]
  · left
    refine ⟨hs, ?_⟩
    simp [NewDecoder, hs]

/-- Two isolated viterbi nodes: two start nodes and two end nodes. -/
def isoSt : St (Vit Nat) :=
  ⟨[(0, ⟨"a", ⟨fun _ => 0, false⟩, []⟩), (1, ⟨"b", ⟨fun _ => 0, false⟩, []⟩)], 2⟩

/-- Key map of the two isolated viterbi nodes. -/
def isoG : GraphM := [("a", 0), ("b", 1)]

/-- Witness for C5 on a graph with two start nodes: construction fails with
`badStart 2`. -/
theorem C5_decoder_topology_witness :
    (¬((StartNodes isoSt isoG).length = 1 ∧ (EndNodes isoSt isoG).length = 1)) ∧
    (((StartNodes isoSt isoG).length ≠ 1 ∧
       NewDecoder isoSt isoG = .error (.badStart (StartNodes isoSt isoG).length)) ∨
     ((StartNodes isoSt isoG).length = 1 ∧ (EndNodes isoSt isoG).length ≠ 1 ∧
       NewDecoder isoSt isoG = .error (.badEnd (EndNodes isoSt isoG).length))) :=
  ⟨by decide, C5_decoder_topology isoSt isoG (by decide)⟩

/-! ### Claim C9 (A* with start = end) -/

/-- C9: on any graph containing the key `k` and for any heuristic,
`ShortestPathWithHeuristic k k h` pops the start item first, recognizes it as
the end node before relaxing any successor, and returns `([k], true)`. -/
theorem C9_self_path {V : Type} (st : St V) (g : GraphM) (k : String)
    (h : String → String → ℚ) (hwf : Wf st g) (hk : (lookupA g k).isSome) :
    ShortestPathWithHeuristic st g k k h = ([k], true) := by
  obtain ⟨i, hi⟩ := Option.isSome_iff_exists.mp hk
  have hkey : keyOf st i = k := hwf.2.2.2.2.2.2 (k, i) (mem_of_lookupA_eq_some hi)
  have hfuel : st.heap.length + 2 = (st.heap.length + 1) + 1 := rfl
  simp only [ShortestPathWithHeuristic, hi, hfuel]
  simp [astarLoop, popMin, buildPath, insertA, lookupA, eraseA, hkey]

/-- Witness for C9 on the concrete two-node graph, with a nonzero heuristic. -/
theorem C9_self_path_witness :
    (Wf dgSt dgG ∧ (lookupA dgG "1").isSome) ∧
    ShortestPathWithHeuristic dgSt dgG "1" "1" (fun _ _ => 5) = (["1"], true) :=
  ⟨⟨by decide, by decide⟩,
   C9_self_path dgSt dgG "1" (fun _ _ => 5) (by decide) (by decide)⟩

/-! ### Counterexamples for claims C1, C2 and C8 -/

/-- The empty store. -/
def emptySt : St Int := ⟨[], 0⟩

/-- C2 counterexample: on the graph `1 -(7)-> 2`, the path from `"1"` to
`"2"` is returned as `["2", "1"]` — the end node first — because the source
walks predecessor links from the end and never reverses; the claim's
start-first order `["1", "2"]` is not what is returned. -/
theorem C2_path_order_counterexample :
    ShortestPathWithHeuristic dgSt dgG "1" "2" (fun _ _ => 0) = (["2", "1"], true) ∧
    (["2", "1"] : List String) ≠ ["1", "2"] := by
  decide

/-- C8 counterexample: when both `startKey` and `endKey` are absent from the
graph (so no path leads from `startKey` to `endKey`), `g.get` yields nil for
both, the nil start item is popped and immediately compares equal to the nil
end node, and the function returns `([], true)` instead of the claimed
`exists = false`. -/
theorem C8_missing_keys_counterexample :
    lookupA New "x" = none ∧ lookupA New "y" = none ∧
    ShortestPathWithHeuristic emptySt New "x" "y" (fun _ _ => 0) = ([], true) := by
  decide

/-- The two-node viterbi graph `a -(2)-> b` where `a` is the null start node
and `b` is the emitting end node with constant observation score `1`. -/
def endemSt : St (Vit Nat) :=
  ⟨[(0, ⟨"a", ⟨fun _ => 0, true⟩, [(1, 2)]⟩),
    (1, ⟨"b", ⟨fun _ => 1, false⟩, []⟩)], 2⟩

/-- Key map of the two-node viterbi graph. -/
def endemG : GraphM := [("a", 0), ("b", 1)]

/-- The decoder `NewDecoder` builds for the two-node viterbi graph. -/
def endemD : Decoder := ⟨endemG, 0, 1⟩

/-- C1 counterexample: in the two-node viterbi graph the end node `b` is an
emitting successor (weight 2, observation score 1) of the active start token
(score 0), so the claim predicts a terminal candidate with score
`0 + 2 + 1 = 3` at `b`, retained as `b`'s active token.  The code instead
special-cases the end node: the only candidate recorded for `b` has score
`-Inf`, and the resulting active set is empty, so `Decode` returns no token
at all. -/
theorem C1_end_node_counterexample :
    NewDecoder endemSt endemG = .ok endemD ∧
    (propagate endemSt endemD 10 [Token.first (W.fin 0) 0 (-1)] 0 (0 : Nat)).1 =
      [(0, []), (1, [Token.step W.ninf 1 (Token.first (W.fin 0) 0 (-1)) 0])] ∧
    (propagate endemSt endemD 10 [Token.first (W.fin 0) 0 (-1)] 0 (0 : Nat)).2 = [] ∧
    W.ninf ≠ W.fin 3 ∧
    Decode endemSt endemD 10 [0] = none := by
  refine ⟨?_, by decide, by decide, by decide, by decide⟩
  have hs : StartNodes endemSt endemG = [0] := by decide
  have he : EndNodes endemSt endemG = [1] := by decide
  simp [NewDecoder, hs, he, endemD]

/-! ### Lemmas about memIdx / idxOrZero -/

theorem memIdx_isSome_iff {α : Type} [DecidableEq α] {l : List α} {a : α} :
    (memIdx l a).isSome ↔ a ∈ l := by
  induction l with
  | nil => simp [memIdx]
  | cons x rest ih =>
    by_cases hx : x = a
    · simp [memIdx, hx]
    · simp [memIdx, hx, ih, Ne.symm hx]

theorem memIdx_lt {α : Type} [DecidableEq α] {l : List α} {a : α} {i : Nat}
    (h : memIdx l a = some i) : i < l.length := by
  induction l generalizing i with
  | nil => simp [memIdx] at h
  | cons x rest ih =>
    by_cases hx : x = a
    · simp [memIdx, hx] at h
      simp only [List.length_cons]
      omega
    · simp only [memIdx, if_neg hx, Option.map_eq_some'] at h
      obtain ⟨i', hi', hii⟩ := h
      have := ih hi'
      simp only [List.length_cons]
      omega

theorem getElem?_memIdx {α : Type} [DecidableEq α] {l : List α} {a : α}
    {i : Nat} (h : memIdx l a = some i) : l[i]? = some a := by
  induction l generalizing i with
  | nil => simp [memIdx] at h
  | cons x rest ih =>
    by_cases hx : x = a
    · simp [memIdx, hx] at h
      simp [← h, hx]
    · simp only [memIdx, if_neg hx, Option.map_eq_some'] at h
      obtain ⟨i', hi', hii⟩ := h
      subst hii
      simpa using ih hi'

theorem memIdx_of_getElem? {α : Type} [DecidableEq α] {l : List α}
    (hnd : l.Nodup) {i : Nat} {a : α} (h : l[i]? = some a) :
    memIdx l a = some i := by
  induction l generalizing i with
  | nil => simp at h
  | cons x rest ih =>
    rw [List.nodup_cons] at hnd
    cases i with
    | zero =>
      simp at h
      simp [memIdx, h]
    | succ m =>
      have hm : rest[m]? = some a := by simpa using h
      have ha : a ∈ rest := List.getElem?_mem hm
      have hxa : x ≠ a := fun he => hnd.1 (he ▸ ha)
      simp [memIdx, hxa, ih hnd.2 hm]

theorem memIdx_append_cons {α : Type} [DecidableEq α] {l1 : List α} {x : α}
    (h : x ∉ l1) (l2 : List α) :
    memIdx (l1 ++ x :: l2) x = some l1.length := by
  induction l1 with
  | nil => simp [memIdx]
  | cons y rest ih =>
    have hyx : y ≠ x := fun he => h (he ▸ List.mem_cons_self y rest)
    have hx : x ∉ rest := fun hm => h (List.mem_cons_of_mem _ hm)
    simp [memIdx, hyx, ih hx]

theorem idxOrZero_of_memIdx {α : Type} [DecidableEq α] {l : List α} {a : α}
    {i : Nat} (h : memIdx l a = some i) : idxOrZero l a = i := by
  simp [idxOrZero, h]

theorem getD_set_self {α : Type} {l : List α} {i : Nat} (h : i < l.length)
    (a d : α) : (l.set i a).getD i d = a := by
  rw [List.getD_eq_getElem?_getD, List.getElem?_set_self h]
  rfl

/-! ### Lemmas for the transition matrix (claim C6) -/

/-- The final row the fill loop produces for source node `v` (starting from
the nil row, as in the source). -/
def tmRow {V : Type} (st : St V) (n : Nat) (isLog : Bool)
    (nodes : List NodeId) (v : NodeId) : List W :=
  (succsOf st v).foldl (tmRowStep n isLog nodes) []

theorem tmRowStep_length {n : Nat} {isLog : Bool} {nodes : List NodeId}
    {row : List W} (h : row.length = n) (q : NodeId × ℚ) :
    (tmRowStep n isLog nodes row q).length = n := by
  unfold tmRowStep
  by_cases h0 : row.length = 0
  · simp [h0, h]
  · rw [if_neg h0]
    simp [h]

theorem foldl_tmRowStep_length {n : Nat} {isLog : Bool} {nodes : List NodeId}
    (s : List (NodeId × ℚ)) {row : List W} (h : row.length = n) :
    (s.foldl (tmRowStep n isLog nodes) row).length = n := by
  induction s generalizing row with
  | nil => simpa using h
  | cons q rest ih => exact ih (tmRowStep_length h q)

theorem foldl_tmRowStep_no_write {n : Nat} {isLog : Bool} {nodes : List NodeId}
    (s : List (NodeId × ℚ)) {row : List W} (hrow : row.length = n) {j : Nat}
    (hj : j < n) (hno : ∀ q ∈ s, idxOrZero nodes q.1 ≠ j) :
    (s.foldl (tmRowStep n isLog nodes) row)[j]? = row[j]? := by
  induction s generalizing row with
  | nil => rfl
  | cons q rest ih =>
    have h0 : ¬(row.length = 0) := by omega
    have hq : idxOrZero nodes q.1 ≠ j := hno q (List.mem_cons_self q rest)
    have hstep : (tmRowStep n isLog nodes row q)[j]? = row[j]? := by
      unfold tmRowStep
      rw [if_neg h0, List.getElem?_set_ne hq]
    rw [List.foldl_cons,
      ih (tmRowStep_length hrow q) (fun q' hq' => hno q' (List.mem_cons_of_mem _ hq')),
      hstep]

theorem foldl_tmRowStep_write {n : Nat} {isLog : Bool} {nodes : List NodeId}
    (s : List (NodeId × ℚ)) {j : Nat} (hj : j < n) {w : ℚ}
    (hall : ∀ q ∈ s, idxOrZero nodes q.1 = j → q.2 = w) :
    ∀ row : List W, row.length = n →
    (∃ q ∈ s, idxOrZero nodes q.1 = j) →
    (s.foldl (tmRowStep n isLog nodes) row)[j]? = some (W.fin w) := by
  induction s with
  | nil =>
    intro row _ hex
    obtain ⟨q, hq, _⟩ := hex
    cases hq
  | cons q rest ih =>
    intro row hrow hex
    have h0 : ¬(row.length = 0) := by omega
    rw [List.foldl_cons]
    by_cases hq : idxOrZero nodes q.1 = j
    · have hw : q.2 = w := hall q (List.mem_cons_self q rest) hq
      have hstep : (tmRowStep n isLog nodes row q)[j]? = some (W.fin w) := by
        unfold tmRowStep
        rw [if_neg h0, ← hq, hw, List.getElem?_set_self (by omega)]
      by_cases hrest : ∃ q' ∈ rest, idxOrZero nodes q'.1 = j
      · exact ih (fun q' hq' => hall q' (List.mem_cons_of_mem _ hq'))
          _ (tmRowStep_length hrow q) hrest
      · rw [foldl_tmRowStep_no_write rest (tmRowStep_length hrow q) hj
          (fun q' hq' hc => hrest ⟨q', hq', hc⟩)]
        exact hstep
    · have hex' : ∃ q' ∈ rest, idxOrZero nodes q'.1 = j := by
        obtain ⟨q', hq', hc⟩ := hex
        rcases List.mem_cons.mp hq' with h | h
        · subst h
          exact absurd hc hq
        · exact ⟨q', h, hc⟩
      exact ih (fun q' hq' => hall q' (List.mem_cons_of_mem _ hq'))
        _ (tmRowStep_length hrow q) hex'

theorem tmRow_empty {V : Type} (st : St V) (n : Nat) (isLog : Bool)
    (nodes : List NodeId) {v : NodeId} (h : succsOf st v = []) :
    tmRow st n isLog nodes v = [] := by
  simp [tmRow, h]

theorem tmRow_length {V : Type} (st : St V) {n : Nat} {isLog : Bool}
    {nodes : List NodeId} {v : NodeId} (h : succsOf st v ≠ []) :
    (tmRow st n isLog nodes v).length = n := by
  unfold tmRow
  cases hsuccs : succsOf st v with
  | nil => exact absurd hsuccs h
  | cons q0 rest =>
    rw [List.foldl_cons]
    have hrow1 : (tmRowStep n isLog nodes [] q0).length = n := by
      unfold tmRowStep
      simp
    exact foldl_tmRowStep_length rest hrow1

theorem tmRow_write {V : Type} (st : St V) {n : Nat} {isLog : Bool}
    {nodes : List NodeId} {v : NodeId} {j : Nat} (hj : j < n) {w : ℚ}
    (hall : ∀ q ∈ succsOf st v, idxOrZero nodes q.1 = j → q.2 = w)
    (hex : ∃ q ∈ succsOf st v, idxOrZero nodes q.1 = j) :
    (tmRow st n isLog nodes v)[j]? = some (W.fin w) := by
  unfold tmRow
  cases hsuccs : succsOf st v with
  | nil =>
    rw [hsuccs] at hex
    obtain ⟨q, hq, _⟩ := hex
    cases hq
  | cons q0 rest =>
    rw [hsuccs] at hall hex
    rw [List.foldl_cons]
    have hrow1eq : tmRowStep n isLog nodes [] q0 =
        (List.replicate n (tmDefault isLog)).set (idxOrZero nodes q0.1) (W.fin q0.2) := by
      unfold tmRowStep
      simp
    have hrow1len : (tmRowStep n isLog nodes [] q0).length = n := by
      rw [hrow1eq]
      simp
    by_cases hrest : ∃ q' ∈ rest, idxOrZero nodes q'.1 = j
    · exact foldl_tmRowStep_write rest hj
        (fun q' hq' => hall q' (List.mem_cons_of_mem _ hq')) _ hrow1len hrest
    · have hq0c : idxOrZero nodes q0.1 = j := by
        obtain ⟨q', hq', hc⟩ := hex
        rcases List.mem_cons.mp hq' with h | h
        · exact h ▸ hc
        · exact absurd ⟨q', h, hc⟩ hrest
      have hq0w : q0.2 = w := hall q0 (List.mem_cons_self q0 rest) hq0c
      rw [foldl_tmRowStep_no_write rest hrow1len hj
        (fun q' hq' hc => hrest ⟨q', hq', hc⟩), hrow1eq, hq0c, hq0w,
        List.getElem?_set_self (by simpa using hj)]

theorem tmRow_no_write {V : Type} (st : St V) {n : Nat} {isLog : Bool}
    {nodes : List NodeId} {v : NodeId} {j : Nat} (hj : j < n)
    (hne : succsOf st v ≠ [])
    (hno : ∀ q ∈ succsOf st v, idxOrZero nodes q.1 ≠ j) :
    (tmRow st n isLog nodes v)[j]? = some (tmDefault isLog) := by
  unfold tmRow
  cases hsuccs : succsOf st v with
  | nil => exact absurd hsuccs hne
  | cons q0 rest =>
    rw [hsuccs] at hno
    rw [List.foldl_cons]
    have hrow1eq : tmRowStep n isLog nodes [] q0 =
        (List.replicate n (tmDefault isLog)).set (idxOrZero nodes q0.1) (W.fin q0.2) := by
      unfold tmRowStep
      simp
    have hrow1len : (tmRowStep n isLog nodes [] q0).length = n := by
      rw [hrow1eq]
      simp
    rw [foldl_tmRowStep_no_write rest hrow1len hj
      (fun q' hq' => hno q' (List.mem_cons_of_mem _ hq')), hrow1eq,
      List.getElem?_set_ne (hno q0 (List.mem_cons_self q0 rest)),
      List.getElem?_replicate_of_lt hj]

theorem foldl_tmInner_cons {n : Nat} {isLog : Bool} {nodes : List NodeId}
    {i : Nat} :
    ∀ (s : List (NodeId × ℚ)) (q : NodeId × ℚ) (ws : List (List W)),
    i < ws.length →
    (q :: s).foldl (tmInner n isLog nodes i) ws =
      ws.set i ((q :: s).foldl (tmRowStep n isLog nodes) (ws.getD i [])) := by
  intro s
  induction s with
  | nil =>
    intro q ws _
    rfl
  | cons q' rest ih =>
    intro q ws hi
    have hstep : tmInner n isLog nodes i ws q =
        ws.set i (tmRowStep n isLog nodes (ws.getD i []) q) := rfl
    calc (q :: q' :: rest).foldl (tmInner n isLog nodes i) ws
        = (q' :: rest).foldl (tmInner n isLog nodes i)
            (ws.set i (tmRowStep n isLog nodes (ws.getD i []) q)) := by
          rw [List.foldl_cons, hstep]
      _ = (ws.set i (tmRowStep n isLog nodes (ws.getD i []) q)).set i
            ((q' :: rest).foldl (tmRowStep n isLog nodes)
              ((ws.set i (tmRowStep n isLog nodes (ws.getD i []) q)).getD i [])) :=
          ih q' _ (by simpa using hi)
      _ = ws.set i ((q :: q' :: rest).foldl (tmRowStep n isLog nodes)
            (ws.getD i [])) := by
          rw [getD_set_self hi, List.set_set]
          simp only [List.foldl_cons]

theorem foldl_tmOuter_rows {V : Type} (st : St V) {n : Nat} {isLog : Bool}
    {nodes : List NodeId} (hnd : nodes.Nodup) (hn : nodes.length = n) :
    ∀ (l2 l1 : List NodeId), nodes = l1 ++ l2 →
    ∀ ws : List (List W), ws.length = n →
    (∀ i, i < n → ws[i]? =
      some (if i < l1.length then tmRow st n isLog nodes (nodes.getD i 0) else [])) →
    ∀ i, i < n →
      (l2.foldl (tmOuter st n isLog nodes) ws)[i]? =
        some (tmRow st n isLog nodes (nodes.getD i 0)) := by
  intro l2
  induction l2 with
  | nil =>
    intro l1 heq ws hlen hws i hi
    rw [List.foldl_nil]
    have hl1 : l1.length = n := by
      rw [heq] at hn
      simpa using hn
    have hthis := hws i hi
    rwa [if_pos (by omega)] at hthis
  | cons x rest ih =>
    intro l1 heq ws hlen hws i hi
    have hnd' : (l1 ++ x :: rest).Nodup := heq ▸ hnd
    have hxl1 : x ∉ l1 := by
      intro hx
      have hdisj := (List.nodup_append.mp hnd').2.2
      exact hdisj hx (List.mem_cons_self x rest)
    have hxpos : memIdx nodes x = some l1.length := by
      rw [heq]
      exact memIdx_append_cons hxl1 rest
    have hix : idxOrZero nodes x = l1.length := idxOrZero_of_memIdx hxpos
    have hl1lt : l1.length < n := by
      rw [heq] at hn
      simp at hn
      omega
    have hwsx : ws[l1.length]? = some [] := by
      have hthis := hws l1.length hl1lt
      rwa [if_neg (by omega)] at hthis
    have hxval : nodes.getD l1.length 0 = x := by
      rw [List.getD_eq_getElem?_getD, getElem?_memIdx hxpos]
      rfl
    rw [List.foldl_cons]
    have hstep : tmOuter st n isLog nodes ws x =
        (succsOf st x).foldl (tmInner n isLog nodes (idxOrZero nodes x)) ws := rfl
    cases hsuccs : succsOf st x with
    | nil =>
      have hxrow : tmRow st n isLog nodes x = [] := tmRow_empty st n isLog nodes hsuccs
      have hstep2 : tmOuter st n isLog nodes ws x = ws := by
        rw [hstep, hsuccs, List.foldl_nil]
      rw [hstep2]
      refine ih (l1 ++ [x]) (by simpa using heq) ws hlen ?_ i hi
      intro i' hi'
      have hthis := hws i' hi'
      rcases lt_trichotomy i' l1.length with hlt | heqi | hgt
      · rw [if_pos (show i' < (l1 ++ [x]).length by simp; omega)]
        rwa [if_pos hlt] at hthis
      · subst heqi
        rw [if_pos (by simp)]
        rw [if_neg (by omega)] at hthis
        rw [hthis, hxval, hxrow]
      · rw [if_neg (by omega)] at hthis
        rw [if_neg (by simp; omega)]
        exact hthis
    | cons q s' =>
      have hgd : ws.getD l1.length [] = [] := by
        rw [List.getD_eq_getElem?_getD, hwsx]
        rfl
      have hstep2 : tmOuter st n isLog nodes ws x =
          ws.set l1.length (tmRow st n isLog nodes x) := by
        rw [hstep, hsuccs, hix, foldl_tmInner_cons s' q ws (by omega), hgd]
        unfold tmRow
        rw [hsuccs]
      rw [hstep2]
      refine ih (l1 ++ [x]) (by simpa using heq) _ (by simp [hlen]) ?_ i hi
      intro i' hi'
      rcases lt_trichotomy i' l1.length with hlt | heqi | hgt
      · rw [List.getElem?_set_ne (by omega), if_pos (by simp; omega)]
        have hthis := hws i' hi'
        rwa [if_pos hlt] at hthis
      · subst heqi
        rw [List.getElem?_set_self (by omega), if_pos (by simp), hxval]
      · rw [List.getElem?_set_ne (by omega), if_neg (by simp; omega)]
        have hthis := hws i' hi'
        rwa [if_neg (by omega)] at hthis

theorem tmOuter_length {V : Type} (st : St V) (n : Nat) (isLog : Bool)
    (nodes : List NodeId) (ws : List (List W)) (x : NodeId) :
    (tmOuter st n isLog nodes ws x).length = ws.length := by
  unfold tmOuter
  generalize succsOf st x = s
  induction s generalizing ws with
  | nil => rfl
  | cons q rest ih =>
    rw [List.foldl_cons]
    rw [ih]
    simp [tmInner]

theorem foldl_tmOuter_length {V : Type} (st : St V) (n : Nat) (isLog : Bool)
    (nodes : List NodeId) (l : List NodeId) (ws : List (List W)) :
    (l.foldl (tmOuter st n isLog nodes) ws).length = ws.length := by
  induction l generalizing ws with
  | nil => rfl
  | cons x rest ih =>
    rw [List.foldl_cons, ih, tmOuter_length]

/-- C6 (amended only in presentation, proved as claimed): under the data
model's registration invariant, `TransitionMatrix` returns the node keys in
non-decreasing (hence, keys being unique, strictly increasing) lexicographic
order; every present arc appears at its sorted row/column with its weight;
within an allocated row every arc-free column holds `0` (linear) or `-Inf`
(log); and a node with no outgoing arcs keeps a nil row. -/
theorem C6_transition_matrix {V : Type} (st : St V) (g : GraphM) (isLog : Bool)
    (hwf : Wf st g) (hcl : Closed st g) :
    List.Sorted (· ≤ ·) (TransitionMatrix st g isLog).1 ∧
    (TransitionMatrix st g isLog).2.length = g.length ∧
    (∀ i j, i < g.length → j < g.length →
      (∀ w, lookupA (succsOf st ((sortedNodes st g).getD i 0))
          ((sortedNodes st g).getD j 0) = some w →
        ∃ row, (TransitionMatrix st g isLog).2[i]? = some row ∧
          row[j]? = some (W.fin w)) ∧
      (succsOf st ((sortedNodes st g).getD i 0) ≠ [] →
        lookupA (succsOf st ((sortedNodes st g).getD i 0))
          ((sortedNodes st g).getD j 0) = none →
        ∃ row, (TransitionMatrix st g isLog).2[i]? = some row ∧
          row[j]? = some (if isLog then W.ninf else W.fin 0))) ∧
    (∀ i, i < g.length → succsOf st ((sortedNodes st g).getD i 0) = [] →
      (TransitionMatrix st g isLog).2[i]? = some []) := by
  have hperm : List.Perm (sortedNodes st g) (GetAll g) := List.mergeSort_perm _ _
  have hnd : (sortedNodes st g).Nodup := hperm.nodup_iff.mpr (by
    simpa [GetAll] using hwf.2.1)
  have hn : (sortedNodes st g).length = g.length := by
    rw [hperm.length_eq]
    simp [GetAll]
  have hW : (TransitionMatrix st g isLog).2 =
      (sortedNodes st g).foldl (tmOuter st g.length isLog (sortedNodes st g))
        (List.replicate g.length []) := rfl
  have hrows : ∀ i, i < g.length →
      (TransitionMatrix st g isLog).2[i]? =
        some (tmRow st g.length isLog (sortedNodes st g)
          ((sortedNodes st g).getD i 0)) := by
    rw [hW]
    exact foldl_tmOuter_rows st hnd hn (sortedNodes st g) [] rfl
      (List.replicate g.length []) (by simp)
      (fun i hi => by simp [List.getElem?_replicate_of_lt hi])
  -- membership facts about sorted nodes
  have hmemg : ∀ v ∈ sortedNodes st g, ∃ p ∈ g, (p : String × NodeId).2 = v := by
    intro v hv
    have : v ∈ GetAll g := hperm.mem_iff.mp hv
    simpa [GetAll] using this
  have hsucc_mem : ∀ v ∈ sortedNodes st g, ∀ q ∈ succsOf st v,
      (q : NodeId × ℚ).1 ∈ sortedNodes st g := by
    intro v hv q hq
    obtain ⟨p, hp, hpv⟩ := hmemg v hv
    have := hcl p hp q (by rwa [hpv])
    rw [hperm.mem_iff]
    simpa [GetAll] using this
  have hsuccnd : ∀ v ∈ sortedNodes st g, ((succsOf st v).map Prod.fst).Nodup := by
    intro v hv
    cases hget : getNode st v with
    | none => simp [succsOf, hget]
    | some nd =>
      have hmem : (v, nd) ∈ st.heap := mem_of_lookupA_eq_some hget
      have := hwf.2.2.2.2.2.1 (v, nd) hmem
      simpa [succsOf, hget] using this
  have hgetDj : ∀ j, j < g.length →
      (sortedNodes st g)[j]? = some ((sortedNodes st g).getD j 0) := by
    intro j hj
    rw [List.getElem?_eq_getElem (by omega)]
    rw [List.getD_eq_getElem?_getD, List.getElem?_eq_getElem (by omega)]
    rfl
  have hkeyeq : ∀ j, j < g.length → ∀ q : NodeId × ℚ,
      q.1 ∈ sortedNodes st g → idxOrZero (sortedNodes st g) q.1 = j →
      q.1 = (sortedNodes st g).getD j 0 := by
    intro j hj q hq hcolq
    obtain ⟨j', hj'⟩ := Option.isSome_iff_exists.mp (memIdx_isSome_iff.mpr hq)
    have h2 := idxOrZero_of_memIdx hj'
    rw [hcolq] at h2
    rw [← h2] at hj'
    have h1 := getElem?_memIdx hj'
    rw [hgetDj j hj] at h1
    exact (Option.some_inj.mp h1).symm
  refine ⟨?_, ?_, ?_, ?_⟩
  · -- sortedness of keys
    have hp : (sortedNodes st g).Pairwise
        (fun a b => (decide (keyOf st a ≤ keyOf st b) : Bool)) := by
      apply List.sorted_mergeSort
      · intro a b c hab hbc
        simp only [decide_eq_true_eq] at hab hbc ⊢
        exact le_trans hab hbc
      · intro a b
        simp only [Bool.or_eq_true, decide_eq_true_eq]
        exact le_total _ _
    have hks : (TransitionMatrix st g isLog).1 =
        (sortedNodes st g).map (keyOf st) := rfl
    rw [hks]
    rw [List.Sorted, List.pairwise_map]
    exact hp.imp (fun h => by simpa using h)
  · rw [hW, foldl_tmOuter_length]
    simp
  · intro i j hi hj
    have hvi : (sortedNodes st g).getD i 0 ∈ sortedNodes st g :=
      List.getElem?_mem (hgetDj i hi)
    constructor
    · intro w hlook
      refine ⟨_, hrows i hi, ?_⟩
      apply tmRow_write st hj
      · intro q hq hcolq
        have hq1 : q.1 = (sortedNodes st g).getD j 0 :=
          hkeyeq j hj q (hsucc_mem _ hvi q hq) hcolq
        have hmem2 : ((sortedNodes st g).getD j 0, q.2) ∈
            succsOf st ((sortedNodes st g).getD i 0) := by
          rw [← hq1]
          exact hq
        have h3 := lookupA_eq_some_of_mem (hsuccnd _ hvi) hmem2
        rw [hlook] at h3
        exact (Option.some_inj.mp h3).symm
      · have hqmem := mem_of_lookupA_eq_some hlook
        refine ⟨((sortedNodes st g).getD j 0, w), hqmem, ?_⟩
        have : memIdx (sortedNodes st g) ((sortedNodes st g).getD j 0) = some j :=
          memIdx_of_getElem? hnd (hgetDj j hj)
        exact idxOrZero_of_memIdx this
    · intro hne hlook
      refine ⟨_, hrows i hi, ?_⟩
      have := @tmRow_no_write _ st g.length isLog (sortedNodes st g)
        ((sortedNodes st g).getD i 0) j hj hne ?_
      · rwa [tmDefault] at this
      · intro q hq hcolq
        have hq1 : q.1 = (sortedNodes st g).getD j 0 :=
          hkeyeq j hj q (hsucc_mem _ hvi q hq) hcolq
        have hks : ((sortedNodes st g).getD j 0) ∈
            (succsOf st ((sortedNodes st g).getD i 0)).map Prod.fst :=
          List.mem_map.mpr ⟨q, hq, hq1⟩
        have hsome := lookupA_isSome_iff.mpr hks
        rw [hlook] at hsome
        simp at hsome
  · intro i hi hempty
    rw [hrows i hi, tmRow_empty st _ _ _ hempty]

/-- Witness for C6 on the concrete two-node graph in log mode. -/
theorem C6_transition_matrix_witness :
    (Wf dgSt dgG ∧ Closed dgSt dgG) ∧
    (List.Sorted (· ≤ ·) (TransitionMatrix dgSt dgG true).1 ∧
     (TransitionMatrix dgSt dgG true).2.length = dgG.length ∧
     (∀ i j, i < dgG.length → j < dgG.length →
       (∀ w, lookupA (succsOf dgSt ((sortedNodes dgSt dgG).getD i 0))
           ((sortedNodes dgSt dgG).getD j 0) = some w →
         ∃ row, (TransitionMatrix dgSt dgG true).2[i]? = some row ∧
           row[j]? = some (W.fin w)) ∧
       (succsOf dgSt ((sortedNodes dgSt dgG).getD i 0) ≠ [] →
         lookupA (succsOf dgSt ((sortedNodes dgSt dgG).getD i 0))
           ((sortedNodes dgSt dgG).getD j 0) = none →
         ∃ row, (TransitionMatrix dgSt dgG true).2[i]? = some row ∧
           row[j]? = some (if true then W.ninf else W.fin 0))) ∧
     (∀ i, i < dgG.length → succsOf dgSt ((sortedNodes dgSt dgG).getD i 0) = [] →
       (TransitionMatrix dgSt dgG true).2[i]? = some [])) :=
  ⟨⟨by decide, by decide⟩, C6_transition_matrix dgSt dgG true (by decide) (by decide)⟩

/-! ### Lemmas for `Merge` (claim C4) -/

/-- The store `st'` extends `st`: old node objects are unchanged, fresh ids
are at or above `st.next`. -/
def Extends {V : Type} (st st' : St V) : Prop :=
  st.next ≤ st'.next ∧
  (∀ i ∈ st.heap.map Prod.fst, getNode st' i = getNode st i) ∧
  (∀ i ∈ st'.heap.map Prod.fst, i ∈ st.heap.map Prod.fst ∨ st.next ≤ i)

theorem extends_refl {V : Type} (st : St V) : Extends st st :=
  ⟨le_refl _, fun _ _ => rfl, fun _ hi => Or.inl hi⟩

theorem extends_trans {V : Type} {st1 st2 st3 : St V}
    (h12 : Extends st1 st2) (h23 : Extends st2 st3) : Extends st1 st3 := by
  refine ⟨le_trans h12.1 h23.1, ?_, ?_⟩
  · intro i hi
    have h2 : getNode st2 i = getNode st1 i := h12.2.1 i hi
    have hi2 : i ∈ st2.heap.map Prod.fst := by
      have := (@lookupA_isSome_iff _ _ _ st1.heap i).mpr hi
      rw [← lookupA_isSome_iff]
      have hg : (getNode st2 i).isSome := by
        rw [h2]
        exact this
      exact hg
    rw [h23.2.1 i hi2, h2]
  · intro i hi
    rcases h23.2.2 i hi with h | h
    · rcases h12.2.2 i h with h' | h'
      · exact Or.inl h'
      · exact Or.inr h'
    · exact Or.inr (le_trans h12.1 h)

/-- Ids allocated in `st` stay below `st.next` under `Wf`; an extension
leaves every node of a well-formed graph unchanged. -/
theorem wf_of_extends {V : Type} {st st' : St V} {g : GraphM}
    (hx : Extends st st') (hwf : Wf st g)
    (hh : (st'.heap.map Prod.fst).Nodup ∧ (∀ p ∈ st'.heap, p.1 < st'.next) ∧
      (∀ p ∈ st'.heap, ((p.2 : NodeData V).succs.map Prod.fst).Nodup)) :
    Wf st' g := by
  obtain ⟨h1, h2, h3, h4, h5, h6, h7⟩ := hwf
  refine ⟨h1, h2, ?_, hh.1, hh.2.1, hh.2.2, ?_⟩
  · intro p hp
    have hmem := h3 p hp
    have := hx.2.1 p.2 hmem
    rw [← lookupA_isSome_iff]
    have : (getNode st' p.2).isSome := by
      rw [this]
      exact (@lookupA_isSome_iff _ _ _ st.heap _).mpr hmem
    exact this
  · intro p hp
    have hmem := h3 p hp
    have heq : getNode st' p.2 = getNode st p.2 := hx.2.1 p.2 hmem
    have := h7 p hp
    rw [keyOf, heq]
    exact this

theorem closed_of_extends {V : Type} {st st' : St V} {g : GraphM}
    (hx : Extends st st') (hwf : Wf st g) (hcl : Closed st g) :
    Closed st' g := by
  intro p hp q hq
  have hmem := hwf.2.2.1 p hp
  have heq : getNode st' p.2 = getNode st p.2 := hx.2.1 p.2 hmem
  rw [succsOf, heq] at hq
  exact hcl p hp q (by rwa [succsOf])

/-- Distinct keys of a well-formed graph map to distinct ids. -/
theorem lookup_ids_injective {V : Type} {st : St V} {g : GraphM}
    (hwf : Wf st g) {k1 k2 : String} {i : NodeId}
    (h1 : lookupA g k1 = some i) (h2 : lookupA g k2 = some i) : k1 = k2 := by
  have hm1 := mem_of_lookupA_eq_some h1
  have hm2 := mem_of_lookupA_eq_some h2
  have heq := List.inj_on_of_nodup_map hwf.2.1 hm1 hm2 rfl
  exact congrArg Prod.fst heq

theorem insertA_of_lookup_none {α β : Type} [DecidableEq α]
    {m : List (α × β)} {a : α} (h : lookupA m a = none) (b : β) :
    insertA m a b = m ++ [(a, b)] := by
  induction m with
  | nil => rfl
  | cons p rest ih =>
    obtain ⟨k, v⟩ := p
    by_cases hk : k = a
    · rw [hk] at h
      simp [lookupA] at h
    · simp only [lookupA, if_neg hk] at h
      simp [insertA, hk, ih h]

/-- The conditional-insert step shared by the export/`Set`/receiver folds:
insert `F p` (when defined) under key `κ p`. -/
def insStep {α γ : Type} (κ : α → String) (F : α → Option γ)
    (m2 : List (String × γ)) (p : α) : List (String × γ) :=
  match F p with
  | some b => insertA m2 (κ p) b
  | none => m2

theorem mem_insertA {α β : Type} [DecidableEq α] {m : List (α × β)} {a : α}
    {b : β} : ∀ p ∈ insertA m a b, p ∈ m ∨ p = (a, b) := by
  induction m with
  | nil => simp [insertA]
  | cons hd tl ih =>
    obtain ⟨k, v⟩ := hd
    intro p hp
    by_cases hk : k = a
    · subst hk
      simp only [insertA, if_pos rfl] at hp
      rcases List.mem_cons.mp hp with h | h
      · exact Or.inr h
      · exact Or.inl (List.mem_cons_of_mem _ h)
    · simp only [insertA, if_neg hk] at hp
      rcases List.mem_cons.mp hp with h | h
      · exact Or.inl (h ▸ List.mem_cons_self _ _)
      · rcases ih p h with h' | h'
        · exact Or.inl (List.mem_cons_of_mem _ h')
        · exact Or.inr h'

theorem foldl_insert_option_go {α γ : Type} (κ : α → String) (F : α → Option γ) :
    ∀ (l : List α) (m : List (String × γ)),
    (∀ p ∈ l, (F p).isSome) → ((l.map κ).Nodup) →
    (∀ p ∈ l, lookupA m (κ p) = none) →
    ((l.foldl (insStep κ F) m).map Prod.fst = m.map Prod.fst ++ l.map κ) ∧
    (∀ k, k ∉ l.map κ →
      lookupA (l.foldl (insStep κ F) m) k = lookupA m k) ∧
    (∀ p ∈ l, ∀ b, F p = some b →
      lookupA (l.foldl (insStep κ F) m) (κ p) = some b) ∧
    (∀ p' ∈ l.foldl (insStep κ F) m, p' ∈ m ∨
      ∃ p ∈ l, (p' : String × γ).1 = κ p ∧ F p = some p'.2) := by
  intro l
  induction l with
  | nil =>
    intro m _ _ _
    exact ⟨by simp, fun k _ => rfl, fun p hp => absurd hp (by simp),
      fun p' hp' => Or.inl hp'⟩
  | cons p rest ih =>
    intro m hF hnd hnone
    obtain ⟨b, hb⟩ := Option.isSome_iff_exists.mp (hF p (List.mem_cons_self p rest))
    have hins : insertA m (κ p) b = m ++ [(κ p, b)] :=
      insertA_of_lookup_none (hnone p (List.mem_cons_self p rest)) b
    have hstep : rest.foldl (insStep κ F) (m ++ [(κ p, b)]) =
        (p :: rest).foldl (insStep κ F) m := by
      simp only [List.foldl_cons, insStep, hb]
      rw [hins]
    simp only [List.map_cons, List.nodup_cons] at hnd
    have hκp : κ p ∉ rest.map κ := hnd.1
    have hnone' : ∀ q ∈ rest, lookupA (m ++ [(κ p, b)]) (κ q) = none := by
      intro q hq
      rw [lookupA_append, hnone q (List.mem_cons_of_mem _ hq)]
      have hne : κ p ≠ κ q := fun he => hκp (he ▸ List.mem_map_of_mem κ hq)
      simp [lookupA, hne]
    obtain ⟨ihkeys, ihpres, ihmem, ihdecomp⟩ := ih (m ++ [(κ p, b)])
      (fun q hq => hF q (List.mem_cons_of_mem _ hq)) hnd.2 hnone'
    refine ⟨?_, ?_, ?_, ?_⟩
    · rw [← hstep] at *
      rw [ihkeys]
      simp
    · intro k hk
      have hk1 : k ≠ κ p := fun he => hk (by simp [he])
      have hk2 : k ∉ rest.map κ := fun he => hk (by simp [he])
      rw [← hstep, ihpres k hk2, lookupA_append, ]
      cases hlm : lookupA m k with
      | some v => rfl
      | none => simp [lookupA, Ne.symm hk1]
    · intro q hq b' hb'
      rcases List.mem_cons.mp hq with h | h
      · subst h
        rw [hb] at hb'
        have hbb : b = b' := Option.some_inj.mp hb'
        subst hbb
        rw [← hstep, ihpres (κ q) hκp, lookupA_append,
          hnone q (List.mem_cons_self q rest)]
        simp [lookupA]
      · rw [← hstep]
        exact ihmem q h b' hb'
    · intro p' hp'
      rw [← hstep] at hp'
      rcases ihdecomp p' hp' with h | ⟨q, hq, hqk, hqF⟩
      · rcases List.mem_append.mp h with h' | h'
        · exact Or.inl h'
        · simp at h'
          subst h'
          exact Or.inr ⟨p, List.mem_cons_self p rest, rfl, hb⟩
      · exact Or.inr ⟨q, List.mem_cons_of_mem _ hq, hqk, hqF⟩

theorem exportNodes_spec {V : Type} (st : St V) (gg : GraphM) (hwf : Wf st gg) :
    ((exportNodes st gg).map Prod.fst = gg.map Prod.fst) ∧
    (∀ p ∈ gg, ∀ nd, getNode st (Prod.snd p) = some nd →
      lookupA (exportNodes st gg) p.1 = some nd.value) := by
  have hstep : exportNodes st gg =
      gg.foldl (insStep Prod.fst
        (fun p => (getNode st (Prod.snd p)).map (fun nd => nd.value))) [] := by
    unfold exportNodes insStep
    congr 1
    funext m p
    cases hget : getNode st p.2 <;> simp [hget]
  have hF : ∀ p ∈ gg, ((getNode st (Prod.snd p)).map (fun nd => nd.value)).isSome := by
    intro p hp
    obtain ⟨nd, hnd⟩ := getNode_of_mem_graph hwf (show (p.1, p.2) ∈ gg from hp)
    rw [hnd]
    rfl
  obtain ⟨hkeys, _, hmem, _⟩ := foldl_insert_option_go Prod.fst
    (fun p => (getNode st (Prod.snd p)).map (fun nd => nd.value)) gg [] hF hwf.1
    (fun _ _ => rfl)
  rw [hstep]
  constructor
  · have h2 := hkeys
    simp only [List.map_nil, List.nil_append] at h2
    exact h2
  · intro p hp nd hnd
    exact hmem p hp nd.value (by rw [hnd]; rfl)

/-- `keyOf` is injective on registered ids. -/
theorem keyOf_inj_on_graph {V : Type} {st : St V} {gg : GraphM}
    (hwf : Wf st gg) {i1 i2 : NodeId} (h1 : i1 ∈ gg.map Prod.snd)
    (h2 : i2 ∈ gg.map Prod.snd) (hk : keyOf st i1 = keyOf st i2) : i1 = i2 := by
  obtain ⟨p1, hp1, hp1i⟩ := List.mem_map.mp h1
  obtain ⟨p2, hp2, hp2i⟩ := List.mem_map.mp h2
  have hk1 : keyOf st i1 = p1.1 := hp1i ▸ hwf.2.2.2.2.2.2 p1 hp1
  have hk2 : keyOf st i2 = p2.1 := hp2i ▸ hwf.2.2.2.2.2.2 p2 hp2
  have hkeq : p1.1 = p2.1 := by rw [← hk1, ← hk2, hk]
  have hl1 : lookupA gg p1.1 = some p1.2 := lookupA_eq_some_of_mem hwf.1 hp1
  have hl2 : lookupA gg p2.1 = some p2.2 := lookupA_eq_some_of_mem hwf.1 hp2
  rw [hkeq, hl2] at hl1
  rw [← hp1i, ← hp2i, Option.some_inj.mp hl1]

/-- The arc list `exportArcs` builds for one node: its keys are the successor
keys, and each successor's weight is found under its key. -/
theorem arcList_spec {V : Type} (st : St V) {gg : GraphM} (hwf : Wf st gg)
    (hcl : Closed st gg) {p : String × NodeId} (hp : p ∈ gg) {nd : NodeData V}
    (hnd : getNode st p.2 = some nd) :
    ((nd.succs.foldl (fun m2 q => insertA m2 (keyOf st q.1) q.2) []).map Prod.fst
      = nd.succs.map (fun q => keyOf st (Prod.fst q))) ∧
    (∀ q ∈ nd.succs, lookupA
      (nd.succs.foldl (fun m2 q => insertA m2 (keyOf st q.1) q.2) [])
      (keyOf st (Prod.fst q)) = some q.2) ∧
    ((nd.succs.map (fun q => keyOf st (Prod.fst q))).Nodup) := by
  have hsmem : ∀ q ∈ nd.succs, (q : NodeId × ℚ).1 ∈ gg.map Prod.snd := by
    intro q hq
    exact hcl p hp q (by rw [succsOf, hnd]; exact hq)
  have hsnd : (nd.succs.map Prod.fst).Nodup := by
    have hmem : (p.2, nd) ∈ st.heap := mem_of_lookupA_eq_some hnd
    exact hwf.2.2.2.2.2.1 (p.2, nd) hmem
  have hknd : (nd.succs.map (fun q => keyOf st (Prod.fst q))).Nodup := by
    have : nd.succs.map (fun q => keyOf st (Prod.fst q)) =
        (nd.succs.map Prod.fst).map (keyOf st) := by
      rw [List.map_map]
      rfl
    rw [this]
    apply hsnd.map_on
    intro x hx y hy hxy
    have hx' : x ∈ gg.map Prod.snd := by
      obtain ⟨q, hq, hqx⟩ := List.mem_map.mp hx
      exact hqx ▸ hsmem q hq
    have hy' : y ∈ gg.map Prod.snd := by
      obtain ⟨q, hq, hqy⟩ := List.mem_map.mp hy
      exact hqy ▸ hsmem q hq
    exact keyOf_inj_on_graph hwf hx' hy' hxy
  have hstep : nd.succs.foldl (fun m2 q => insertA m2 (keyOf st q.1) q.2) [] =
      nd.succs.foldl (insStep (fun q => keyOf st (Prod.fst q))
        (fun q => (some q.2 : Option ℚ))) [] := by
    congr 1
  obtain ⟨hkeys, _, hmem, _⟩ := foldl_insert_option_go
    (fun q => keyOf st (Prod.fst q)) (fun q => (some q.2 : Option ℚ))
    nd.succs [] (fun _ _ => rfl) hknd (fun _ _ => rfl)
  rw [hstep]
  refine ⟨?_, ?_, hknd⟩
  · have h2 := hkeys
    simp only [List.map_nil, List.nil_append] at h2
    exact h2
  · intro q hq
    exact hmem q hq q.2 rfl

theorem exportArcs_spec {V : Type} (st : St V) (gg : GraphM) (hwf : Wf st gg) :
    ((exportArcs st gg).map Prod.fst = gg.map Prod.fst) ∧
    (∀ p ∈ gg, ∀ nd, getNode st (Prod.snd p) = some nd →
      lookupA (exportArcs st gg) p.1 =
        some (nd.succs.foldl (fun m2 q => insertA m2 (keyOf st q.1) q.2) [])) := by
  have hstep : exportArcs st gg =
      gg.foldl (insStep Prod.fst
        (fun p => (getNode st (Prod.snd p)).map
          (fun nd => nd.succs.foldl (fun m3 q => insertA m3 (keyOf st q.1) q.2) []))) [] := by
    unfold exportArcs insStep
    congr 1
    funext m p
    cases hget : getNode st p.2 <;> simp [hget]
  have hF : ∀ p ∈ gg, ((getNode st (Prod.snd p)).map
      (fun nd => nd.succs.foldl (fun m3 q => insertA m3 (keyOf st q.1) q.2) [])).isSome := by
    intro p hp
    obtain ⟨nd, hnd⟩ := getNode_of_mem_graph hwf (show (p.1, p.2) ∈ gg from hp)
    rw [hnd]
    rfl
  obtain ⟨hkeys, _, hmem, _⟩ := foldl_insert_option_go Prod.fst
    (fun p => (getNode st (Prod.snd p)).map
      (fun nd => nd.succs.foldl (fun m3 q => insertA m3 (keyOf st q.1) q.2) []))
    gg [] hF hwf.1 (fun _ _ => rfl)
  rw [hstep]
  constructor
  · have h2 := hkeys
    simp only [List.map_nil, List.nil_append] at h2
    exact h2
  · intro p hp nd hnd
    exact hmem p hp _ (by rw [hnd]; rfl)

theorem lookupA_append_of_some {α β : Type} [DecidableEq α]
    {l1 l2 : List (α × β)} {a : α} {b : β} (h : lookupA l1 a = some b) :
    lookupA (l1 ++ l2) a = some b := by
  rw [lookupA_append, h]

theorem lookupA_append_of_none {α β : Type} [DecidableEq α]
    {l1 : List (α × β)} (l2 : List (α × β)) {a : α} (h : lookupA l1 a = none) :
    lookupA (l1 ++ l2) a = lookupA l2 a := by
  rw [lookupA_append, h]

theorem heapKeys_lt_next {V : Type} {st : St V}
    (hb : ∀ p ∈ st.heap, (p : NodeId × NodeData V).1 < st.next) :
    ∀ i ∈ st.heap.map Prod.fst, i < st.next := by
  intro i hi
  obtain ⟨pr, hpr, hpri⟩ := List.mem_map.mp hi
  exact hpri ▸ hb pr hpr

theorem graphIds_lt_next {V : Type} {st : St V} {g : GraphM} (hwf : Wf st g) :
    ∀ i ∈ g.map Prod.snd, i < st.next := by
  intro i hi
  obtain ⟨p, hp, hpi⟩ := List.mem_map.mp hi
  exact hpi ▸ heapKeys_lt_next hwf.2.2.2.2.1 p.2 (hwf.2.2.1 p hp)

/-- `Set` on a fresh key: the exact allocation it performs, and the
well-formedness facts it preserves. -/
theorem set_fresh_spec {V : Type} (st0 : St V) (g0 : GraphM) (k : String)
    (v : V) (hwf : Wf st0 g0) (hk : lookupA g0 k = none) :
    Set st0 g0 k v = (⟨st0.heap ++ [(st0.next, ⟨k, v, []⟩)], st0.next + 1⟩,
      g0 ++ [(k, st0.next)], st0.next) ∧
    Extends st0 ⟨st0.heap ++ [(st0.next, ⟨k, v, []⟩)], st0.next + 1⟩ ∧
    Wf (⟨st0.heap ++ [(st0.next, ⟨k, v, []⟩)], st0.next + 1⟩ : St V)
      (g0 ++ [(k, st0.next)]) ∧
    getNode (⟨st0.heap ++ [(st0.next, ⟨k, v, []⟩)], st0.next + 1⟩ : St V)
      st0.next = some ⟨k, v, []⟩ := by
  have hnextfree : st0.next ∉ st0.heap.map Prod.fst := fun hmem =>
    absurd (heapKeys_lt_next hwf.2.2.2.2.1 st0.next hmem) (lt_irrefl _)
  have hnextnone : lookupA st0.heap st0.next = none :=
    lookupA_eq_none_iff.mpr hnextfree
  have hgetnew : getNode (⟨st0.heap ++ [(st0.next, ⟨k, v, []⟩)], st0.next + 1⟩ : St V)
      st0.next = some ⟨k, v, []⟩ := by
    show lookupA (st0.heap ++ [(st0.next, ⟨k, v, []⟩)]) st0.next = _
    rw [lookupA_append_of_none _ hnextnone]
    simp [lookupA]
  have hx : Extends st0 ⟨st0.heap ++ [(st0.next, ⟨k, v, []⟩)], st0.next + 1⟩ := by
    refine ⟨Nat.le_succ _, ?_, ?_⟩
    · intro i hi
      obtain ⟨b, hb⟩ := Option.isSome_iff_exists.mp (lookupA_isSome_iff.mpr hi)
      show lookupA (st0.heap ++ _) i = lookupA st0.heap i
      rw [lookupA_append_of_some hb, hb]
    · intro i hi
      simp only [List.map_append, List.mem_append] at hi
      rcases hi with h | h
      · exact Or.inl h
      · simp at h
        exact Or.inr (le_of_eq h.symm)
  refine ⟨by simp [Set, hk], hx, ?_, hgetnew⟩
  obtain ⟨h1, h2, h3, h4, h5, h6, h7⟩ := hwf
  have hknotin : k ∉ g0.map Prod.fst := lookupA_eq_none_iff.mp hk
  refine ⟨?_, ?_, ?_, ?_, ?_, ?_, ?_⟩
  · simp only [List.map_append]
    rw [List.nodup_append]
    exact ⟨h1, List.nodup_singleton _, fun a ha hb => by
      simp at hb
      exact hknotin (hb ▸ ha)⟩
  · simp only [List.map_append]
    rw [List.nodup_append]
    refine ⟨h2, List.nodup_singleton _, fun a ha hb => ?_⟩
    simp at hb
    exact absurd (graphIds_lt_next ⟨h1, h2, h3, h4, h5, h6, h7⟩ a ha)
      (by rw [hb]; exact lt_irrefl _)
  · intro p hp
    simp only [List.map_append, List.mem_append]
    rcases List.mem_append.mp hp with h | h
    · exact Or.inl (h3 p h)
    · simp at h
      simp [h]
  · simp only [List.map_append]
    rw [List.nodup_append]
    exact ⟨h4, List.nodup_singleton _, fun a ha hb => by
      simp at hb
      exact absurd (heapKeys_lt_next h5 a ha) (by rw [hb]; exact lt_irrefl _)⟩
  · intro p hp
    rcases List.mem_append.mp hp with h | h
    · exact Nat.lt_succ_of_lt (h5 p h)
    · simp at h
      simp [h]
  · intro p hp
    rcases List.mem_append.mp hp with h | h
    · exact h6 p h
    · simp at h
      subst h
      simp
  · intro p hp
    rcases List.mem_append.mp hp with h | h
    · have := h7 p h
      rw [keyOf, hx.2.1 p.2 (h3 p h)]
      exact this
    · simp at h
      subst h
      rw [keyOf, hgetnew]
      rfl

/-- The `Set` phase of `GobDecode` (inside `Clone`): setting a list of fresh
keyed values allocates one fresh node per key. -/
theorem setFold_go {V : Type} :
    ∀ (nio : List (String × V)) (st0 : St V) (g0 : GraphM),
    (nio.map Prod.fst).Nodup → Wf st0 g0 →
    (∀ k ∈ nio.map Prod.fst, lookupA g0 k = none) →
    ∃ st1 g1,
      nio.foldl (fun acc p => ((Set acc.1 acc.2 p.1 p.2).1,
        ((Set acc.1 acc.2 p.1 p.2).2.1 : GraphM))) (st0, g0) = (st1, g1) ∧
      Extends st0 st1 ∧ Wf st1 g1 ∧
      g1.map Prod.fst = g0.map Prod.fst ++ nio.map Prod.fst ∧
      (∀ p ∈ g0, lookupA g1 p.1 = some p.2) ∧
      (∀ p ∈ nio, ∃ i, lookupA g1 p.1 = some i ∧ st0.next ≤ i ∧
        getNode st1 i = some ⟨p.1, p.2, []⟩) := by
  intro nio
  induction nio with
  | nil =>
    intro st0 g0 _ hwf _
    exact ⟨st0, g0, rfl, extends_refl st0, hwf, by simp,
      fun p hp => lookupA_eq_some_of_mem hwf.1 hp, by simp⟩
  | cons p rest ih =>
    intro st0 g0 hnd hwf hnone
    have hkn : lookupA g0 p.1 = none :=
      hnone p.1 (List.mem_map_of_mem Prod.fst (List.mem_cons_self p rest))
    obtain ⟨hset, hx0, hwf0, hgetnew⟩ := set_fresh_spec st0 g0 p.1 p.2 hwf hkn
    simp only [List.map_cons, List.nodup_cons] at hnd
    have hnone0 : ∀ k ∈ rest.map Prod.fst,
        lookupA (g0 ++ [(p.1, st0.next)]) k = none := by
      intro k hk
      rw [lookupA_append_of_none _ (hnone k (by simp [hk]))]
      have : p.1 ≠ k := fun he => hnd.1 (he ▸ hk)
      simp [lookupA, this]
    obtain ⟨st1, g1, hfold, hx1, hwf1, hkeys1, hold1, hnew1⟩ :=
      ih ⟨st0.heap ++ [(st0.next, ⟨p.1, p.2, []⟩)], st0.next + 1⟩
        (g0 ++ [(p.1, st0.next)]) hnd.2 hwf0 hnone0
    refine ⟨st1, g1, ?_, extends_trans hx0 hx1, hwf1, ?_, ?_, ?_⟩
    · rw [List.foldl_cons, hset]
      exact hfold
    · rw [hkeys1]
      simp
    · intro p' hp'
      exact hold1 p' (List.mem_append_left _ hp')
    · intro q hq
      rcases List.mem_cons.mp hq with h | h
      · subst h
        refine ⟨st0.next, ?_, le_refl _, ?_⟩
        · exact hold1 (q.1, st0.next) (List.mem_append_right _ (by simp))
        · rw [hx1.2.1 st0.next (by simp), hgetnew]
      · obtain ⟨i, hi1, hi2, hi3⟩ := hnew1 q h
        exact ⟨i, hi1, le_trans (Nat.le_succ _) hi2, hi3⟩

theorem mem_updateA {α β : Type} [DecidableEq α] {l : List (α × β)} {a : α}
    {f : β → β} : ∀ p' ∈ updateA l a f, p' ∈ l ∨ ∃ v, (a, v) ∈ l ∧ p' = (a, f v) := by
  induction l with
  | nil => simp [updateA]
  | cons hd tl ih =>
    obtain ⟨kk, vv⟩ := hd
    intro p' hp'
    by_cases hk : kk = a
    · subst hk
      simp only [updateA, if_pos rfl] at hp'
      rcases List.mem_cons.mp hp' with h | h
      · exact Or.inr ⟨vv, List.mem_cons_self _ _, h⟩
      · exact Or.inl (List.mem_cons_of_mem _ h)
    · simp only [updateA, if_neg hk] at hp'
      rcases List.mem_cons.mp hp' with h | h
      · exact Or.inl (h ▸ List.mem_cons_self _ _)
      · rcases ih p' h with h' | ⟨v, hv, hpv⟩
        · exact Or.inl (List.mem_cons_of_mem _ h')
        · exact Or.inr ⟨v, List.mem_cons_of_mem _ hv, hpv⟩

/-- The effect of one successful `Connect` by keys, with the store facts it
preserves. -/
theorem connect_step_spec {V : Type} (st1 : St V) (g1 : GraphM)
    (k k2 : String) (w : ℚ) (hwf : Wf st1 g1) {iK i2 : NodeId}
    (hk : lookupA g1 k = some iK) (hk2 : lookupA g1 k2 = some i2) :
    ∃ nd, getNode st1 iK = some nd ∧
    Connect st1 g1 k k2 w =
      (⟨updateA st1.heap iK
        (fun nd0 => { nd0 with succs := insertA nd0.succs i2 w }), st1.next⟩, true) ∧
    Wf (⟨updateA st1.heap iK
        (fun nd0 => { nd0 with succs := insertA nd0.succs i2 w }), st1.next⟩ : St V) g1 ∧
    getNode (⟨updateA st1.heap iK
        (fun nd0 => { nd0 with succs := insertA nd0.succs i2 w }), st1.next⟩ : St V) iK =
      some { nd with succs := insertA nd.succs i2 w } ∧
    (∀ i, i ≠ iK →
      getNode (⟨updateA st1.heap iK
        (fun nd0 => { nd0 with succs := insertA nd0.succs i2 w }), st1.next⟩ : St V) i =
      getNode st1 i) := by
  obtain ⟨nd, hnd⟩ := getNode_of_mem_graph hwf (mem_of_lookupA_eq_some hk)
  have hndl : lookupA st1.heap iK = some nd := hnd
  have hget2 : getNode (⟨updateA st1.heap iK
      (fun nd0 => { nd0 with succs := insertA nd0.succs i2 w }), st1.next⟩ : St V) iK =
      some { nd with succs := insertA nd.succs i2 w } := by
    show lookupA (updateA st1.heap iK _) iK = _
    rw [lookupA_updateA_self, hndl]
    rfl
  have hother : ∀ i, i ≠ iK →
      getNode (⟨updateA st1.heap iK
        (fun nd0 => { nd0 with succs := insertA nd0.succs i2 w }), st1.next⟩ : St V) i =
      getNode st1 i := by
    intro i hi
    show lookupA (updateA st1.heap iK _) i = lookupA st1.heap i
    exact lookupA_updateA_ne _ _ (fun he => hi he.symm)
  obtain ⟨h1, h2, h3, h4, h5, h6, h7⟩ := hwf
  refine ⟨nd, hnd, by simp [Connect, hk, hk2], ⟨h1, h2, ?_, ?_, ?_, ?_, ?_⟩,
    hget2, hother⟩
  · intro p hp
    have := h3 p hp
    simpa [keys_updateA] using this
  · simpa [keys_updateA] using h4
  · intro p hp
    rcases mem_updateA p hp with h | ⟨v, hv, hpv⟩
    · exact h5 p h
    · rw [hpv]
      exact h5 (iK, v) hv
  · intro p hp
    rcases mem_updateA p hp with h | ⟨v, hv, hpv⟩
    · exact h6 p h
    · rw [hpv]
      have hvnd := h6 (iK, v) hv
      simp only at hvnd ⊢
      rw [keys_insertA]
      by_cases hmem : i2 ∈ v.succs.map Prod.fst
      · simpa [hmem] using hvnd
      · rw [if_neg hmem]
        rw [List.nodup_append]
        exact ⟨hvnd, List.nodup_singleton _, fun a ha hb => by
          simp at hb
          exact hmem (hb ▸ ha)⟩
  · intro p hp
    by_cases hpk : p.2 = iK
    · rw [keyOf, hpk, hget2]
      have h0 := h7 p hp
      rw [keyOf, hpk, hnd] at h0
      exact h0
    · rw [keyOf, hother p.2 hpk]
      exact h7 p hp

/-- The arc loop for one source key: every `Connect` succeeds and installs
the listed arcs on the source node, touching no other node. -/
theorem connectInner_go {V : Type} (k : String) :
    ∀ (arcs : List (String × ℚ)) (st1 : St V) (g1 : GraphM) (iK : NodeId),
    Wf st1 g1 → lookupA g1 k = some iK →
    (∀ a ∈ arcs, (a : String × ℚ).1 ∈ g1.map Prod.fst) →
    ((arcs.map Prod.fst).Nodup) →
    ∃ st2, arcs.foldl (cStep k) (.ok (st1, g1)) = .ok (st2, g1) ∧
      Wf st2 g1 ∧ st2.next = st1.next ∧
      st2.heap.map Prod.fst = st1.heap.map Prod.fst ∧
      (∀ i, i ≠ iK → getNode st2 i = getNode st1 i) ∧
      (∀ nd, getNode st1 iK = some nd → ∃ nd', getNode st2 iK = some nd' ∧
        nd'.key = nd.key ∧ nd'.value = nd.value) ∧
      (∀ a ∈ arcs, ∃ i2, lookupA g1 a.1 = some i2 ∧
        lookupA (succsOf st2 iK) i2 = some a.2) ∧
      (∀ i2 w0, lookupA (succsOf st1 iK) i2 = some w0 →
        (∀ a ∈ arcs, lookupA g1 (Prod.fst a) ≠ some i2) →
        lookupA (succsOf st2 iK) i2 = some w0) := by
  intro arcs
  induction arcs with
  | nil =>
    intro st1 g1 iK hwf hk _ _
    exact ⟨st1, rfl, hwf, rfl, rfl, fun _ _ => rfl,
      fun nd hnd => ⟨nd, hnd, rfl, rfl⟩, by simp, fun i2 w0 h _ => h⟩
  | cons a0 rest ih =>
    intro st1 g1 iK hwf hk hmem hnd
    have ha0 : (a0 : String × ℚ).1 ∈ g1.map Prod.fst :=
      hmem a0 (List.mem_cons_self a0 rest)
    obtain ⟨i20, hi20⟩ := Option.isSome_iff_exists.mp (lookupA_isSome_iff.mpr ha0)
    obtain ⟨nd, hndget, hconn, hwf', hget', hother'⟩ :=
      connect_step_spec st1 g1 k a0.1 a0.2 hwf hk hi20
    simp only [List.map_cons, List.nodup_cons] at hnd
    set st1' : St V := ⟨updateA st1.heap iK
      (fun nd0 => { nd0 with succs := insertA nd0.succs i20 a0.2 }), st1.next⟩ with hst1'
    have hstep : cStep k (.ok (st1, g1)) a0 = .ok (st1', g1) := by
      simp [cStep, hconn]
    have hsucc' : succsOf st1' iK = insertA nd.succs i20 a0.2 := by
      rw [succsOf, hget']
      rfl
    obtain ⟨st2, hfold, hwf2, hnext2, hkeys2, hother2, hkv2, harcs2, hpres2⟩ :=
      ih st1' g1 iK hwf' hk
        (fun a ha => hmem a (List.mem_cons_of_mem _ ha)) hnd.2
    have hrest_ne : ∀ a ∈ rest, lookupA g1 (Prod.fst a) ≠ some i20 := by
      intro a ha hcontra
      have : (a : String × ℚ).1 = a0.1 := lookup_ids_injective hwf hcontra hi20
      exact hnd.1 (this ▸ List.mem_map_of_mem Prod.fst ha)
    refine ⟨st2, ?_, hwf2, hnext2.trans rfl, ?_, ?_, ?_, ?_, ?_⟩
    · rw [List.foldl_cons, hstep]
      exact hfold
    · rw [hkeys2, hst1']
      simp [keys_updateA]
    · intro i hi
      rw [hother2 i hi, hother' i hi]
    · intro nd0 hnd0
      have : nd0 = nd := by
        rw [hndget] at hnd0
        exact (Option.some_inj.mp hnd0).symm
      subst this
      obtain ⟨nd', hnd', hk', hv'⟩ := hkv2 _ hget'
      exact ⟨nd', hnd', hk', hv'⟩
    · intro a ha
      rcases List.mem_cons.mp ha with h | h
      · subst h
        refine ⟨i20, hi20, ?_⟩
        apply hpres2
        · rw [hsucc']
          exact lookupA_insertA_self _ _ _
        · exact hrest_ne
      · exact harcs2 a h
    · intro i2 w0 hw0 hne
      have hni20 : i2 ≠ i20 := by
        intro he
        exact hne a0 (List.mem_cons_self a0 rest) (he ▸ hi20)
      apply hpres2
      · rw [hsucc', lookupA_insertA_ne _ _ (fun he => hni20 he.symm)]
        rw [succsOf, hndget] at hw0
        exact hw0
      · intro a ha
        exact hne a (List.mem_cons_of_mem _ ha)

/-- The whole arc phase of `GobDecode`: succeeds and installs every listed
arc on its source node. -/
theorem connectOuter_go {V : Type} :
    ∀ (aio : List (String × List (String × ℚ))) (st1 : St V) (g1 : GraphM),
    Wf st1 g1 →
    (∀ e ∈ aio, (e : String × List (String × ℚ)).1 ∈ g1.map Prod.fst ∧
      (∀ a ∈ e.2, (a : String × ℚ).1 ∈ g1.map Prod.fst) ∧
      ((e.2.map Prod.fst).Nodup)) →
    ((aio.map Prod.fst).Nodup) →
    ∃ st2, aio.foldl oStep (.ok (st1, g1)) = .ok (st2, g1) ∧
      Wf st2 g1 ∧ st2.next = st1.next ∧
      st2.heap.map Prod.fst = st1.heap.map Prod.fst ∧
      (∀ i, (∀ e ∈ aio, lookupA g1 (Prod.fst e) ≠ some i) →
        getNode st2 i = getNode st1 i) ∧
      (∀ i nd, getNode st1 i = some nd → ∃ nd', getNode st2 i = some nd' ∧
        nd'.key = nd.key ∧ nd'.value = nd.value) ∧
      (∀ e ∈ aio, ∀ iK, lookupA g1 (Prod.fst e) = some iK →
        ∀ a ∈ (e : String × List (String × ℚ)).2, ∃ i2,
          lookupA g1 (Prod.fst a) = some i2 ∧
          lookupA (succsOf st2 iK) i2 = some a.2) := by
  intro aio
  induction aio with
  | nil =>
    intro st1 g1 hwf _ _
    exact ⟨st1, rfl, hwf, rfl, rfl, fun _ _ => rfl,
      fun i nd hnd => ⟨nd, hnd, rfl, rfl⟩, by simp⟩
  | cons e0 rest ih =>
    intro st1 g1 hwf hmem hnd
    obtain ⟨he0k, he0a, he0nd⟩ := hmem e0 (List.mem_cons_self e0 rest)
    obtain ⟨iK0, hiK0⟩ := Option.isSome_iff_exists.mp (lookupA_isSome_iff.mpr he0k)
    obtain ⟨st1', hifold, hwf', hnext', hkeys', hother', hkv', harcs', _⟩ :=
      connectInner_go e0.1 e0.2 st1 g1 iK0 hwf hiK0 he0a he0nd
    have hstep : oStep (.ok (st1, g1)) e0 = .ok (st1', g1) := by
      simp [oStep, hifold]
    simp only [List.map_cons, List.nodup_cons] at hnd
    obtain ⟨st2, hofold, hwf2, hnext2, hkeys2, hother2, hkv2, harcs2⟩ :=
      ih st1' g1 hwf' (fun e he => hmem e (List.mem_cons_of_mem _ he)) hnd.2
    have hrest_ne : ∀ e ∈ rest, lookupA g1 (Prod.fst e) ≠ some iK0 := by
      intro e he hcontra
      have : (e : String × List (String × ℚ)).1 = e0.1 :=
        lookup_ids_injective hwf hcontra hiK0
      exact hnd.1 (this ▸ List.mem_map_of_mem Prod.fst he)
    refine ⟨st2, ?_, hwf2, hnext2.trans hnext', hkeys2.trans hkeys', ?_, ?_, ?_⟩
    · rw [List.foldl_cons, hstep]
      exact hofold
    · intro i hi
      rw [hother2 i (fun e he => hi e (List.mem_cons_of_mem _ he)),
        hother' i ?_]
      intro he
      exact hi e0 (List.mem_cons_self e0 rest) (he ▸ hiK0)
    · intro i nd hnd0
      by_cases hik : i = iK0
      · subst hik
        obtain ⟨nd1, hnd1, hk1, hv1⟩ := hkv' nd hnd0
        obtain ⟨nd2, hnd2, hk2, hv2⟩ := hkv2 _ _ hnd1
        exact ⟨nd2, hnd2, hk2.trans hk1, hv2.trans hv1⟩
      · obtain ⟨nd2, hnd2, hk2, hv2⟩ := hkv2 i nd (by rw [hother' i hik]; exact hnd0)
        exact ⟨nd2, hnd2, hk2, hv2⟩
    · intro e he iK hiK a ha
      rcases List.mem_cons.mp he with h | h
      · subst h
        have hiKeq : iK = iK0 := by
          rw [hiK0] at hiK
          exact (Option.some_inj.mp hiK).symm
        subst hiKeq
        obtain ⟨i2, hi2, hsucc⟩ := harcs' a ha
        refine ⟨i2, hi2, ?_⟩
        have huntouched : getNode st2 iK = getNode st1' iK :=
          hother2 iK hrest_ne
        rw [succsOf, huntouched, ← succsOf]
        exact hsucc
      · exact harcs2 e h iK hiK a ha

theorem wf_new {V : Type} {st : St V} {g : GraphM} (hwf : Wf st g) :
    Wf st New :=
  ⟨List.nodup_nil, List.nodup_nil, by simp [New], hwf.2.2.2.1,
    hwf.2.2.2.2.1, hwf.2.2.2.2.2.1, by simp [New]⟩

/-- `Clone` on a well-formed, closed graph succeeds and produces a fresh,
structurally identical copy registered under the same keys. -/
theorem cloneG_spec {V : Type} (st0 : St V) (gg : GraphM)
    (hwf0 : Wf st0 gg) (hcl : Closed st0 gg) :
    ∃ st2 g2, CloneG st0 gg = .ok (st2, g2) ∧
      Extends st0 st2 ∧ Wf st2 g2 ∧
      g2.map Prod.fst = gg.map Prod.fst ∧
      (∀ p ∈ g2, st0.next ≤ (p : String × NodeId).2) ∧
      (∀ p ∈ gg, ∃ i', lookupA g2 p.1 = some i' ∧
        (∀ nd, getNode st0 (Prod.snd p) = some nd →
          ∃ nd', getNode st2 i' = some nd' ∧
            nd'.key = nd.key ∧ nd'.value = nd.value) ∧
        (∀ p2 ∈ gg, ∀ w,
          lookupA (succsOf st0 (Prod.snd p)) (Prod.snd p2) = some w →
          ∃ i2', lookupA g2 p2.1 = some i2' ∧
            lookupA (succsOf st2 i') i2' = some w)) := by
  obtain ⟨hkeysN, hlookN⟩ := exportNodes_spec st0 gg hwf0
  obtain ⟨hkeysA, hlookA⟩ := exportArcs_spec st0 gg hwf0
  obtain ⟨st1, g1, hfold1, hx1, hwf1, hkeys1, _, hnew1⟩ :=
    setFold_go (exportNodes st0 gg) st0 New (hkeysN ▸ hwf0.1) (wf_new hwf0)
      (fun _ _ => rfl)
  have hg1keys : g1.map Prod.fst = gg.map Prod.fst := by
    rw [hkeys1, hkeysN]
    rfl
  have hg1fresh : ∀ p ∈ g1, st0.next ≤ (p : String × NodeId).2 := by
    intro p hp
    have hpk : p.1 ∈ (exportNodes st0 gg).map Prod.fst := by
      rw [hkeysN, ← hg1keys]
      exact List.mem_map_of_mem Prod.fst hp
    obtain ⟨p0, hp0, hp0k⟩ := List.mem_map.mp hpk
    obtain ⟨i, hi1, hi2, _⟩ := hnew1 p0 hp0
    have hself : lookupA g1 p.1 = some p.2 := lookupA_eq_some_of_mem hwf1.1 hp
    rw [hp0k] at hi1
    rw [hi1] at hself
    rw [show (p : String × NodeId).2 = i from (Option.some_inj.mp hself).symm]
    exact hi2
  -- the arcs phase
  have haio : ∀ e ∈ exportArcs st0 gg,
      (e : String × List (String × ℚ)).1 ∈ g1.map Prod.fst ∧
      (∀ a ∈ e.2, (a : String × ℚ).1 ∈ g1.map Prod.fst) ∧
      ((e.2.map Prod.fst).Nodup) := by
    intro e he
    have hek : e.1 ∈ gg.map Prod.fst := by
      rw [← hkeysA]
      exact List.mem_map_of_mem Prod.fst he
    obtain ⟨p, hp, hpk⟩ := List.mem_map.mp hek
    obtain ⟨nd, hnd⟩ := getNode_of_mem_graph hwf0 hp
    have hlook := hlookA p hp nd hnd
    have helook : lookupA (exportArcs st0 gg) e.1 = some e.2 :=
      lookupA_eq_some_of_mem (by rw [hkeysA]; exact hwf0.1) he
    rw [← hpk] at helook
    rw [hlook] at helook
    have he2 : e.2 = nd.succs.foldl (fun m2 q => insertA m2 (keyOf st0 q.1) q.2) [] :=
      (Option.some_inj.mp helook).symm
    obtain ⟨hak, halook, hand⟩ := arcList_spec st0 hwf0 hcl hp hnd
    refine ⟨by rw [hg1keys, ← hpk]; exact List.mem_map_of_mem Prod.fst hp, ?_, ?_⟩
    · intro a ha
      rw [he2] at ha
      have : (a : String × ℚ).1 ∈ nd.succs.map (fun q => keyOf st0 (Prod.fst q)) := by
        rw [← hak]
        exact List.mem_map_of_mem Prod.fst ha
      obtain ⟨q, hq, hqk⟩ := List.mem_map.mp this
      have hqreg : (q : NodeId × ℚ).1 ∈ gg.map Prod.snd :=
        hcl p hp q (by rw [succsOf, hnd]; exact hq)
      obtain ⟨p2, hp2, hp2i⟩ := List.mem_map.mp hqreg
      have : keyOf st0 q.1 = p2.1 := by
        rw [← hp2i]
        exact hwf0.2.2.2.2.2.2 p2 hp2
      rw [hg1keys, ← hqk, this]
      exact List.mem_map_of_mem Prod.fst hp2
    · rw [he2, hak]
      exact hand
  obtain ⟨st2, hfold2, hwf2, hnext2, hkeys2, hother2, hkv2, harcs2⟩ :=
    connectOuter_go (exportArcs st0 gg) st1 g1 hwf1 haio
      (by rw [hkeysA]; exact hwf0.1)
  have hx2 : Extends st0 st2 := by
    refine ⟨le_trans hx1.1 (le_of_eq hnext2.symm), ?_, ?_⟩
    · intro i hi
      have hilt : i < st0.next := heapKeys_lt_next hwf0.2.2.2.2.1 i hi
      have huntouch : getNode st2 i = getNode st1 i := by
        apply hother2
        intro e he hcontra
        have : i ∈ g1.map Prod.snd := by
          have hm := mem_of_lookupA_eq_some hcontra
          exact List.mem_map_of_mem Prod.snd hm
        obtain ⟨p, hp, hpi⟩ := List.mem_map.mp this
        have hle := hg1fresh p hp
        rw [hpi] at hle
        exact absurd hle (not_le.mpr hilt)
      rw [huntouch, hx1.2.1 i hi]
    · intro i hi
      rw [hkeys2] at hi
      exact hx1.2.2 i hi
  refine ⟨st2, g1, ?_, hx2, hwf2, hg1keys, hg1fresh, ?_⟩
  · show (exportArcs st0 gg).foldl oStep (.ok _) = _
    rw [hfold1]
    exact hfold2
  · intro p hp
    obtain ⟨nd, hnd⟩ := getNode_of_mem_graph hwf0 hp
    have hndk : nd.key = p.1 := by
      have := hwf0.2.2.2.2.2.2 p hp
      rw [keyOf, hnd] at this
      exact this
    have hlookn := hlookN p hp nd hnd
    have hmemn : (p.1, nd.value) ∈ exportNodes st0 gg :=
      mem_of_lookupA_eq_some hlookn
    obtain ⟨i', hi'1, hi'2, hi'3⟩ := hnew1 (p.1, nd.value) hmemn
    refine ⟨i', hi'1, ?_, ?_⟩
    · intro nd0 hnd0
      have : nd0 = nd := by
        rw [hnd] at hnd0
        exact (Option.some_inj.mp hnd0).symm
      subst this
      obtain ⟨nd', hnd', hk', hv'⟩ := hkv2 i' _ hi'3
      exact ⟨nd', hnd', by rw [hk', hndk], by rw [hv']⟩
    · intro p2 hp2 w hw
      obtain ⟨_, halook, _⟩ := arcList_spec st0 hwf0 hcl hp hnd
      have hq : ((p2 : String × NodeId).2, w) ∈ nd.succs := by
        have := mem_of_lookupA_eq_some hw
        rw [succsOf, hnd] at this
        exact this
      have hkeyq : keyOf st0 (Prod.snd p2) = p2.1 := hwf0.2.2.2.2.2.2 p2 hp2
      have harc := halook (p2.2, w) hq
      rw [hkeyq] at harc
      have hmemarc : ((p2.1 : String), w) ∈
          nd.succs.foldl (fun m2 q => insertA m2 (keyOf st0 q.1) q.2) [] :=
        mem_of_lookupA_eq_some harc
      have hlooka := hlookA p hp nd hnd
      have hmeme : (p.1, nd.succs.foldl
          (fun m2 q => insertA m2 (keyOf st0 q.1) q.2) []) ∈ exportArcs st0 gg :=
        mem_of_lookupA_eq_some hlooka
      obtain ⟨i2, hi2a, hi2b⟩ := harcs2 _ hmeme i' hi'1 (p2.1, w) hmemarc
      exact ⟨i2, hi2a, hi2b⟩

theorem dupFound_eq_false_iff :
    ∀ (ks : List String) (tmp : List (String × Bool)),
    dupFound ks tmp = false ↔ ks.Nodup ∧ ∀ k ∈ ks, lookupA tmp k = none := by
  intro ks
  induction ks with
  | nil => intro tmp; simp [dupFound]
  | cons k rest ih =>
    intro tmp
    by_cases hk : (lookupA tmp k).isSome
    · simp only [dupFound, if_pos hk]
      constructor
      · intro h
        cases h
      · rintro ⟨_, hall⟩
        have := hall k (List.mem_cons_self k rest)
        rw [this] at hk
        cases hk
    · simp only [dupFound, if_neg hk]
      rw [ih (insertA tmp k true)]
      have hknone : lookupA tmp k = none := by
        cases h : lookupA tmp k with
        | none => rfl
        | some b => rw [h] at hk; simp at hk
      constructor
      · rintro ⟨hnd, hall⟩
        have hkni : k ∉ rest := by
          intro hkr
          have := hall k hkr
          rw [lookupA_insertA_self] at this
          cases this
        refine ⟨List.nodup_cons.mpr ⟨hkni, hnd⟩, ?_⟩
        intro k' hk'
        rcases List.mem_cons.mp hk' with h | h
        · exact h ▸ hknone
        · have := hall k' h
          have hne : k ≠ k' := by
            intro he
            rw [← he, lookupA_insertA_self] at this
            cases this
          rwa [lookupA_insertA_ne _ _ hne] at this
      · rintro ⟨hnd, hall⟩
        rw [List.nodup_cons] at hnd
        refine ⟨hnd.2, ?_⟩
        intro k' hk'
        have hne : k ≠ k' := fun he => hnd.1 (he ▸ hk')
        rw [lookupA_insertA_ne _ _ hne]
        exact hall k' (List.mem_cons_of_mem _ hk')

theorem tmpMap_lookup_none :
    ∀ (g : GraphM) (m : List (String × Bool)) (k : String),
    lookupA (g.foldl (fun m2 p => insertA m2 p.1 true) m) k = none ↔
      (k ∉ g.map Prod.fst ∧ lookupA m k = none) := by
  intro g
  induction g with
  | nil => intro m k; simp
  | cons p rest ih =>
    intro m k
    rw [List.foldl_cons, ih]
    constructor
    · rintro ⟨hk, hl⟩
      by_cases hpk : p.1 = k
      · rw [hpk, lookupA_insertA_self] at hl
        cases hl
      · rw [lookupA_insertA_ne _ _ hpk] at hl
        exact ⟨by simp [hk, Ne.symm hpk], hl⟩
    · rintro ⟨hk, hl⟩
      simp only [List.map_cons, List.mem_cons] at hk
      push_neg at hk
      refine ⟨?_, ?_⟩
      · intro hkr
        exact hk.2 hkr
      · rw [lookupA_insertA_ne _ _ (fun he => hk.1 he.symm)]
        exact hl

/-- The success path of `Merge`: every input clones, and the receiver ends
up holding fresh copies of every input node and arc. -/
theorem mergeFold_go {V : Type} :
    ∀ (graphs : List GraphM) (stA : St V) (gA : GraphM),
    Wf stA gA →
    (∀ gg ∈ graphs, Wf stA gg ∧ Closed stA gg) →
    ((gA.map Prod.fst ++
      graphs.foldr (fun (gg : GraphM) acc => gg.map Prod.fst ++ acc) []).Nodup) →
    ∃ stB gB, graphs.foldl mStep (stA, gA, none) = (stB, gB, none) ∧
      Extends stA stB ∧ Wf stB gB ∧
      (∀ p ∈ gA, lookupA gB p.1 = some p.2) ∧
      (∀ gg ∈ graphs, ∀ p ∈ gg, ∃ i', lookupA gB p.1 = some i' ∧
        stA.next ≤ i' ∧
        (∀ nd, getNode stA (Prod.snd p) = some nd →
          ∃ nd', getNode stB i' = some nd' ∧
            nd'.key = nd.key ∧ nd'.value = nd.value) ∧
        (∀ p2 ∈ gg, ∀ w,
          lookupA (succsOf stA (Prod.snd p)) (Prod.snd p2) = some w →
          ∃ i2', lookupA gB p2.1 = some i2' ∧
            lookupA (succsOf stB i') i2' = some w)) := by
  intro graphs
  induction graphs with
  | nil =>
    intro stA gA hwfA _ _
    exact ⟨stA, gA, rfl, extends_refl stA, hwfA,
      fun p hp => lookupA_eq_some_of_mem hwfA.1 hp, by simp⟩
  | cons gg0 rest ih =>
    intro stA gA hwfA hgs hdisj
    obtain ⟨hwf00, hcl00⟩ := hgs gg0 (List.mem_cons_self gg0 rest)
    obtain ⟨st2, g2, hclone, hx2, hwf2g2, hg2keys, hg2fresh, hper⟩ :=
      cloneG_spec stA gg0 hwf00 hcl00
    have hdisj' : ((gA.map Prod.fst ++ gg0.map Prod.fst) ++
        rest.foldr (fun (gg : GraphM) acc => gg.map Prod.fst ++ acc) []).Nodup := by
      rw [List.append_assoc]
      exact hdisj
    have hKAK0 : (gA.map Prod.fst ++ gg0.map Prod.fst).Nodup :=
      hdisj'.sublist (List.sublist_append_left _ _)
    have hKAdisj : ∀ k ∈ gg0.map Prod.fst, k ∉ gA.map Prod.fst := by
      intro k hk hka
      have := (List.nodup_append.mp hKAK0).2.2
      exact this hka hk
    -- receiver insertion fold
    have hstepfn : (fun (c : GraphM) (p : String × NodeId) => insertA c p.1 p.2) =
        insStep Prod.fst (fun p : String × NodeId => some p.2) := by
      funext c p
      simp [insStep]
    have hg2nd : (g2.map Prod.fst).Nodup := by
      rw [hg2keys]
      exact hwf00.1
    obtain ⟨hkeysA', hpresA', hmemA', hdecA'⟩ := foldl_insert_option_go Prod.fst
      (fun p : String × NodeId => some p.2) g2 gA (fun _ _ => rfl) hg2nd
      (fun p hp => lookupA_eq_none_iff.mpr
        (hKAdisj p.1 (hg2keys ▸ List.mem_map_of_mem Prod.fst hp)))
    set gA' : GraphM := g2.foldl (fun c p => insertA c p.1 p.2) gA with hgA'
    have hgA'eq : gA' = g2.foldl (insStep Prod.fst
        (fun p : String × NodeId => some p.2)) gA := by
      rw [hgA', hstepfn]
    have hstep : mStep (stA, gA, none) gg0 = (st2, gA', none) := by
      simp [mStep, hclone]
    have hdec : ∀ p' ∈ gA', p' ∈ gA ∨ p' ∈ g2 := by
      intro p' hp'
      rw [hgA'eq] at hp'
      rcases hdecA' p' hp' with h | ⟨p, hp, hk, hF⟩
      · exact Or.inl h
      · right
        have : p' = p := by
          have h2 : (p' : String × NodeId).2 = p.2 := (Option.some_inj.mp hF).symm
          cases p'
          cases p
          simp only at hk h2
          rw [hk, h2]
        exact this ▸ hp
    -- Wf st2 gA'
    have hwfA' : Wf st2 gA' := by
      refine ⟨?_, ?_, ?_, hwf2g2.2.2.2.1, hwf2g2.2.2.2.2.1, hwf2g2.2.2.2.2.2.1, ?_⟩
      · rw [hgA'eq, hkeysA', hg2keys]
        exact hKAK0
      · have hga'nodup : gA'.Nodup := by
          have hnd : (gA'.map Prod.fst).Nodup := by
            rw [hgA'eq, hkeysA', hg2keys]
            exact hKAK0
          exact hnd.of_map
        apply hga'nodup.map_on
        intro x hx y hy hxy
        rcases hdec x hx with hxA | hx2m <;> rcases hdec y hy with hyA | hy2m
        · exact List.inj_on_of_nodup_map hwfA.2.1 hxA hyA hxy
        · exfalso
          have h1 := graphIds_lt_next hwfA x.2 (List.mem_map_of_mem Prod.snd hxA)
          have h2 := hg2fresh y hy2m
          rw [hxy] at h1
          exact absurd h2 (not_le.mpr h1)
        · exfalso
          have h1 := graphIds_lt_next hwfA y.2 (List.mem_map_of_mem Prod.snd hyA)
          have h2 := hg2fresh x hx2m
          rw [← hxy] at h1
          exact absurd h2 (not_le.mpr h1)
        · exact List.inj_on_of_nodup_map hwf2g2.2.1 hx2m hy2m hxy
      · intro p hp
        rcases hdec p hp with h | h
        · have halloc := hwfA.2.2.1 p h
          have := hx2.2.1 p.2 halloc
          rw [← lookupA_isSome_iff]
          show (getNode st2 p.2).isSome
          rw [this]
          exact lookupA_isSome_iff.mpr halloc
        · exact hwf2g2.2.2.1 p h
      · intro p hp
        rcases hdec p hp with h | h
        · have halloc := hwfA.2.2.1 p h
          rw [keyOf, hx2.2.1 p.2 halloc]
          exact hwfA.2.2.2.2.2.2 p h
        · exact hwf2g2.2.2.2.2.2.2 p h
    -- hypotheses for the tail
    have hgs' : ∀ gg ∈ rest, Wf st2 gg ∧ Closed st2 gg := by
      intro gg hgg
      obtain ⟨hw, hc⟩ := hgs gg (List.mem_cons_of_mem _ hgg)
      exact ⟨wf_of_extends hx2 hw ⟨hwf2g2.2.2.2.1, hwf2g2.2.2.2.2.1,
        hwf2g2.2.2.2.2.2.1⟩, closed_of_extends hx2 hw hc⟩
    have hdisjR : ((gA'.map Prod.fst ++
        rest.foldr (fun (gg : GraphM) acc => gg.map Prod.fst ++ acc) []).Nodup) := by
      have : gA'.map Prod.fst = gA.map Prod.fst ++ gg0.map Prod.fst := by
        rw [hgA'eq, hkeysA', hg2keys]
      rw [this]
      exact hdisj'
    obtain ⟨stB, gB, hfoldR, hxR, hwfB, hpresB, hperR⟩ :=
      ih st2 gA' hwfA' hgs' hdisjR
    have hlookB_of_g2 : ∀ p ∈ g2, lookupA gB p.1 = some p.2 := by
      intro p hp
      apply hpresB
      have := hmemA' p hp p.2 rfl
      rw [← hgA'eq] at this
      exact mem_of_lookupA_eq_some this
    refine ⟨stB, gB, ?_, extends_trans hx2 hxR, hwfB, ?_, ?_⟩
    · rw [List.foldl_cons, hstep]
      exact hfoldR
    · intro p hp
      apply hpresB
      have hnot : p.1 ∉ g2.map Prod.fst := by
        intro hmem
        exact hKAdisj p.1 (hg2keys ▸ hmem) (List.mem_map_of_mem Prod.fst hp)
      have hlk : lookupA gA' p.1 = some p.2 := by
        rw [hgA'eq, hpresA' p.1 hnot]
        exact lookupA_eq_some_of_mem hwfA.1 hp
      exact mem_of_lookupA_eq_some hlk
    · intro gg hgg p hp
      rcases List.mem_cons.mp hgg with h | h
      · subst h
        obtain ⟨i', hi'look, hkv, harcs⟩ := hper p hp
        have hi'fresh : stA.next ≤ i' := by
          have hm := mem_of_lookupA_eq_some hi'look
          exact hg2fresh (p.1, i') hm
        have hi'B : lookupA gB p.1 = some i' :=
          hlookB_of_g2 (p.1, i') (mem_of_lookupA_eq_some hi'look)
        have hi'alloc : i' ∈ st2.heap.map Prod.fst :=
          hwf2g2.2.2.1 (p.1, i') (mem_of_lookupA_eq_some hi'look)
        have hi'pres : getNode stB i' = getNode st2 i' := hxR.2.1 i' hi'alloc
        refine ⟨i', hi'B, hi'fresh, ?_, ?_⟩
        · intro nd hnd
          obtain ⟨nd', hnd', hk', hv'⟩ := hkv nd hnd
          exact ⟨nd', by rw [hi'pres]; exact hnd', hk', hv'⟩
        · intro p2 hp2 w hw
          obtain ⟨i2', hi2'look, hi2'succ⟩ := harcs p2 hp2 w hw
          refine ⟨i2', ?_, ?_⟩
          · exact hlookB_of_g2 (p2.1, i2') (mem_of_lookupA_eq_some hi2'look)
          · rw [succsOf, hi'pres]
            exact hi2'succ
      · obtain ⟨hwgg, _⟩ := hgs gg (List.mem_cons_of_mem _ h)
        obtain ⟨i', hi'look, hi'fresh, hkv, harcs⟩ := hperR gg h p hp
        have hpalloc : p.2 ∈ stA.heap.map Prod.fst := hwgg.2.2.1 p hp
        have hpnode : getNode st2 (Prod.snd p) = getNode stA (Prod.snd p) :=
          hx2.2.1 p.2 hpalloc
        refine ⟨i', hi'look, le_trans hx2.1 hi'fresh, ?_, ?_⟩
        · intro nd hnd
          exact hkv nd (by rw [hpnode]; exact hnd)
        · intro p2 hp2 w hw
          apply harcs p2 hp2 w
          rw [succsOf, hpnode]
          exact hw

/-- All keys involved in a `Merge` call: the receiver's keys followed by the
keys of every input graph, in order. -/
def allKeys (g : GraphM) (graphs : List GraphM) : List String :=
  g.map Prod.fst ++ graphs.foldr (fun (gg : GraphM) acc => gg.map Prod.fst ++ acc) []

/-- C4: `Merge` with any key collision (input vs. receiver or input vs.
input) returns `ErrDuplicateKey` with the receiver exactly as before; with
all key sets disjoint it succeeds, the receiver keeps all its entries and
nodes unchanged, and for every input node it gains a fresh copy (a node id
not previously allocated) with the same key and value, and every input arc
reappears between the copies with its original weight. -/
theorem C4_merge {V : Type} (st : St V) (g : GraphM) (graphs : List GraphM)
    (hwf : Wf st g) (hgs : ∀ gg ∈ graphs, Wf st gg ∧ Closed st gg) :
    (¬ (allKeys g graphs).Nodup →
      Merge st g graphs = (st, g, some ErrDuplicateKey)) ∧
    ((allKeys g graphs).Nodup →
      ∃ stB gB, Merge st g graphs = (stB, gB, none) ∧
        Extends st stB ∧ Wf stB gB ∧
        (∀ p ∈ g, lookupA gB p.1 = some p.2 ∧
          getNode stB (Prod.snd p) = getNode st (Prod.snd p)) ∧
        (∀ gg ∈ graphs, ∀ p ∈ gg, ∃ i', lookupA gB p.1 = some i' ∧
          i' ∉ st.heap.map Prod.fst ∧
          (∀ nd, getNode st (Prod.snd p) = some nd →
            ∃ nd', getNode stB i' = some nd' ∧
              nd'.key = nd.key ∧ nd'.value = nd.value) ∧
          (∀ p2 ∈ gg, ∀ w,
            lookupA (succsOf st (Prod.snd p)) (Prod.snd p2) = some w →
            ∃ i2', lookupA gB p2.1 = some i2' ∧
              lookupA (succsOf stB i') i2' = some w))) := by
  constructor
  · intro hnd
    have hdup : dupFound
        (graphs.foldr (fun gg acc => gg.map Prod.fst ++ acc) [])
        (g.foldl (fun m p => insertA m p.1 true) []) = true := by
      by_contra h
      have hf : dupFound
          (graphs.foldr (fun gg acc => gg.map Prod.fst ++ acc) [])
          (g.foldl (fun m p => insertA m p.1 true) []) = false := by
        cases hdf : dupFound
            (graphs.foldr (fun gg acc => gg.map Prod.fst ++ acc) [])
            (g.foldl (fun m p => insertA m p.1 true) [])
        · rfl
        · exact absurd hdf h
      obtain ⟨hnodup, hall⟩ := (dupFound_eq_false_iff _ _).mp hf
      apply hnd
      rw [allKeys, List.nodup_append]
      refine ⟨hwf.1, hnodup, ?_⟩
      intro a ha hb
      have hlk := hall a hb
      rw [tmpMap_lookup_none] at hlk
      exact hlk.1 ha
    simp [Merge, hdup]
  · intro hnd
    have hnd' := hnd
    rw [allKeys, List.nodup_append] at hnd'
    have hdup : dupFound
        (graphs.foldr (fun gg acc => gg.map Prod.fst ++ acc) [])
        (g.foldl (fun m p => insertA m p.1 true) []) = false := by
      rw [dupFound_eq_false_iff]
      refine ⟨hnd'.2.1, ?_⟩
      intro k hk
      rw [tmpMap_lookup_none]
      exact ⟨fun hkg => hnd'.2.2 hkg hk, rfl⟩
    obtain ⟨stB, gB, hfold, hx, hwfB, hpres, hper⟩ :=
      mergeFold_go graphs st g hwf hgs hnd
    refine ⟨stB, gB, ?_, hx, hwfB, ?_, ?_⟩
    · simp only [Merge, hdup, Bool.false_eq_true, if_false]
      exact hfold
    · intro p hp
      exact ⟨hpres p hp, hx.2.1 p.2 (hwf.2.2.1 p hp)⟩
    · intro gg hgg p hp
      obtain ⟨i', h1, h2, h3, h4⟩ := hper gg hgg p hp
      refine ⟨i', h1, ?_, h3, h4⟩
      intro hmem
      have hlt := heapKeys_lt_next hwf.2.2.2.2.1 i' hmem
      exact absurd h2 (not_le.mpr hlt)

/-- A store holding the receiver graph `"1" -(7)-> "2"` and an input graph
`"a" -(4)-> "b"` with disjoint key sets, for exercising `Merge`. -/
def mgSt : St Int :=
  ⟨[(0, ⟨"1", 1, [(1, 7)]⟩), (1, ⟨"2", 2, []⟩),
    (2, ⟨"a", 5, [(3, 4)]⟩), (3, ⟨"b", 6, []⟩)], 4⟩

/-- Receiver key map of the merge example. -/
def mgG : GraphM := [("1", 0), ("2", 1)]

/-- Input key map of the merge example. -/
def mgH : GraphM := [("a", 2), ("b", 3)]

/-- Witness: `C4_merge` applied to the concrete disjoint-key merge example,
with both well-formedness hypotheses discharged by evaluation. -/
theorem C4_merge_witness :
    (¬ (allKeys mgG [mgH]).Nodup →
      Merge mgSt mgG [mgH] = (mgSt, mgG, some ErrDuplicateKey)) ∧
    ((allKeys mgG [mgH]).Nodup →
      ∃ stB gB, Merge mgSt mgG [mgH] = (stB, gB, none) ∧
        Extends mgSt stB ∧ Wf stB gB ∧
        (∀ p ∈ mgG, lookupA gB p.1 = some p.2 ∧
          getNode stB (Prod.snd p) = getNode mgSt (Prod.snd p)) ∧
        (∀ gg ∈ [mgH], ∀ p ∈ gg, ∃ i', lookupA gB p.1 = some i' ∧
          i' ∉ mgSt.heap.map Prod.fst ∧
          (∀ nd, getNode mgSt (Prod.snd p) = some nd →
            ∃ nd', getNode stB i' = some nd' ∧
              nd'.key = nd.key ∧ nd'.value = nd.value) ∧
          (∀ p2 ∈ gg, ∀ w,
            lookupA (succsOf mgSt (Prod.snd p)) (Prod.snd p2) = some w →
            ∃ i2', lookupA gB p2.1 = some i2' ∧
              lookupA (succsOf stB i') i2' = some w))) :=
  C4_merge mgSt mgG [mgH] (by decide) (by decide)

/-! ### Order facts about `W.ltb` and the `maxScore` running maximum -/

theorem W.ltb_irrefl (a : W) : a.ltb a = false := by
  cases a <;> simp [W.ltb]

theorem W.ltb_asymm {a b : W} (h : a.ltb b = true) : b.ltb a = false := by
  cases a <;> cases b <;> simp_all [W.ltb] <;> linarith

theorem W.ge_trans {a b c : W} (h1 : a.ltb b = false) (h2 : b.ltb c = false) :
    a.ltb c = false := by
  cases a <;> cases b <;> cases c <;> simp_all [W.ltb] <;> linarith

theorem W.lt_of_lt_of_ge {a b c : W} (h1 : a.ltb b = true)
    (h2 : c.ltb b = false) : a.ltb c = true := by
  cases a <;> cases b <;> cases c <;> simp_all [W.ltb] <;> linarith

/-- Full characterization of the `maxScore` fold from an arbitrary running
state whose best-so-far and running maximum agree. -/
theorem maxScore_go :
    ∀ (toks : List Token) (acc : Option Token) (m : W),
    (∀ b, acc = some b → m = Token.score b) →
    ((toks.foldl (fun a t => if a.2.ltb t.score then (some t, t.score) else a)
        (acc, m)).2).ltb m = false ∧
    ((toks.foldl (fun a t => if a.2.ltb t.score then (some t, t.score) else a)
        (acc, m)).1 = none →
      acc = none ∧
      (toks.foldl (fun a t => if a.2.ltb t.score then (some t, t.score) else a)
        (acc, m)).2 = m ∧
      ∀ tok ∈ toks, m.ltb (Token.score tok) = false) ∧
    (∀ b, (toks.foldl (fun a t => if a.2.ltb t.score then (some t, t.score) else a)
        (acc, m)).1 = some b →
      (toks.foldl (fun a t => if a.2.ltb t.score then (some t, t.score) else a)
        (acc, m)).2 = Token.score b ∧
      (b ∈ toks ∨ (acc = some b ∧ m = Token.score b)) ∧
      (∀ tok ∈ toks, (Token.score b).ltb (Token.score tok) = false) ∧
      (acc = none → m.ltb (Token.score b) = true)) := by
  intro toks
  induction toks with
  | nil =>
    intro acc m hlink
    refine ⟨W.ltb_irrefl m, fun _ => ⟨‹_›, rfl, by simp⟩, ?_⟩
    intro b hb
    exact ⟨(hlink b hb).symm ▸ rfl, Or.inr ⟨hb, hlink b hb⟩, by simp,
      fun hn => by rw [hn] at hb; cases hb⟩
  | cons t rest ih =>
    intro acc m hlink
    rw [List.foldl_cons]
    by_cases hlt : m.ltb (Token.score t) = true
    · simp only [hlt, if_true]
      obtain ⟨ih0, ih1, ih2⟩ := ih (some t) (Token.score t)
        (fun b hb => by cases hb; rfl)
      have hge : (Token.score t).ltb m = false := W.ltb_asymm hlt
      refine ⟨W.ge_trans ih0 hge, ?_, ?_⟩
      · intro hnone
        exact absurd (ih1 hnone).1 (by simp)
      · intro b hb
        obtain ⟨h2a, h2b, h2c, _⟩ := ih2 b hb
        refine ⟨h2a, ?_, ?_, ?_⟩
        · rcases h2b with h | ⟨h, hm⟩
          · exact Or.inl (List.mem_cons_of_mem _ h)
          · cases h
            exact Or.inl (List.mem_cons_self _ _)
        · intro tok htok
          rcases List.mem_cons.mp htok with h | h
          · rw [← h2a, h]
            exact ih0
          · exact h2c tok h
        · intro _
          have hbge : (Token.score b).ltb (Token.score t) = false := by
            rw [← h2a]
            exact ih0
          exact W.lt_of_lt_of_ge hlt hbge
    · have hltf : m.ltb (Token.score t) = false := by
        cases h : m.ltb (Token.score t)
        · rfl
        · exact absurd h hlt
      simp only [hltf, Bool.false_eq_true, if_false]
      obtain ⟨ih0, ih1, ih2⟩ := ih acc m hlink
      refine ⟨ih0, ?_, ?_⟩
      · intro hnone
        obtain ⟨ha, hm, hall⟩ := ih1 hnone
        refine ⟨ha, hm, ?_⟩
        intro tok htok
        rcases List.mem_cons.mp htok with h | h
        · rw [h]
          exact hltf
        · exact hall tok h
      · intro b hb
        obtain ⟨h2a, h2b, h2c, h2d⟩ := ih2 b hb
        refine ⟨h2a, ?_, ?_, h2d⟩
        · rcases h2b with h | h
          · exact Or.inl (List.mem_cons_of_mem _ h)
          · exact Or.inr h
        · intro tok htok
          rcases List.mem_cons.mp htok with h | h
          · rw [h]
            have : (Token.score b).ltb m = false := by
              rw [← h2a]
              exact ih0
            exact W.ge_trans this hltf
          · exact h2c tok h

/-- A token returned by `maxScore` is a member of the candidate list, scores
strictly above `-Inf`, and no candidate strictly beats it. -/
theorem maxScore_eq_some_spec {toks : List Token} {b : Token}
    (h : maxScore toks = some b) :
    b ∈ toks ∧ W.ninf.ltb (Token.score b) = true ∧
    ∀ tok ∈ toks, (Token.score b).ltb (Token.score tok) = false := by
  rw [maxScore] at h
  obtain ⟨-, -, h3⟩ := maxScore_go toks none W.ninf (fun b hb => by cases hb)
  obtain ⟨-, hmem, hmax, hninf⟩ := h3 b h
  refine ⟨?_, hninf rfl, hmax⟩
  rcases hmem with hm | ⟨hm, -⟩
  · exact hm
  · cases hm

/-- `maxScore` returns no token exactly when every candidate scores `-Inf`. -/
theorem maxScore_eq_none_iff (toks : List Token) :
    maxScore toks = none ↔ ∀ tok ∈ toks, Token.score tok = W.ninf := by
  constructor
  · intro h
    rw [maxScore] at h
    obtain ⟨-, h2, -⟩ := maxScore_go toks none W.ninf (fun b hb => by cases hb)
    obtain ⟨-, -, hall⟩ := h2 h
    intro tok htok
    have hlt := hall tok htok
    cases hs : Token.score tok
    · rfl
    · rw [hs] at hlt
      simp [W.ltb] at hlt
  · intro hall
    cases hres : maxScore toks
    · rfl
    · exfalso
      obtain ⟨hmem, hninf, -⟩ := maxScore_eq_some_spec hres
      rw [hall _ hmem] at hninf
      simp [W.ltb] at hninf

/-! ### Behaviour of `record` and `pass` on the hypothesis map -/

theorem record_null {O : Type} (st : St (Vit O)) (hy : Hyps) (q : NodeId)
    (nt : Token) (hnull : (vitOf st q).isNull = true) :
    record st hy q nt = hy := by
  rw [record, if_pos hnull]

theorem record_self {O : Type} (st : St (Vit O)) (hy : Hyps) (q : NodeId)
    (nt : Token) (hnn : (vitOf st q).isNull = false) :
    lookupA (record st hy q nt) q = some (((lookupA hy q).getD []) ++ [nt]) := by
  rw [record, if_neg (by simp [hnn]), lookupA_insertA_self]

theorem record_lookup_ne {O : Type} (st : St (Vit O)) (hy : Hyps)
    {q n : NodeId} (nt : Token) (hne : q ≠ n) :
    lookupA (record st hy q nt) n = lookupA hy n := by
  rw [record]
  split
  · rfl
  · exact lookupA_insertA_ne hy _ hne

theorem record_mem_mono {O : Type} (st : St (Vit O)) (hy : Hyps)
    {q n : NodeId} (nt : Token) {tok : Token}
    (h : tok ∈ (lookupA hy n).getD []) :
    tok ∈ (lookupA (record st hy q nt) n).getD [] := by
  by_cases hq : q = n
  · subst hq
    rw [record]
    split
    · exact h
    · rw [lookupA_insertA_self]
      exact List.mem_append_left _ h
  · rw [record_lookup_ne st hy nt hq]
    exact h

/-- Generic preservation of a hypothesis-map predicate along a fold. -/
theorem foldl_hyps_preserve {α : Type} (P : Hyps → Prop)
    (f : Hyps → α → Hyps) :
    ∀ (l : List α) (hy : Hyps), (∀ hy2 a, a ∈ l → P hy2 → P (f hy2 a)) →
    P hy → P (l.foldl f hy) := by
  intro l
  induction l with
  | nil =>
    intro hy _ h
    exact h
  | cons a rest ih =>
    intro hy hstep h
    rw [List.foldl_cons]
    exact ih (f hy a) (fun hy2 b hb => hstep hy2 b (List.mem_cons_of_mem _ hb))
      (hstep hy a (List.mem_cons_self _ _) h)

/-- The `fuel + 1` unfolding of `pass`. -/
theorem pass_succ {O : Type} (st : St (Vit O)) (dend : NodeId) (o : O)
    (idx : Int) (fuel : Nat) (hy : Hyps) (t : Token) :
    pass st dend o idx (fuel + 1) hy t =
      (succsOf st t.node).foldl
        (passStep st dend o idx (fun hy2 t2 => pass st dend o idx fuel hy2 t2) t)
        hy := rfl

/-- A single `passStep` never removes a candidate, whenever its continuation
does not. -/
theorem passStep_mem_mono {O : Type} (st : St (Vit O)) (dend : NodeId)
    (o : O) (idx : Int) {k : Hyps → Token → Hyps} {n : NodeId} {tok : Token}
    (hk : ∀ hy t2, tok ∈ (lookupA hy n).getD [] →
      tok ∈ (lookupA (k hy t2) n).getD [])
    (t : Token) (hy : Hyps) (q : NodeId × ℚ)
    (h : tok ∈ (lookupA hy n).getD []) :
    tok ∈ (lookupA (passStep st dend o idx k t hy q) n).getD [] := by
  rw [passStep]
  split
  · exact hk _ _ (record_mem_mono st hy _ h)
  · split
    · exact hk _ _ (record_mem_mono st hy _ h)
    · exact record_mem_mono st hy _ h

/-- `pass` never removes a candidate. -/
theorem pass_mem_mono {O : Type} (st : St (Vit O)) (dend : NodeId) (o : O)
    (idx : Int) :
    ∀ (fuel : Nat) (hy : Hyps) (t : Token) {n : NodeId} {tok : Token},
    tok ∈ (lookupA hy n).getD [] →
    tok ∈ (lookupA (pass st dend o idx fuel hy t) n).getD [] := by
  intro fuel
  induction fuel with
  | zero =>
    intro hy t n tok h
    exact h
  | succ fuel ih =>
    intro hy t n tok h
    rw [pass_succ]
    refine foldl_hyps_preserve (fun hy2 => tok ∈ (lookupA hy2 n).getD []) _ _ hy
      ?_ h
    intro hy2 q _ hP
    exact passStep_mem_mono st dend o idx (fun hy3 t2 h3 => ih hy3 t2 h3) t hy2
      q hP

/-- `pass` never touches the candidate list of a null node (`createToken`
records only at emitting nodes). -/
theorem pass_null_lookup {O : Type} (st : St (Vit O)) (dend : NodeId) (o : O)
    (idx : Int) :
    ∀ (fuel : Nat) (hy : Hyps) (t : Token) {n : NodeId},
    (vitOf st n).isNull = true →
    lookupA (pass st dend o idx fuel hy t) n = lookupA hy n := by
  intro fuel
  induction fuel with
  | zero =>
    intro hy t n _
    rfl
  | succ fuel ih =>
    intro hy t n hnull
    rw [pass_succ]
    refine foldl_hyps_preserve (fun hy2 => lookupA hy2 n = lookupA hy n) _ _ hy
      ?_ rfl
    intro hy2 q _ hP
    have hrec : ∀ nt, lookupA (record st hy2 q.1 nt) n = lookupA hy2 n := by
      intro nt
      rw [record]
      split
      · rfl
      · rename_i hq
        refine lookupA_insertA_ne hy2 _ ?_
        intro he
        rw [he] at hq
        exact hq hnull
    rw [passStep]
    split
    · rw [ih _ _ hnull, hrec, hP]
    · split
      · rw [ih _ _ hnull, hrec, hP]
      · rw [hrec, hP]

/-- Every candidate the map associates to a node is anchored at that node. -/
def AnchOK (hy : Hyps) : Prop :=
  ∀ n tok, tok ∈ (lookupA hy n).getD [] → Token.node tok = n

theorem record_anch {O : Type} (st : St (Vit O)) (hy : Hyps) (q : NodeId)
    (nt : Token) (hnt : Token.node nt = q) (h : AnchOK hy) :
    AnchOK (record st hy q nt) := by
  intro n tok htok
  rw [record] at htok
  split at htok
  · exact h n tok htok
  · by_cases hq : q = n
    · subst hq
      rw [lookupA_insertA_self] at htok
      simp only [Option.getD_some] at htok
      rcases List.mem_append.mp htok with h1 | h1
      · exact h q tok h1
      · rw [List.mem_singleton.mp h1]
        exact hnt
    · rw [lookupA_insertA_ne hy _ hq] at htok
      exact h n tok htok

/-- `pass` preserves the anchoring invariant: every token it records is
anchored at the node it is recorded under. -/
theorem pass_anch {O : Type} (st : St (Vit O)) (dend : NodeId) (o : O)
    (idx : Int) :
    ∀ (fuel : Nat) (hy : Hyps) (t : Token), AnchOK hy →
    AnchOK (pass st dend o idx fuel hy t) := by
  intro fuel
  induction fuel with
  | zero =>
    intro hy t h
    exact h
  | succ fuel ih =>
    intro hy t h
    rw [pass_succ]
    refine foldl_hyps_preserve AnchOK _ _ hy ?_ h
    intro hy2 q _ hP
    rw [passStep]
    split
    · exact ih _ _ (record_anch st hy2 q.1 _ rfl hP)
    · split
      · exact ih _ _ (record_anch st hy2 q.1 _ rfl hP)
      · exact record_anch st hy2 q.1 _ rfl hP

/-- An edge to an emitting non-end successor records a terminal candidate
scored `t.Score + w + Score(o)`, anchored at the successor, at the same
sequence index. -/
theorem pass_adds_emit {O : Type} (st : St (Vit O)) (dend : NodeId) (o : O)
    (idx : Int) (fuel : Nat) (hy : Hyps) (t : Token) :
    ∀ q ∈ succsOf st (Token.node t), q.1 ≠ dend →
    (vitOf st q.1).isNull = false →
    Token.step ((((Token.score t)).addQ q.2).addQ ((vitOf st q.1).score o))
        q.1 t idx ∈
      (lookupA (pass st dend o idx (fuel + 1) hy t) q.1).getD [] := by
  intro q hq hne hnn
  obtain ⟨l1, l2, hsp⟩ := List.append_of_mem hq
  rw [pass_succ, hsp, List.foldl_append, List.foldl_cons]
  refine foldl_hyps_preserve
    (fun hy2 => Token.step ((((Token.score t)).addQ q.2).addQ
      ((vitOf st q.1).score o)) q.1 t idx ∈ (lookupA hy2 q.1).getD [])
    _ l2 _ ?_ ?_
  · intro hy2 a _ hP
    exact passStep_mem_mono st dend o idx
      (fun hy3 t2 h3 => pass_mem_mono st dend o idx fuel hy3 t2 h3) t hy2 a hP
  · simp only [passStep, if_neg hne, hnn, Bool.false_eq_true, if_false]
    rw [record_self st _ q.1 _ hnn]
    simp

/-- An edge into the end node records a `-Inf`-scored candidate there (when
the end node is emitting), not one scored `t.Score + w`. -/
theorem pass_adds_end {O : Type} (st : St (Vit O)) (dend : NodeId) (o : O)
    (idx : Int) (fuel : Nat) (hy : Hyps) (t : Token) :
    ∀ q ∈ succsOf st (Token.node t), q.1 = dend →
    (vitOf st dend).isNull = false →
    Token.step W.ninf q.1 t idx ∈
      (lookupA (pass st dend o idx (fuel + 1) hy t) q.1).getD [] := by
  intro q hq heq hnn
  obtain ⟨l1, l2, hsp⟩ := List.append_of_mem hq
  rw [pass_succ, hsp, List.foldl_append, List.foldl_cons]
  refine foldl_hyps_preserve
    (fun hy2 => Token.step W.ninf q.1 t idx ∈ (lookupA hy2 q.1).getD [])
    _ l2 _ ?_ ?_
  · intro hy2 a _ hP
    exact passStep_mem_mono st dend o idx
      (fun hy3 t2 h3 => pass_mem_mono st dend o idx fuel hy3 t2 h3) t hy2 a hP
  · simp only [passStep, if_pos heq]
    refine pass_mem_mono st dend o idx fuel _ _ ?_
    have hnn' : (vitOf st q.1).isNull = false := by
      rw [heq]
      exact hnn
    rw [record_self st _ q.1 _ hnn']
    simp

/-- An edge to a null non-end successor creates a token scored `t.Score + w`
anchored at the null node and immediately continues through that node's own
successors at the same index: any emitting non-end second-level successor
receives the corresponding terminal candidate whose backtrace is the
null-node token. -/
theorem pass_adds_null_emit {O : Type} (st : St (Vit O)) (dend : NodeId)
    (o : O) (idx : Int) (fuel : Nat) (hy : Hyps) (t : Token) :
    ∀ q ∈ succsOf st (Token.node t), q.1 ≠ dend →
    (vitOf st q.1).isNull = true →
    ∀ q2 ∈ succsOf st q.1, q2.1 ≠ dend → (vitOf st q2.1).isNull = false →
    Token.step (((((Token.score t)).addQ q.2).addQ q2.2).addQ
        ((vitOf st q2.1).score o)) q2.1
        (Token.step (((Token.score t)).addQ q.2) q.1 t idx) idx ∈
      (lookupA (pass st dend o idx (fuel + 2) hy t) q2.1).getD [] := by
  intro q hq hne hnull q2 hq2 hne2 hnn2
  obtain ⟨l1, l2, hsp⟩ := List.append_of_mem hq
  rw [show fuel + 2 = (fuel + 1) + 1 from rfl, pass_succ, hsp,
    List.foldl_append, List.foldl_cons]
  refine foldl_hyps_preserve
    (fun hy2 => Token.step (((((Token.score t)).addQ q.2).addQ q2.2).addQ
      ((vitOf st q2.1).score o)) q2.1
      (Token.step (((Token.score t)).addQ q.2) q.1 t idx) idx ∈
      (lookupA hy2 q2.1).getD []) _ l2 _ ?_ ?_
  · intro hy2 a _ hP
    exact passStep_mem_mono st dend o idx
      (fun hy3 t2 h3 => pass_mem_mono st dend o idx (fuel + 1) hy3 t2 h3) t
      hy2 a hP
  · simp only [passStep, if_neg hne, hnull, if_true]
    exact pass_adds_emit st dend o idx fuel _
      (Token.step (((Token.score t)).addQ q.2) q.1 t idx) q2 hq2 hne2 hnn2

/-- The initial per-node candidate lists of `propagate` are all empty. -/
theorem initHyps_lookup :
    ∀ (l : List NodeId) (acc : Hyps),
    (∀ n, (lookupA acc n).getD [] = ([] : List Token)) →
    ∀ n, (lookupA (l.foldl (fun h node => insertA h node []) acc) n).getD []
      = ([] : List Token) := by
  intro l
  induction l with
  | nil =>
    intro acc h n
    exact h n
  | cons a rest ih =>
    intro acc h n
    rw [List.foldl_cons]
    refine ih _ ?_ n
    intro n2
    by_cases ha : a = n2
    · subst ha
      rw [lookupA_insertA_self]
      rfl
    · rw [lookupA_insertA_ne acc _ ha]
      exact h n2

/-- First projection of `propagate`: the candidate map after all passes. -/
theorem propagate_fst {O : Type} (st : St (Vit O)) (d : Decoder) (fuel : Nat)
    (active : List Token) (idx : Int) (o : O) :
    (propagate st d fuel active idx o).1 =
      active.foldl (fun h t => pass st d.endN o idx fuel h t)
        ((GetAll d.graph).foldl (fun h node => insertA h node []) []) := rfl

/-- Second projection of `propagate`: the retention fold. -/
theorem propagate_snd {O : Type} (st : St (Vit O)) (d : Decoder) (fuel : Nat)
    (active : List Token) (idx : Int) (o : O) :
    (propagate st d fuel active idx o).2 =
      d.graph.foldl (selStep (propagate st d fuel active idx o).1) [] := rfl

/-- Anything `pass` adds for some active token survives to the final
candidate map of `propagate`. -/
theorem propagate_hyps_mem {O : Type} (st : St (Vit O)) (d : Decoder)
    (fuel : Nat) (act : List Token) (idx : Int) (o : O) {t : Token}
    (ht : t ∈ act) {n : NodeId} {tok : Token}
    (hadd : ∀ hy : Hyps,
      tok ∈ (lookupA (pass st d.endN o idx fuel hy t) n).getD []) :
    tok ∈ (lookupA (propagate st d fuel act idx o).1 n).getD [] := by
  rw [propagate_fst]
  obtain ⟨a1, a2, hsp⟩ := List.append_of_mem ht
  rw [hsp, List.foldl_append, List.foldl_cons]
  refine foldl_hyps_preserve (fun hy2 => tok ∈ (lookupA hy2 n).getD []) _ a2 _
    ?_ (hadd _)
  intro hy2 t2 _ hP
  exact pass_mem_mono st d.endN o idx fuel hy2 t2 hP

/-- Null nodes end every `propagate` with an empty candidate list: the
created null-node tokens are never recorded. -/
theorem propagate_null_lookup {O : Type} (st : St (Vit O)) (d : Decoder)
    (fuel : Nat) (act : List Token) (idx : Int) (o : O) {n : NodeId}
    (hnull : (vitOf st n).isNull = true) :
    (lookupA (propagate st d fuel act idx o).1 n).getD [] = [] := by
  rw [propagate_fst]
  refine foldl_hyps_preserve (fun hy2 => (lookupA hy2 n).getD [] = []) _ act _
    ?_ ?_
  · intro hy2 t _ hP
    rw [pass_null_lookup st d.endN o idx fuel hy2 t hnull]
    exact hP
  · exact initHyps_lookup (GetAll d.graph) [] (fun _ => rfl) n

/-- Every candidate in the final map of `propagate` is anchored at the node
it is filed under. -/
theorem propagate_anch {O : Type} (st : St (Vit O)) (d : Decoder)
    (fuel : Nat) (act : List Token) (idx : Int) (o : O) :
    AnchOK (propagate st d fuel act idx o).1 := by
  rw [propagate_fst]
  refine foldl_hyps_preserve AnchOK _ act _ ?_ ?_
  · intro hy2 t _ hP
    exact pass_anch st d.endN o idx fuel hy2 t hP
  · intro n tok htok
    rw [initHyps_lookup (GetAll d.graph) [] (fun _ => rfl) n] at htok
    cases htok

/-- The retention fold is a `filterMap` of `maxScore` over the graph. -/
theorem foldl_selStep (hyps : Hyps) :
    ∀ (l : List (String × NodeId)) (acc : List Token),
    l.foldl (selStep hyps) acc =
      acc ++ l.filterMap (fun p => maxScore ((lookupA hyps p.2).getD [])) := by
  intro l
  induction l with
  | nil =>
    intro acc
    simp
  | cons p rest ih =>
    intro acc
    rw [List.foldl_cons, ih, List.filterMap_cons]
    cases h : maxScore ((lookupA hyps p.2).getD [])
    · simp [selStep, h]
    · simp [selStep, h]

/-- Membership in the next active set: exactly the `maxScore` results of the
graph's nodes. -/
theorem mem_active_iff {O : Type} (st : St (Vit O)) (d : Decoder)
    (fuel : Nat) (act : List Token) (idx : Int) (o : O) (tok : Token) :
    tok ∈ (propagate st d fuel act idx o).2 ↔
      ∃ p ∈ d.graph, maxScore
        ((lookupA (propagate st d fuel act idx o).1 p.2).getD []) = some tok := by
  rw [propagate_snd, foldl_selStep]
  simp [List.mem_filterMap]

/-- A successfully built decoder wraps the graph it was built from. -/
theorem newDecoder_graph {O : Type} {st : St (Vit O)} {g : GraphM}
    {d : Decoder} (h : NewDecoder st g = .ok d) : d.graph = g := by
  rw [NewDecoder] at h
  split at h
  · cases h
  · dsimp only [] at h
    split at h
    · cases h
    · injection h with h2
      rw [← h2]

/-- C1 (amended): for a successfully constructed decoder, an observation
index, an active token `t` and a successor `q` of `t`'s node with weight
`q.2`: an edge into the end node records a candidate scored `-Inf` (not
`t.Score + w`) when the end node emits; an edge to an emitting non-end node
records a terminal candidate scored `t.Score + w + Score(o)` anchored there;
an edge to a null non-end node creates a token scored `t.Score + w` anchored
at the null node — never recorded as a candidate — and immediately continues
through that node's successors at the same observation index, as witnessed
by the second-level terminal candidates carrying it as backtrace.  The next
active set retains per node at most one token: a maximum-scoring candidate
of that node scoring strictly above `-Inf`; a node all of whose candidates
score `-Inf` retains none. -/
theorem C1_propagation_amended {O : Type} (st : St (Vit O)) (g : GraphM)
    (d : Decoder) (act : List Token) (idx : Int) (o : O) (fuel : Nat)
    (hwf : Wf st g) (hnew : NewDecoder st g = .ok d) :
    (∀ t ∈ act, ∀ q ∈ succsOf st (Token.node t),
      (q.1 = d.endN → (vitOf st d.endN).isNull = false →
        Token.step W.ninf q.1 t idx ∈
          (lookupA (propagate st d (fuel + 2) act idx o).1 q.1).getD []) ∧
      (q.1 ≠ d.endN → (vitOf st q.1).isNull = false →
        Token.step (((Token.score t).addQ q.2).addQ ((vitOf st q.1).score o))
            q.1 t idx ∈
          (lookupA (propagate st d (fuel + 2) act idx o).1 q.1).getD []) ∧
      (q.1 ≠ d.endN → (vitOf st q.1).isNull = true →
        ∀ q2 ∈ succsOf st q.1, q2.1 ≠ d.endN →
        (vitOf st q2.1).isNull = false →
        Token.step ((((Token.score t).addQ q.2).addQ q2.2).addQ
            ((vitOf st q2.1).score o)) q2.1
            (Token.step ((Token.score t).addQ q.2) q.1 t idx) idx ∈
          (lookupA (propagate st d (fuel + 2) act idx o).1 q2.1).getD [])) ∧
    (∀ n : NodeId, (vitOf st n).isNull = true →
      (lookupA (propagate st d (fuel + 2) act idx o).1 n).getD [] = []) ∧
    (∀ best ∈ (propagate st d (fuel + 2) act idx o).2,
      best ∈ (lookupA (propagate st d (fuel + 2) act idx o).1
        (Token.node best)).getD [] ∧
      W.ninf.ltb (Token.score best) = true ∧
      ∀ tok ∈ (lookupA (propagate st d (fuel + 2) act idx o).1
        (Token.node best)).getD [],
        (Token.score best).ltb (Token.score tok) = false) ∧
    (∀ b1 ∈ (propagate st d (fuel + 2) act idx o).2,
      ∀ b2 ∈ (propagate st d (fuel + 2) act idx o).2,
      Token.node b1 = Token.node b2 → b1 = b2) ∧
    (∀ p ∈ g, ∀ best,
      maxScore ((lookupA (propagate st d (fuel + 2) act idx o).1 p.2).getD [])
        = some best → best ∈ (propagate st d (fuel + 2) act idx o).2) ∧
    (∀ p ∈ g,
      (∀ tok ∈ (lookupA (propagate st d (fuel + 2) act idx o).1 p.2).getD [],
        Token.score tok = W.ninf) →
      ∀ tok ∈ (propagate st d (fuel + 2) act idx o).2,
        Token.node tok ≠ p.2) := by
  have hg : d.graph = g := newDecoder_graph hnew
  have hanch := propagate_anch st d (fuel + 2) act idx o
  refine ⟨?_, ?_, ?_, ?_, ?_, ?_⟩
  · intro t ht q hq
    refine ⟨?_, ?_, ?_⟩
    · intro heq hnn
      exact propagate_hyps_mem st d (fuel + 2) act idx o ht
        (fun hy => pass_adds_end st d.endN o idx (fuel + 1) hy t q hq heq hnn)
    · intro hne hnn
      exact propagate_hyps_mem st d (fuel + 2) act idx o ht
        (fun hy => pass_adds_emit st d.endN o idx (fuel + 1) hy t q hq hne hnn)
    · intro hne hnull q2 hq2 hne2 hnn2
      exact propagate_hyps_mem st d (fuel + 2) act idx o ht
        (fun hy => pass_adds_null_emit st d.endN o idx fuel hy t q hq hne
          hnull q2 hq2 hne2 hnn2)
  · intro n hnull
    exact propagate_null_lookup st d (fuel + 2) act idx o hnull
  · intro best hb
    obtain ⟨p, hp, hmax⟩ := (mem_active_iff st d (fuel + 2) act idx o best).mp hb
    obtain ⟨hmem, hninf, hmaxall⟩ := maxScore_eq_some_spec hmax
    have hnode : Token.node best = p.2 := hanch p.2 best hmem
    rw [hnode]
    exact ⟨hmem, hninf, hmaxall⟩
  · intro b1 hb1 b2 hb2 hn12
    obtain ⟨p1, hp1, hmax1⟩ :=
      (mem_active_iff st d (fuel + 2) act idx o b1).mp hb1
    obtain ⟨p2, hp2, hmax2⟩ :=
      (mem_active_iff st d (fuel + 2) act idx o b2).mp hb2
    obtain ⟨hmem1, -, -⟩ := maxScore_eq_some_spec hmax1
    obtain ⟨hmem2, -, -⟩ := maxScore_eq_some_spec hmax2
    have hn1 : Token.node b1 = p1.2 := hanch p1.2 b1 hmem1
    have hn2 : Token.node b2 = p2.2 := hanch p2.2 b2 hmem2
    rw [hg] at hp1 hp2
    have hps : p1.2 = p2.2 := by
      rw [← hn1, ← hn2, hn12]
    have hpe : p1 = p2 := List.inj_on_of_nodup_map hwf.2.1 hp1 hp2 hps
    rw [hpe] at hmax1
    rw [hmax1] at hmax2
    exact Option.some_inj.mp hmax2
  · intro p hp best hmax
    refine (mem_active_iff st d (fuel + 2) act idx o best).mpr ⟨p, ?_, hmax⟩
    rw [hg]
    exact hp
  · intro p hp hall tok htok heqn
    obtain ⟨p', hp', hmax'⟩ :=
      (mem_active_iff st d (fuel + 2) act idx o tok).mp htok
    obtain ⟨hmem', -, -⟩ := maxScore_eq_some_spec hmax'
    have hn' : Token.node tok = p'.2 := hanch p'.2 tok hmem'
    rw [hg] at hp'
    have hps : p'.2 = p.2 := by
      rw [← hn', heqn]
    have hpe : p' = p := List.inj_on_of_nodup_map hwf.2.1 hp' hp hps
    rw [hpe] at hmax'
    rw [(maxScore_eq_none_iff _).mpr hall] at hmax'
    cases hmax'

/-- Witness: `C1_propagation_amended` at the two-node decoder example, its
hypotheses discharged by evaluation; the projected clause evaluates the
null-node emptiness guarantee. -/
theorem C1_propagation_amended_witness :
    Wf endemSt endemG ∧ NewDecoder endemSt endemG = .ok endemD ∧
    (∀ n : NodeId, (vitOf endemSt n).isNull = true →
      (lookupA (propagate endemSt endemD 2
        [Token.first (W.fin 0) 0 (-1)] 0 (0 : Nat)).1 n).getD [] = []) ∧
    (∀ b1 ∈ (propagate endemSt endemD 2
        [Token.first (W.fin 0) 0 (-1)] 0 (0 : Nat)).2,
      ∀ b2 ∈ (propagate endemSt endemD 2
        [Token.first (W.fin 0) 0 (-1)] 0 (0 : Nat)).2,
      Token.node b1 = Token.node b2 → b1 = b2) := by
  have hnew : NewDecoder endemSt endemG = .ok endemD := by
    have hs : StartNodes endemSt endemG = [0] := by decide
    have he : EndNodes endemSt endemG = [1] := by decide
    simp [NewDecoder, hs, he, endemD]
  have hmain := C1_propagation_amended endemSt endemG endemD
    [Token.first (W.fin 0) 0 (-1)] 0 (0 : Nat) 0 (by decide) hnew
  exact ⟨by decide, hnew, hmain.2.1, hmain.2.2.2.1⟩

/-! ### A* search: queue, open-list and closed-list facts -/

theorem popMin_cons_ne_none (it : Item) (rest : List Item) :
    popMin (it :: rest) ≠ none := by
  rw [popMin]
  cases popMin rest with
  | none => simp
  | some p =>
    obtain ⟨m, rest'⟩ := p
    dsimp only
    split <;> simp

/-- Popping returns a permutation: the popped item together with the rest of
the queue. -/
theorem popMin_perm :
    ∀ {q : List Item} {m : Item} {q' : List Item},
    popMin q = some (m, q') → q.Perm (m :: q') := by
  intro q
  induction q with
  | nil =>
    intro m q' h
    cases h
  | cons it rest ih =>
    intro m q' h
    rw [popMin] at h
    cases hr : popMin rest with
    | none =>
      rw [hr] at h
      injection h with h2
      obtain ⟨rfl, rfl⟩ := Prod.mk.inj h2
      have hre : rest = [] := by
        cases rest with
        | nil => rfl
        | cons a l => exact absurd hr (popMin_cons_ne_none a l)
      rw [hre]
    | some p =>
      obtain ⟨m0, rest'⟩ := p
      rw [hr] at h
      dsimp only at h
      have hperm := ih hr
      split at h
      · injection h with h2
        obtain ⟨rfl, rfl⟩ := Prod.mk.inj h2
        exact List.Perm.refl _
      · injection h with h2
        obtain ⟨rfl, rfl⟩ := Prod.mk.inj h2
        exact (hperm.cons it).trans (List.Perm.swap m0 it rest')

theorem popMin_mem {q : List Item} {m : Item} {q' : List Item}
    (h : popMin q = some (m, q')) : m ∈ q :=
  (popMin_perm h).symm.subset (List.mem_cons_self m q')

theorem popMin_subset {q : List Item} {m : Item} {q' : List Item}
    (h : popMin q = some (m, q')) : ∀ it ∈ q', it ∈ q :=
  fun it hit => (popMin_perm h).symm.subset (List.mem_cons_of_mem m hit)

theorem removeItem_subset (q : List Item) (k : Option NodeId) :
    ∀ it ∈ removeItem q k, it ∈ q :=
  fun it h => (List.eraseP_sublist q).subset h

theorem removeItem_map_v_nodup {q : List Item} {k : Option NodeId}
    (hnd : (q.map Item.v).Nodup) : ((removeItem q k).map Item.v).Nodup :=
  ((List.eraseP_sublist q).map Item.v).nodup hnd

theorem removeItem_not_mem {q : List Item} (k : Option NodeId)
    (hnd : (q.map Item.v).Nodup) : k ∉ (removeItem q k).map Item.v := by
  induction q with
  | nil =>
    simp [removeItem]
  | cons it rest ih =>
    simp only [List.map_cons, List.nodup_cons] at hnd
    by_cases hv : it.v = k
    · have he : removeItem (it :: rest) k = rest := by
        simp [removeItem, List.eraseP_cons, hv]
      rw [he, ← hv]
      exact hnd.1
    · have he : removeItem (it :: rest) k = it :: removeItem rest k := by
        simp [removeItem, List.eraseP_cons, hv]
      rw [he]
      simp only [List.map_cons, List.mem_cons]
      push_neg
      exact ⟨fun heq => hv heq.symm, ih hnd.2⟩

theorem eraseA_sublist {α β : Type} [DecidableEq α] :
    ∀ (l : List (α × β)) (a : α), (eraseA l a).Sublist l := by
  intro l a
  induction l with
  | nil => simp [eraseA]
  | cons hd tl ih =>
    obtain ⟨k, v⟩ := hd
    rw [eraseA]
    split
    · exact (List.sublist_cons_self _ _)
    · exact ih.cons₂ (k, v)

theorem keys_eraseA_nodup {α β : Type} [DecidableEq α]
    {l : List (α × β)} (hnd : (l.map Prod.fst).Nodup) (a : α) :
    ((eraseA l a).map Prod.fst).Nodup :=
  ((eraseA_sublist l a).map Prod.fst).nodup hnd

theorem eraseA_subset {α β : Type} [DecidableEq α]
    (l : List (α × β)) (a : α) : ∀ p ∈ eraseA l a, p ∈ l :=
  fun _ h => (eraseA_sublist l a).subset h

theorem lookupA_insertA_isSome_mono {α β : Type} [DecidableEq α]
    {l : List (α × β)} {k : α} (a : α) (b : β)
    (h : (lookupA l k).isSome) : (lookupA (insertA l a b) k).isSome := by
  by_cases hk : a = k
  · subst hk
    rw [lookupA_insertA_self]
    rfl
  · rw [lookupA_insertA_ne l b hk]
    exact h

theorem keys_insertA_nodup {α β : Type} [DecidableEq α]
    {l : List (α × β)} (hnd : (l.map Prod.fst).Nodup) (a : α) (b : β) :
    ((insertA l a b).map Prod.fst).Nodup := by
  rw [keys_insertA]
  split
  · exact hnd
  · rename_i hmem
    simp [List.nodup_append, hnd, hmem]

theorem keys_insertA_subset {α β : Type} [DecidableEq α]
    (l : List (α × β)) (a : α) (b : β) :
    ∀ k ∈ (insertA l a b).map Prod.fst, k ∈ l.map Prod.fst ∨ k = a := by
  intro k hk
  rw [keys_insertA] at hk
  split at hk
  · exact Or.inl hk
  · rcases List.mem_append.mp hk with h | h
    · exact Or.inl h
    · exact Or.inr (List.mem_singleton.mp h)

/-- Per-id form of heap closure. -/
theorem hclosed_succs {V : Type} {st : St V} (h : HClosed st) :
    ∀ i, ∀ q ∈ succsOf st i, q.1 ∈ st.heap.map Prod.fst := by
  intro i q hq
  rw [succsOf] at hq
  cases hg : getNode st i with
  | none =>
    rw [hg] at hq
    cases hq
  | some nd =>
    rw [hg] at hq
    exact h (i, nd) (mem_of_lookupA_eq_some hg) q hq

/-- The queue/open-list invariant of the A* loop, relative to a closed list
and a predicate `R` bounding which node pointers can become queued: queued
values are distinct and open; open keys are unclosed, distinct, and
allocated (or nil); queued values satisfy `R` and are allocated (or nil). -/
def QInv {V : Type} (st : St V) (closedL : List (Option NodeId × Item))
    (R : Option NodeId → Prop)
    (acc : List Item × List (Option NodeId × Item)) : Prop :=
  (acc.1.map Item.v).Nodup ∧
  (∀ it ∈ acc.1, (lookupA acc.2 it.v).isSome) ∧
  (∀ k, (lookupA acc.2 k).isSome → lookupA closedL k = none) ∧
  ((acc.2.map Prod.fst).Nodup) ∧
  (∀ k ∈ acc.2.map Prod.fst,
    k = none ∨ ∃ i, k = some i ∧ i ∈ st.heap.map Prod.fst) ∧
  (∀ it ∈ acc.1, R it.v) ∧
  (∀ it ∈ acc.1,
    it.v = none ∨ ∃ i, it.v = some i ∧ i ∈ st.heap.map Prod.fst)

/-- One successor relaxation preserves the queue/open-list invariant. -/
theorem relaxStep_inv {V : Type} (st : St V) (endKey : String)
    (heuristic : String → String → ℚ) (current : Option NodeId) (dist : ℚ)
    (closedL : List (Option NodeId × Item)) (R : Option NodeId → Prop)
    (q : NodeId × ℚ) (hq1 : q.1 ∈ st.heap.map Prod.fst)
    (hqR : R (some q.1)) (acc : List Item × List (Option NodeId × Item))
    (hinv : QInv st closedL R acc) :
    QInv st closedL R (relaxStep st endKey heuristic current dist closedL acc q) := by
  obtain ⟨h1, h2, h3, h8, h5, h6, h7⟩ := hinv
  rw [relaxStep]
  split
  · exact ⟨h1, h2, h3, h8, h5, h6, h7⟩
  · rename_i hncl
    have hclnone : lookupA closedL (some q.1) = none :=
      Option.not_isSome_iff_eq_none.mp hncl
    dsimp only
    cases hmd : lookupA acc.2 (some q.1) with
    | some md =>
      dsimp only
      by_cases hlt : md.distanceFromStart < dist + q.2
      · rw [if_pos hlt]
        exact ⟨h1, h2, h3, h8, h5, h6, h7⟩
      · rw [if_neg hlt]
        refine ⟨?_, ?_, ?_, keys_insertA_nodup h8 _ _, ?_, ?_, ?_⟩
        · rw [List.map_append]
          rw [List.nodup_append]
          refine ⟨removeItem_map_v_nodup h1, List.nodup_singleton _, ?_⟩
          intro a ha hb
          rw [List.mem_singleton.mp hb] at ha
          exact removeItem_not_mem _ h1 ha
        · intro it hit
          rcases List.mem_append.mp hit with hold | hnew
          · exact lookupA_insertA_isSome_mono _ _
              (h2 it (removeItem_subset _ _ it hold))
          · rw [List.mem_singleton.mp hnew]
            rw [lookupA_insertA_self]
            rfl
        · intro k hk
          by_cases hkq : k = some q.1
          · rw [hkq]
            exact hclnone
          · rw [lookupA_insertA_ne acc.2 _ (fun he => hkq he.symm)] at hk
            exact h3 k hk
        · intro k hk
          rcases keys_insertA_subset acc.2 _ _ k hk with hold | hnew
          · exact h5 k hold
          · exact Or.inr ⟨q.1, hnew, hq1⟩
        · intro it hit
          rcases List.mem_append.mp hit with hold | hnew
          · exact h6 it (removeItem_subset _ _ it hold)
          · rw [List.mem_singleton.mp hnew]
            exact hqR
        · intro it hit
          rcases List.mem_append.mp hit with hold | hnew
          · exact h7 it (removeItem_subset _ _ it hold)
          · rw [List.mem_singleton.mp hnew]
            exact Or.inr ⟨q.1, rfl, hq1⟩
    | none =>
      dsimp only
      have hnotq : some q.1 ∉ acc.1.map Item.v := by
        intro hmem
        obtain ⟨it, hit, hv⟩ := List.mem_map.mp hmem
        have := h2 it hit
        rw [hv, hmd] at this
        cases this
      refine ⟨?_, ?_, ?_, keys_insertA_nodup h8 _ _, ?_, ?_, ?_⟩
      · rw [List.map_append]
        rw [List.nodup_append]
        refine ⟨h1, List.nodup_singleton _, ?_⟩
        intro a ha hb
        rw [List.mem_singleton.mp hb] at ha
        exact hnotq ha
      · intro it hit
        rcases List.mem_append.mp hit with hold | hnew
        · exact lookupA_insertA_isSome_mono _ _ (h2 it hold)
        · rw [List.mem_singleton.mp hnew]
          rw [lookupA_insertA_self]
          rfl
      · intro k hk
        by_cases hkq : k = some q.1
        · rw [hkq]
          exact hclnone
        · rw [lookupA_insertA_ne acc.2 _ (fun he => hkq he.symm)] at hk
          exact h3 k hk
      · intro k hk
        rcases keys_insertA_subset acc.2 _ _ k hk with hold | hnew
        · exact h5 k hold
        · exact Or.inr ⟨q.1, hnew, hq1⟩
      · intro it hit
        rcases List.mem_append.mp hit with hold | hnew
        · exact h6 it hold
        · rw [List.mem_singleton.mp hnew]
          exact hqR
      · intro it hit
        rcases List.mem_append.mp hit with hold | hnew
        · exact h7 it hold
        · rw [List.mem_singleton.mp hnew]
          exact Or.inr ⟨q.1, rfl, hq1⟩

/-- The whole relaxation fold preserves the queue/open-list invariant. -/
theorem foldl_relax_inv {V : Type} (st : St V) (endKey : String)
    (heuristic : String → String → ℚ) (current : Option NodeId) (dist : ℚ)
    (closedL : List (Option NodeId × Item)) (R : Option NodeId → Prop) :
    ∀ (succs : List (NodeId × ℚ)),
    (∀ q ∈ succs, q.1 ∈ st.heap.map Prod.fst) →
    (∀ q ∈ succs, R (some q.1)) →
    ∀ (acc : List Item × List (Option NodeId × Item)),
    QInv st closedL R acc →
    QInv st closedL R
      (succs.foldl (relaxStep st endKey heuristic current dist closedL) acc) := by
  intro succs
  induction succs with
  | nil =>
    intro _ _ acc h
    exact h
  | cons q rest ih =>
    intro hmem hr acc h
    rw [List.foldl_cons]
    exact ih (fun p hp => hmem p (List.mem_cons_of_mem _ hp))
      (fun p hp => hr p (List.mem_cons_of_mem _ hp)) _
      (relaxStep_inv st endKey heuristic current dist closedL R q
        (hmem q (List.mem_cons_self _ _)) (hr q (List.mem_cons_self _ _)) acc h)

/-- When no queued pointer can ever satisfy the end check, the A* loop
exhausts its queue within the given fuel (one fresh node is closed per
iteration) and reports no path. -/
theorem astarLoop_no_path {V : Type} (st : St V) (endKey : String)
    (heuristic : String → String → ℚ) (e : NodeId) (R : Option NodeId → Prop)
    (hhcl : ∀ i, ∀ q ∈ succsOf st i, q.1 ∈ st.heap.map Prod.fst)
    (hRsucc : ∀ i, R (some i) → ∀ q ∈ succsOf st i, R (some q.1))
    (hRend : ¬ R (some e)) :
    ∀ (fuel : Nat) (s : AState),
    QInv st s.closedL R (s.queue, s.openL) →
    ((s.closedL.map Prod.fst).Nodup) →
    (∀ k ∈ s.closedL.map Prod.fst,
      k = none ∨ ∃ i, k = some i ∧ i ∈ st.heap.map Prod.fst) →
    st.heap.length + 2 ≤ fuel + s.closedL.length →
    astarLoop st endKey heuristic (some e) fuel s = ([], false) := by
  intro fuel
  induction fuel with
  | zero =>
    intro s _ hc4 hc5 hfuel
    exfalso
    have hsub : s.closedL.map Prod.fst ⊆
        none :: st.heap.map (fun p => some p.1) := by
      intro k hk
      rcases hc5 k hk with h | ⟨i, rfl, hi⟩
      · rw [h]
        exact List.mem_cons_self _ _
      · refine List.mem_cons_of_mem _ ?_
        obtain ⟨p, hp, hpi⟩ := List.mem_map.mp hi
        exact List.mem_map.mpr ⟨p, hp, by rw [hpi]⟩
    have hle := (List.subperm_of_subset hc4 hsub).length_le
    simp only [List.length_map, List.length_cons] at hle
    omega
  | succ fuel ih =>
    intro s hq hc4 hc5 hfuel
    obtain ⟨h1, h2, h3, h8, h5, h6, h7⟩ := hq
    rw [astarLoop]
    cases hpop : popMin s.queue with
    | none => rfl
    | some pq =>
      obtain ⟨popped, queue'⟩ := pq
      dsimp only
      have hmem := popMin_mem hpop
      have hRv : R popped.v := h6 popped hmem
      have hne : ¬ popped.v = some e := fun h => hRend (h ▸ hRv)
      rw [if_neg hne]
      have hoc : (lookupA s.openL popped.v).isSome := h2 popped hmem
      have hcc : lookupA s.closedL popped.v = none := h3 _ hoc
      have hpermv : (s.queue.map Item.v).Perm
          (popped.v :: queue'.map Item.v) := (popMin_perm hpop).map Item.v
      have hndc : (popped.v :: queue'.map Item.v).Nodup :=
        (hpermv.nodup_iff).mp h1
      have hvnotin : popped.v ∉ queue'.map Item.v :=
        (List.nodup_cons.mp hndc).1
      have hq'sub := popMin_subset hpop
      have hins := insertA_of_lookup_none hcc
        ((lookupA s.openL popped.v).getD popped)
      have hc4' : ((insertA s.closedL popped.v
          ((lookupA s.openL popped.v).getD popped)).map Prod.fst).Nodup := by
        rw [hins, List.map_append]
        rw [List.nodup_append]
        refine ⟨hc4, List.nodup_singleton _, ?_⟩
        intro a ha hb
        rw [List.mem_singleton.mp hb] at ha
        exact (lookupA_eq_none_iff.mp hcc) ha
      have hc5' : ∀ k ∈ (insertA s.closedL popped.v
          ((lookupA s.openL popped.v).getD popped)).map Prod.fst,
          k = none ∨ ∃ i, k = some i ∧ i ∈ st.heap.map Prod.fst := by
        rw [hins, List.map_append]
        intro k hk
        rcases List.mem_append.mp hk with hold | hnew
        · exact hc5 k hold
        · rw [List.mem_singleton.mp hnew]
          exact h7 popped hmem
      have hlen' : (insertA s.closedL popped.v
          ((lookupA s.openL popped.v).getD popped)).length
          = s.closedL.length + 1 := by
        rw [hins, List.length_append]
        rfl
      apply ih
      · rw [relaxSuccs]
        apply foldl_relax_inv
        · intro p hp
          cases hv : popped.v with
          | none =>
            rw [hv] at hp
            cases hp
          | some i =>
            rw [hv] at hp
            exact hhcl i p hp
        · intro p hp
          cases hv : popped.v with
          | none =>
            rw [hv] at hp
            cases hp
          | some i =>
            rw [hv] at hp
            exact hRsucc i (hv ▸ hRv) p hp
        · refine ⟨?_, ?_, ?_, keys_eraseA_nodup h8 _, ?_, ?_, ?_⟩
          · exact (List.nodup_cons.mp hndc).2
          · intro it hit
            have hnev : popped.v ≠ it.v := by
              intro heq
              exact hvnotin (heq ▸ List.mem_map_of_mem Item.v hit)
            rw [lookupA_eraseA_ne s.openL hnev h8]
            exact h2 it (hq'sub it hit)
          · intro k hk
            by_cases hkp : k = popped.v
            · rw [hkp, lookupA_eraseA_self s.openL popped.v h8] at hk
              cases hk
            · rw [lookupA_eraseA_ne s.openL (fun h => hkp h.symm) h8] at hk
              rw [lookupA_insertA_ne s.closedL _ (fun h => hkp h.symm)]
              exact h3 k hk
          · intro k hk
            obtain ⟨p, hp, hpk⟩ := List.mem_map.mp hk
            exact h5 k (hpk ▸ List.mem_map_of_mem Prod.fst
              (eraseA_subset s.openL popped.v p hp))
          · intro it hit
            exact h6 it (hq'sub it hit)
          · intro it hit
            exact h7 it (hq'sub it hit)
      · exact hc4'
      · exact hc5'
      · rw [hlen']
        omega

/-- C8 (amended): when the end key is present but its node is not reachable
from the start pointer — witnessed by any successor-closed predicate `R`
holding at the start pointer but not at the end node — the search exhausts
its queue and returns `([], false)`. -/
theorem C8_no_path_amended {V : Type} (st : St V) (g : GraphM)
    (startKey endKey : String) (heuristic : String → String → ℚ) (e : NodeId)
    (hwf : Wf st g) (hhcl : HClosed st)
    (hend : lookupA g endKey = some e) (R : Option NodeId → Prop)
    (hR0 : R (lookupA g startKey))
    (hRsucc : ∀ i, R (some i) → ∀ q ∈ succsOf st i, R (some q.1))
    (hRend : ¬ R (some e)) :
    ShortestPathWithHeuristic st g startKey endKey heuristic = ([], false) := by
  rw [ShortestPathWithHeuristic]
  rw [hend]
  apply astarLoop_no_path st endKey heuristic e R (hclosed_succs hhcl) hRsucc
    hRend
  · refine ⟨List.nodup_singleton _, ?_, fun k _ => rfl, List.nodup_singleton _,
      ?_, ?_, ?_⟩
    · intro it hit
      rw [List.mem_singleton.mp hit]
      simp [lookupA]
    · intro k hk
      simp only [List.map_cons, List.map_nil, List.mem_singleton] at hk
      rw [hk]
      cases hstart : lookupA g startKey with
      | none => exact Or.inl rfl
      | some i =>
        refine Or.inr ⟨i, rfl, ?_⟩
        exact hwf.2.2.1 (startKey, i) (mem_of_lookupA_eq_some hstart)
    · intro it hit
      rw [List.mem_singleton.mp hit]
      exact hR0
    · intro it hit
      rw [List.mem_singleton.mp hit]
      cases hstart : lookupA g startKey with
      | none => exact Or.inl rfl
      | some i =>
        refine Or.inr ⟨i, rfl, ?_⟩
        exact hwf.2.2.1 (startKey, i) (mem_of_lookupA_eq_some hstart)
  · exact List.nodup_nil
  · intro k hk
    cases hk
  · simp

/-- Witness: on the two-node graph `1 -(7)-> 2` nothing is reachable from
`"2"`, so searching from `"2"` to `"1"` returns `([], false)`; the
reachability bound `R` is the concrete set containing only node 1. -/
theorem C8_no_path_amended_witness :
    Wf dgSt dgG ∧ HClosed dgSt ∧ lookupA dgG "1" = some 0 ∧
    ShortestPathWithHeuristic dgSt dgG "2" "1" (fun _ _ => 0) = ([], false) := by
  refine ⟨by decide, by decide, by decide, ?_⟩
  refine C8_no_path_amended dgSt dgG "2" "1" (fun _ _ => 0) 0 (by decide)
    (by decide) (by decide) (fun x => x = some 1) (by decide) ?_ (by decide)
  intro i hi q hq
  have hi1 : i = 1 := by
    injection hi
  subst hi1
  have hsu : succsOf dgSt 1 = [] := by decide
  rw [hsu] at hq
  cases hq

/-- The predecessor-chain invariant of the A* loop relative to the closed
list: every queued or open item has a non-nil node pointer; open entries are
keyed by their node; an item with a nil predecessor is the initial start
item; any other predecessor is an already-closed key. -/
def CInv (s0 : NodeId) (closedL : List (Option NodeId × Item))
    (acc : List Item × List (Option NodeId × Item)) : Prop :=
  (∀ it ∈ acc.1, it.v ≠ none) ∧
  (∀ p ∈ acc.2, (p.2 : Item).v = p.1) ∧
  (∀ it ∈ acc.1, it.prev = none → it.v = some s0) ∧
  (∀ p ∈ acc.2, (p.2 : Item).prev = none → (p.2).v = some s0) ∧
  (∀ it ∈ acc.1, it.prev = none ∨ it.prev ∈ closedL.map Prod.fst) ∧
  (∀ p ∈ acc.2, (p.2 : Item).prev = none ∨ (p.2).prev ∈ closedL.map Prod.fst)

theorem keys_insertA_superset {α β : Type} [DecidableEq α]
    {l : List (α × β)} {k : α} (h : k ∈ l.map Prod.fst) (a : α) (b : β) :
    k ∈ (insertA l a b).map Prod.fst := by
  rw [keys_insertA]
  split
  · exact h
  · exact List.mem_append_left _ h

/-- One successor relaxation preserves the predecessor-chain invariant,
because every pushed item points back at the currently closed node. -/
theorem relaxStep_chain {V : Type} (st : St V) (endKey : String)
    (heuristic : String → String → ℚ) (current : Option NodeId) (dist : ℚ)
    (closedL : List (Option NodeId × Item)) (s0 : NodeId)
    (q : NodeId × ℚ) (hcur : current ≠ none)
    (hcurcl : current ∈ closedL.map Prod.fst)
    (acc : List Item × List (Option NodeId × Item))
    (hinv : CInv s0 closedL acc) :
    CInv s0 closedL (relaxStep st endKey heuristic current dist closedL acc q) := by
  obtain ⟨c1, c2, c3, c4, c5, c6⟩ := hinv
  rw [relaxStep]
  split
  · exact ⟨c1, c2, c3, c4, c5, c6⟩
  · dsimp only
    cases hmd : lookupA acc.2 (some q.1) with
    | some md =>
      dsimp only
      by_cases hlt : md.distanceFromStart < dist + q.2
      · rw [if_pos hlt]
        exact ⟨c1, c2, c3, c4, c5, c6⟩
      · rw [if_neg hlt]
        refine ⟨?_, ?_, ?_, ?_, ?_, ?_⟩
        · intro it hit
          rcases List.mem_append.mp hit with hold | hnew
          · exact c1 it (removeItem_subset _ _ it hold)
          · rw [List.mem_singleton.mp hnew]
            simp
        · intro p hp
          rcases mem_insertA p hp with hold | hnew
          · exact c2 p hold
          · rw [hnew]
        · intro it hit
          rcases List.mem_append.mp hit with hold | hnew
          · exact c3 it (removeItem_subset _ _ it hold)
          · rw [List.mem_singleton.mp hnew]
            intro hpr
            exact absurd hpr.symm (Ne.symm hcur)
        · intro p hp
          rcases mem_insertA p hp with hold | hnew
          · exact c4 p hold
          · rw [hnew]
            intro hpr
            exact absurd hpr.symm (Ne.symm hcur)
        · intro it hit
          rcases List.mem_append.mp hit with hold | hnew
          · exact c5 it (removeItem_subset _ _ it hold)
          · rw [List.mem_singleton.mp hnew]
            exact Or.inr hcurcl
        · intro p hp
          rcases mem_insertA p hp with hold | hnew
          · exact c6 p hold
          · rw [hnew]
            exact Or.inr hcurcl
    | none =>
      dsimp only
      refine ⟨?_, ?_, ?_, ?_, ?_, ?_⟩
      · intro it hit
        rcases List.mem_append.mp hit with hold | hnew
        · exact c1 it hold
        · rw [List.mem_singleton.mp hnew]
          simp
      · intro p hp
        rcases mem_insertA p hp with hold | hnew
        · exact c2 p hold
        · rw [hnew]
      · intro it hit
        rcases List.mem_append.mp hit with hold | hnew
        · exact c3 it hold
        · rw [List.mem_singleton.mp hnew]
          intro hpr
          exact absurd hpr.symm (Ne.symm hcur)
      · intro p hp
        rcases mem_insertA p hp with hold | hnew
        · exact c4 p hold
        · rw [hnew]
          intro hpr
          exact absurd hpr.symm (Ne.symm hcur)
      · intro it hit
        rcases List.mem_append.mp hit with hold | hnew
        · exact c5 it hold
        · rw [List.mem_singleton.mp hnew]
          exact Or.inr hcurcl
      · intro p hp
        rcases mem_insertA p hp with hold | hnew
        · exact c6 p hold
        · rw [hnew]
          exact Or.inr hcurcl

/-- The whole relaxation fold preserves the predecessor-chain invariant. -/
theorem foldl_relax_chain {V : Type} (st : St V) (endKey : String)
    (heuristic : String → String → ℚ) (current : Option NodeId) (dist : ℚ)
    (closedL : List (Option NodeId × Item)) (s0 : NodeId)
    (hcur : current ≠ none) (hcurcl : current ∈ closedL.map Prod.fst) :
    ∀ (succs : List (NodeId × ℚ))
    (acc : List Item × List (Option NodeId × Item)),
    CInv s0 closedL acc →
    CInv s0 closedL
      (succs.foldl (relaxStep st endKey heuristic current dist closedL) acc) := by
  intro succs
  induction succs with
  | nil =>
    intro acc h
    exact h
  | cons q rest ih =>
    intro acc h
    rw [List.foldl_cons]
    exact ih _ (relaxStep_chain st endKey heuristic current dist closedL s0 q
      hcur hcurcl acc h)

/-- Closing the popped node keeps the chain invariant, against the grown
closed list. -/
theorem cinv_after_close (s0 : NodeId) (s : AState) (popped : Item)
    (queue' : List Item) (hpop : popMin s.queue = some (popped, queue'))
    (hc : CInv s0 s.closedL (s.queue, s.openL)) :
    CInv s0 (insertA s.closedL popped.v ((lookupA s.openL popped.v).getD popped))
      (queue', eraseA s.openL popped.v) := by
  obtain ⟨c1, c2, c3, c4, c5, c6⟩ := hc
  have hsubq := popMin_subset hpop
  refine ⟨?_, ?_, ?_, ?_, ?_, ?_⟩
  · intro it hit
    exact c1 it (hsubq it hit)
  · intro p hp
    exact c2 p (eraseA_subset _ _ p hp)
  · intro it hit
    exact c3 it (hsubq it hit)
  · intro p hp
    exact c4 p (eraseA_subset _ _ p hp)
  · intro it hit
    rcases c5 it (hsubq it hit) with h | h
    · exact Or.inl h
    · exact Or.inr (keys_insertA_superset h _ _)
  · intro p hp
    rcases c6 p (eraseA_subset _ _ p hp) with h | h
    · exact Or.inl h
    · exact Or.inr (keys_insertA_superset h _ _)

/-- Closing the popped node keeps the queue/open-list invariant, against
the grown closed list. -/
theorem qinv_after_close {V : Type} (st : St V) (R : Option NodeId → Prop)
    (s : AState) (popped : Item) (queue' : List Item)
    (hpop : popMin s.queue = some (popped, queue'))
    (hq : QInv st s.closedL R (s.queue, s.openL)) :
    QInv st (insertA s.closedL popped.v
      ((lookupA s.openL popped.v).getD popped)) R
      (queue', eraseA s.openL popped.v) := by
  obtain ⟨h1, h2, h3, h8, h5, h6, h7⟩ := hq
  have hpermv : (s.queue.map Item.v).Perm (popped.v :: queue'.map Item.v) :=
    (popMin_perm hpop).map Item.v
  have hndc := (hpermv.nodup_iff).mp h1
  have hvnotin := (List.nodup_cons.mp hndc).1
  have hq'sub := popMin_subset hpop
  refine ⟨(List.nodup_cons.mp hndc).2, ?_, ?_, keys_eraseA_nodup h8 _, ?_, ?_,
    ?_⟩
  · intro it hit
    have hnev : popped.v ≠ it.v := fun heq =>
      hvnotin (heq ▸ List.mem_map_of_mem Item.v hit)
    rw [lookupA_eraseA_ne s.openL hnev h8]
    exact h2 it (hq'sub it hit)
  · intro k hk
    by_cases hkp : k = popped.v
    · rw [hkp, lookupA_eraseA_self s.openL popped.v h8] at hk
      cases hk
    · rw [lookupA_eraseA_ne s.openL (fun h => hkp h.symm) h8] at hk
      rw [lookupA_insertA_ne s.closedL _ (fun h => hkp h.symm)]
      exact h3 k hk
  · intro k hk
    obtain ⟨p, hp, hpk⟩ := List.mem_map.mp hk
    exact h5 k (hpk ▸ List.mem_map_of_mem Prod.fst
      (eraseA_subset s.openL popped.v p hp))
  · intro it hit
    exact h6 it (hq'sub it hit)
  · intro it hit
    exact h7 it (hq'sub it hit)

theorem buildPath_none {V : Type} (st : St V)
    (C : List (Option NodeId × Item)) :
    ∀ (fuel : Nat) (acc : List String),
    buildPath st C fuel none acc = acc := by
  intro fuel acc
  cases fuel with
  | zero => rfl
  | succ f => rfl

/-- Walking the closed list's predecessor chain from any closed node with
enough fuel appends that node's key first and the start node's key last. -/
theorem buildPath_chain {V : Type} (st : St V) (s0 : NodeId)
    (C : List (Option NodeId × Item))
    (hnd : (C.map Prod.fst).Nodup)
    (hvk : ∀ p ∈ C, (p.2 : Item).v = p.1)
    (hpn : ∀ p ∈ C, (p.2 : Item).prev = none → (p.2).v = some s0)
    (hce : ∀ (j : Nat) (hj : j < C.length), C[j].2.prev = none ∨
      ∃ j', ∃ (hj' : j' < C.length), j' < j ∧ C[j'].1 = C[j].2.prev) :
    ∀ (fuel j : Nat) (hj : j < C.length) (i : NodeId),
    C[j].1 = some i → j + 1 ≤ fuel →
    ∀ acc, ∃ tail,
      buildPath st C fuel (some i) acc = acc ++ keyOf st i :: tail ∧
      (keyOf st i :: tail).getLast? = some (keyOf st s0) := by
  intro fuel
  induction fuel with
  | zero =>
    intro j hj i _ hle
    exact absurd hle (by omega)
  | succ fuel ih =>
    intro j hj i hkey hle acc
    have hpm : (some i, C[j].2) ∈ C := by
      have hmem : (C[j].1, C[j].2) ∈ C := by
        rw [Prod.mk.eta]
        exact List.getElem_mem hj
      rwa [hkey] at hmem
    have hlook : lookupA C (some i) = some C[j].2 :=
      lookupA_eq_some_of_mem hnd hpm
    rw [buildPath]
    rw [hlook]
    dsimp only [Option.elim]
    cases hprev : C[j].2.prev with
    | none =>
      rw [buildPath_none]
      refine ⟨[], rfl, ?_⟩
      have hv0 : C[j].2.v = some s0 := hpn (C.get ⟨j, hj⟩) (List.getElem_mem hj) hprev
      have hvi : C[j].2.v = C[j].1 := hvk _ (List.getElem_mem hj)
      rw [hkey] at hvi
      rw [hvi] at hv0
      injection hv0 with his
      rw [his]
      rfl
    | some i' =>
      rcases hce j hj with hnone | ⟨j', hj', hlt, hkey'⟩
      · rw [hprev] at hnone
        cases hnone
      · rw [hprev] at hkey'
        obtain ⟨tail', h1, h2⟩ := ih j' hj' i' hkey' (by omega)
          (acc ++ [keyOf st i])
        refine ⟨keyOf st i' :: tail', ?_, ?_⟩
        · rw [h1]
          simp
        · rw [List.getLast?_cons_cons]
          exact h2

/-- The closed-list chain invariant: entries are keyed by their item's node;
a nil-predecessor entry is the start item; every other predecessor is the
key of a strictly earlier closed entry. -/
def CCInv (s0 : NodeId) (C : List (Option NodeId × Item)) : Prop :=
  (∀ p ∈ C, (p.2 : Item).v = p.1) ∧
  (∀ p ∈ C, (p.2 : Item).prev = none → (p.2).v = some s0) ∧
  (∀ (j : Nat) (hj : j < C.length), C[j].2.prev = none ∨
    ∃ j', ∃ (hj' : j' < C.length), j' < j ∧ C[j'].1 = C[j].2.prev)

/-- Closing the popped node appends a chain-respecting entry: its node is
the entry's key, and its predecessor (when not nil) was closed earlier. -/
theorem ccinv_after_close (s0 : NodeId) (s : AState) (popped : Item)
    (queue' : List Item) (hpop : popMin s.queue = some (popped, queue'))
    (hcc : lookupA s.closedL popped.v = none)
    (hc : CInv s0 s.closedL (s.queue, s.openL))
    (hcc2 : CCInv s0 s.closedL) :
    CCInv s0 (insertA s.closedL popped.v
      ((lookupA s.openL popped.v).getD popped)) := by
  obtain ⟨c1, c2, c3, c4, c5, c6⟩ := hc
  obtain ⟨k1, k2, k3⟩ := hcc2
  rw [insertA_of_lookup_none hcc ((lookupA s.openL popped.v).getD popped)]
  have hvmem := popMin_mem hpop
  have hev : ((lookupA s.openL popped.v).getD popped).v = popped.v := by
    cases hop : lookupA s.openL popped.v with
    | none => rfl
    | some it => simpa using c2 (popped.v, it) (mem_of_lookupA_eq_some hop)
  have hep : ((lookupA s.openL popped.v).getD popped).prev = none →
      ((lookupA s.openL popped.v).getD popped).v = some s0 := by
    cases hop : lookupA s.openL popped.v with
    | none => exact c3 popped hvmem
    | some it =>
      intro hpr
      simpa using c4 (popped.v, it) (mem_of_lookupA_eq_some hop) (by simpa using hpr)
  have hepc : ((lookupA s.openL popped.v).getD popped).prev = none ∨
      ((lookupA s.openL popped.v).getD popped).prev ∈ s.closedL.map Prod.fst := by
    cases hop : lookupA s.openL popped.v with
    | none => exact c5 popped hvmem
    | some it => simpa using c6 (popped.v, it) (mem_of_lookupA_eq_some hop)
  refine ⟨?_, ?_, ?_⟩
  · intro p hp
    rcases List.mem_append.mp hp with hold | hnew
    · exact k1 p hold
    · rw [List.mem_singleton.mp hnew]
      exact hev
  · intro p hp
    rcases List.mem_append.mp hp with hold | hnew
    · exact k2 p hold
    · rw [List.mem_singleton.mp hnew]
      exact hep
  · intro j hj
    have hlen : (s.closedL ++
        [(popped.v, (lookupA s.openL popped.v).getD popped)]).length =
        s.closedL.length + 1 := by
      simp
    by_cases hjl : j < s.closedL.length
    · have hgetj : (s.closedL ++
          [(popped.v, (lookupA s.openL popped.v).getD popped)])[j] =
          s.closedL[j] := List.getElem_append_left hjl
      rcases k3 j hjl with hnone | ⟨j', hj', hlt, hkeq⟩
      · left
        rw [hgetj]
        exact hnone
      · right
        refine ⟨j', by rw [hlen]; omega, hlt, ?_⟩
        have hgetj' : (s.closedL ++
            [(popped.v, (lookupA s.openL popped.v).getD popped)])[j'] =
            s.closedL[j'] := List.getElem_append_left hj'
        rw [hgetj, hgetj']
        exact hkeq
    · have hje : j = s.closedL.length := by
        rw [hlen] at hj
        omega
      subst hje
      have hgetj : (s.closedL ++
          [(popped.v, (lookupA s.openL popped.v).getD popped)])[s.closedL.length]
          = (popped.v, (lookupA s.openL popped.v).getD popped) := by
        simp
      rw [hgetj]
      rcases hepc with hnone | hmem
      · left
        exact hnone
      · right
        obtain ⟨p, hp, hpk⟩ := List.mem_map.mp hmem
        obtain ⟨j', hj', hpe⟩ := List.getElem_of_mem hp
        refine ⟨j', by rw [hlen]; omega, by omega, ?_⟩
        have hgetj' : (s.closedL ++
            [(popped.v, (lookupA s.openL popped.v).getD popped)])[j'] =
            s.closedL[j'] := List.getElem_append_left hj'
        rw [hgetj', hpe, hpk]

/-- Whenever the A* loop reports `exists = true`, the returned slice starts
with the end node's key and finishes with the start node's key: the built
path is in end-to-start order. -/
theorem astarLoop_end_first {V : Type} (st : St V) (endKey : String)
    (heuristic : String → String → ℚ) (e s0 : NodeId)
    (hhcl : ∀ i, ∀ q ∈ succsOf st i, q.1 ∈ st.heap.map Prod.fst) :
    ∀ (fuel : Nat) (s : AState),
    QInv st s.closedL (fun _ => True) (s.queue, s.openL) →
    CInv s0 s.closedL (s.queue, s.openL) →
    CCInv s0 s.closedL →
    ((s.closedL.map Prod.fst).Nodup) →
    ∀ path, astarLoop st endKey heuristic (some e) fuel s = (path, true) →
    ∃ tail, path = keyOf st e :: tail ∧
      path.getLast? = some (keyOf st s0) := by
  intro fuel
  induction fuel with
  | zero =>
    intro s _ _ _ _ path h
    rw [astarLoop] at h
    injection h with h1 h2
    cases h2
  | succ fuel ih =>
    intro s hq hc hcc hnd path h
    have hq2 := hq.2.1
    have hq3 := hq.2.2.1
    rw [astarLoop] at h
    cases hpop : popMin s.queue with
    | none =>
      rw [hpop] at h
      injection h with h1 h2
      cases h2
    | some pq =>
      obtain ⟨popped, queue'⟩ := pq
      rw [hpop] at h
      dsimp only at h
      have hvmem := popMin_mem hpop
      have hoc : (lookupA s.openL popped.v).isSome := hq2 popped hvmem
      have hccn : lookupA s.closedL popped.v = none := hq3 _ hoc
      have hins := insertA_of_lookup_none hccn
        ((lookupA s.openL popped.v).getD popped)
      have hnd' : ((insertA s.closedL popped.v
          ((lookupA s.openL popped.v).getD popped)).map Prod.fst).Nodup := by
        rw [hins, List.map_append]
        rw [List.nodup_append]
        refine ⟨hnd, List.nodup_singleton _, ?_⟩
        intro a ha hb
        rw [List.mem_singleton.mp hb] at ha
        exact (lookupA_eq_none_iff.mp hccn) ha
      have hcc' := ccinv_after_close s0 s popped queue' hpop hccn hc hcc
      by_cases hend : popped.v = some e
      · rw [if_pos hend] at h
        injection h with h1 h2
        obtain ⟨k1, k2, k3⟩ := hcc'
        have hjlen : s.closedL.length < (insertA s.closedL popped.v
            ((lookupA s.openL popped.v).getD popped)).length := by
          rw [hins]
          simp
        have hkey : (insertA s.closedL popped.v
            ((lookupA s.openL popped.v).getD popped))[s.closedL.length].1
            = some e := by
          have hget : (insertA s.closedL popped.v
              ((lookupA s.openL popped.v).getD popped))[s.closedL.length]
              = (popped.v, (lookupA s.openL popped.v).getD popped) := by
            simp [hins]
          rw [hget]
          exact hend
        obtain ⟨tail, hbp, hlast⟩ := buildPath_chain st s0 _ hnd' k1 k2 k3
          ((insertA s.closedL popped.v
            ((lookupA s.openL popped.v).getD popped)).length + 1)
          s.closedL.length hjlen e hkey (by omega) []
        rw [← hend] at hbp
        rw [hbp] at h1
        refine ⟨tail, ?_, ?_⟩
        · rw [← h1]
          simp
        · rw [← h1]
          simpa using hlast
      · rw [if_neg hend] at h
        have hcur : popped.v ≠ none := hc.1 popped hvmem
        have hcurcl : popped.v ∈ (insertA s.closedL popped.v
            ((lookupA s.openL popped.v).getD popped)).map Prod.fst := by
          rw [← lookupA_isSome_iff, lookupA_insertA_self]
          rfl
        refine ih _ ?_ ?_ hcc' hnd' path h
        · rw [relaxSuccs]
          apply foldl_relax_inv
          · intro p hp
            cases hv : popped.v with
            | none =>
              rw [hv] at hp
              cases hp
            | some i =>
              rw [hv] at hp
              exact hhcl i p hp
          · intro p _
            trivial
          · exact qinv_after_close st (fun _ => True) s popped queue' hpop hq
        · rw [relaxSuccs]
          apply foldl_relax_chain st endKey heuristic popped.v _ _ s0 hcur
            hcurcl
          exact cinv_after_close s0 s popped queue' hpop hc

/-- C2 (amended): when both keys are registered and
`ShortestPathWithHeuristic` reports `exists = true` (the popped minimum item
is the end node), the returned slice lists node keys from the END node first
to the START node last: the code walks predecessor links from the end but
never reverses the slice. -/
theorem C2_path_order_amended {V : Type} (st : St V) (g : GraphM)
    (startKey endKey : String) (heuristic : String → String → ℚ)
    (s0 e : NodeId) (hwf : Wf st g) (hhcl : HClosed st)
    (hstart : lookupA g startKey = some s0)
    (hend : lookupA g endKey = some e) (path : List String)
    (h : ShortestPathWithHeuristic st g startKey endKey heuristic
      = (path, true)) :
    ∃ tail, path = endKey :: tail ∧ path.getLast? = some startKey := by
  rw [ShortestPathWithHeuristic] at h
  rw [hend, hstart] at h
  have hs0mem : s0 ∈ st.heap.map Prod.fst :=
    hwf.2.2.1 (startKey, s0) (mem_of_lookupA_eq_some hstart)
  have hQ : QInv st ([] : List (Option NodeId × Item)) (fun _ => True)
      ([⟨some s0, none, 0, 0⟩], [(some s0, ⟨some s0, none, 0, 0⟩)]) := by
    refine ⟨List.nodup_singleton _, ?_, fun k _ => rfl,
      List.nodup_singleton _, ?_, fun _ _ => trivial, ?_⟩
    · intro it hit
      rw [List.mem_singleton.mp hit]
      simp [lookupA]
    · intro k hk
      simp only [List.map_cons, List.map_nil, List.mem_singleton] at hk
      rw [hk]
      exact Or.inr ⟨s0, rfl, hs0mem⟩
    · intro it hit
      rw [List.mem_singleton.mp hit]
      exact Or.inr ⟨s0, rfl, hs0mem⟩
  have hC : CInv s0 ([] : List (Option NodeId × Item))
      ([⟨some s0, none, 0, 0⟩], [(some s0, ⟨some s0, none, 0, 0⟩)]) := by
    refine ⟨?_, ?_, ?_, ?_, ?_, ?_⟩
    · intro it hit
      rw [List.mem_singleton.mp hit]
      simp
    · intro p hp
      rw [List.mem_singleton.mp hp]
    · intro it hit _
      rw [List.mem_singleton.mp hit]
    · intro p hp _
      rw [List.mem_singleton.mp hp]
    · intro it hit
      rw [List.mem_singleton.mp hit]
      exact Or.inl rfl
    · intro p hp
      rw [List.mem_singleton.mp hp]
      exact Or.inl rfl
  have hCC : CCInv s0 ([] : List (Option NodeId × Item)) := by
    refine ⟨?_, ?_, ?_⟩
    · intro p hp
      cases hp
    · intro p hp
      cases hp
    · intro j hj
      exact absurd hj (by simp)
  obtain ⟨tail, hp, hl⟩ := astarLoop_end_first st endKey heuristic e s0
    (hclosed_succs hhcl) (st.heap.length + 2)
    ⟨[⟨some s0, none, 0, 0⟩], [(some s0, ⟨some s0, none, 0, 0⟩)], []⟩
    hQ hC hCC List.nodup_nil path h
  have hke : keyOf st e = endKey :=
    hwf.2.2.2.2.2.2 (endKey, e) (mem_of_lookupA_eq_some hend)
  have hks : keyOf st s0 = startKey :=
    hwf.2.2.2.2.2.2 (startKey, s0) (mem_of_lookupA_eq_some hstart)
  rw [hke] at hp
  rw [hks] at hl
  exact ⟨tail, hp, hl⟩

/-- Witness: on the two-node graph `1 -(7)-> 2` the search from `"1"` to
`"2"` succeeds and returns `["2", "1"]`, end key first, start key last. -/
theorem C2_path_order_amended_witness :
    Wf dgSt dgG ∧ HClosed dgSt ∧
    ShortestPathWithHeuristic dgSt dgG "1" "2" (fun _ _ => 0)
      = (["2", "1"], true) ∧
    (∃ tail, ["2", "1"] = "2" :: tail ∧
      (["2", "1"] : List String).getLast? = some "1") := by
  refine ⟨by decide, by decide, by decide, ?_⟩
  exact C2_path_order_amended dgSt dgG "1" "2" (fun _ _ => 0) 0 1 (by decide)
    (by decide) (by decide) (by decide) ["2", "1"] (by decide)

end AkGraph
